import Mathlib

/-!
Verification of the graph-algorithms toolkit: a weighted graph, a binary
min-heap priority queue, FIFO queue, LIFO stack, and the four search
algorithms (BFS, DFS, Dijkstra, A*). Node values are modelled as naturals,
finite edge weights as rationals, and the positive-infinity float sentinel
as the top element of WithTop Rat. Python dictionaries are modelled as
insertion-ordered association lists, and the unbounded search loops as
fuel-indexed recursions returning Option (none meaning the fuel ran out).
-/

set_option maxHeartbeats 1600000

namespace AlgoEngine

/-- Node values: opaque hashable identifiers, modelled as naturals. -/
abbrev Val := Nat

/-- Costs and priorities: rationals extended with the infinity sentinel. -/
abbrev Cost := WithTop Rat

/-! Priority queue: array-backed binary min-heap over (priority, value). -/

/-- Priority stored at a heap position (top if out of bounds; in-bounds at
every use site of the source). -/
def prioAt {α : Type} (l : List (Cost × α)) (i : Nat) : Cost :=
  ((l[i]?).map Prod.fst).getD ⊤

/-- Swap two in-bounds positions of a list; identity when out of bounds. -/
def listSwap {α : Type} (l : List α) (i j : Nat) : List α :=
  match l[i]?, l[j]? with
  | some a, some b => (l.set i b).set j a
  | _, _ => l

theorem listSwap_length {α : Type} (l : List α) (i j : Nat) :
    (listSwap l i j).length = l.length := by
  unfold listSwap
  rcases hi : l[i]? with _ | a <;> rcases hj : l[j]? with _ | b <;> simp

/-- Restore the heap property by moving the element at index up, swapping
with the parent while it is strictly smaller. -/
def heapify_up {α : Type} (l : List (Cost × α)) (index : Nat) : List (Cost × α) :=
  if h : 0 < index ∧ prioAt l index < prioAt l ((index - 1) / 2) then
    heapify_up (listSwap l index ((index - 1) / 2)) ((index - 1) / 2)
  else l
termination_by index
decreasing_by
  have h1 := h.1
  omega

/-- Index of the smallest among a node and its (at most two) children. -/
def childMin {α : Type} (l : List (Cost × α)) (index : Nat) : Nat :=
  let smallest :=
    if 2 * index + 1 < l.length ∧ prioAt l (2 * index + 1) < prioAt l index then
      2 * index + 1
    else index
  if 2 * index + 2 < l.length ∧ prioAt l (2 * index + 2) < prioAt l smallest then
    2 * index + 2
  else smallest

theorem childMin_cases {α : Type} (l : List (Cost × α)) (index : Nat) :
    childMin l index = index ∨
      (childMin l index < l.length ∧ index < childMin l index) := by
  unfold childMin
  dsimp only
  split_ifs <;> omega

/-- Restore the heap property by moving the element at index down, swapping
with the smaller child while that child is strictly smaller. -/
def heapify_down {α : Type} (l : List (Cost × α)) (index : Nat) : List (Cost × α) :=
  if h : childMin l index ≠ index then
    heapify_down (listSwap l index (childMin l index)) (childMin l index)
  else l
termination_by l.length - index
decreasing_by
  rcases childMin_cases l index with heq | ⟨hlt, hgt⟩
  · exact absurd heq h
  · rw [listSwap_length]
    omega

/-- Binary min-heap priority queue over (priority, value) pairs. -/
structure PriorityQueue (α : Type) where
  heap : List (Cost × α)
deriving DecidableEq

namespace PriorityQueue

/-- The empty priority queue. -/
def empty {α : Type} : PriorityQueue α := ⟨[]⟩

/-- Number of stored elements. -/
def size {α : Type} (q : PriorityQueue α) : Nat := q.heap.length

/-- Emptiness test. -/
def is_empty {α : Type} (q : PriorityQueue α) : Bool := q.size == 0

/-- Insert an element with a given priority: append, then heapify up. -/
def insert {α : Type} (q : PriorityQueue α) (value : α) (priority : Cost) :
    PriorityQueue α :=
  ⟨heapify_up (q.heap ++ [(priority, value)]) (q.heap.length + 1 - 1)⟩

/-- Remove and return the element with minimum priority; none models the
IndexError raised on an empty queue. The last element moves to the root
and is heapified down. -/
def extract_min {α : Type} (q : PriorityQueue α) :
    Option ((Cost × α) × PriorityQueue α) :=
  match hq : q.heap with
  | [] => none
  | min_item :: rest =>
    let last := (min_item :: rest).getLast (List.cons_ne_nil _ _)
    let shrunk := ((min_item :: rest).set 0 last).dropLast
    let final := if shrunk.length == 0 then shrunk else heapify_down shrunk 0
    some (min_item, ⟨final⟩)

/-- Return the element with minimum priority without removing it; none
models the IndexError raised on an empty queue. -/
def peek_min {α : Type} (q : PriorityQueue α) : Option (Cost × α) :=
  q.heap.head?

end PriorityQueue

/-! FIFO queue and LIFO stack (linked-list backed). -/

/-- FIFO queue; the list front is the queue front. -/
structure Queue (α : Type) where
  items : List α
deriving DecidableEq

namespace Queue

/-- The empty queue. -/
def empty {α : Type} : Queue α := ⟨[]⟩

/-- Add an element at the rear. -/
def enqueue {α : Type} (q : Queue α) (value : α) : Queue α := ⟨q.items ++ [value]⟩

/-- Remove and return the front element; none models the IndexError on an
empty queue. -/
def dequeue {α : Type} (q : Queue α) : Option (α × Queue α) :=
  match q.items with
  | [] => none
  | x :: rest => some (x, ⟨rest⟩)

/-- Front element without removal; none models the IndexError. -/
def peek {α : Type} (q : Queue α) : Option α := q.items.head?

/-- Emptiness test. -/
def is_empty {α : Type} (q : Queue α) : Bool := q.items.isEmpty

/-- Number of stored elements. -/
def size {α : Type} (q : Queue α) : Nat := q.items.length

end Queue

/-- LIFO stack; the list head is the stack top. -/
structure Stack (α : Type) where
  items : List α
deriving DecidableEq

namespace Stack

/-- The empty stack. -/
def empty {α : Type} : Stack α := ⟨[]⟩

/-- Push an element on top. -/
def push {α : Type} (s : Stack α) (value : α) : Stack α := ⟨value :: s.items⟩

/-- Remove and return the top element; none models the IndexError on an
empty stack. -/
def pop {α : Type} (s : Stack α) : Option (α × Stack α) :=
  match s.items with
  | [] => none
  | x :: rest => some (x, ⟨rest⟩)

/-- Top element without removal; none models the IndexError. -/
def peek {α : Type} (s : Stack α) : Option α := s.items.head?

/-- Emptiness test. -/
def is_empty {α : Type} (s : Stack α) : Bool := s.items.isEmpty

/-- Number of stored elements. -/
def size {α : Type} (s : Stack α) : Nat := s.items.length

end Stack

/-! Graph: node registry plus weighted adjacency, both insertion-ordered
association lists mirroring Python dictionaries. -/

/-- Adjacency of one node: neighbor value paired with finite edge weight. -/
abbrev Adj := List (Val × Rat)

/-- Update an adjacency dictionary: an existing key keeps its position and
gets the new weight, a new key is appended. -/
def setWeight : Adj → Val → Rat → Adj
  | [], v, w => [(v, w)]
  | e :: rest, v, w => if e.1 = v then (v, w) :: rest else e :: setWeight rest v w

/-- Directed or undirected weighted graph: mode flag plus value-keyed node
dictionary carrying each node adjacency. -/
structure Graph where
  directed : Bool
  nodes : List (Val × Adj)
deriving DecidableEq

namespace Graph

/-- Look a node up by value, returning its adjacency when present. -/
def get_node (g : Graph) (value : Val) : Option Adj :=
  (g.nodes.find? (fun nv => nv.1 == value)).map Prod.snd

/-- Add a node if absent (idempotent). -/
def add_node (g : Graph) (value : Val) : Graph :=
  if (g.get_node value).isSome then g
  else ⟨g.directed, g.nodes ++ [(value, [])]⟩

/-- Set the weight of the directed edge from one existing node to a value. -/
def setNeighbor (g : Graph) (from_value to_value : Val) (w : Rat) : Graph :=
  ⟨g.directed, g.nodes.map fun nv =>
    if nv.1 == from_value then (nv.1, setWeight nv.2 to_value w) else nv⟩

/-- Add an edge, auto-creating missing endpoints; undirected graphs also set
the reverse direction. -/
def add_edge (g : Graph) (from_value to_value : Val) (weight : Rat) : Graph :=
  let g2 := (g.add_node from_value).add_node to_value
  let g3 := g2.setNeighbor from_value to_value weight
  if g.directed then g3 else g3.setNeighbor to_value from_value weight

/-- All node values in insertion order. -/
def nodeValues (g : Graph) : List Val := g.nodes.map Prod.fst

/-- Adjacency of a value (empty when the node is absent). -/
def adjOf (g : Graph) (value : Val) : Adj := (g.get_node value).getD []

/-- Neighbor values of a node in adjacency insertion order. -/
def get_neighbors (g : Graph) (value : Val) : List Val :=
  (g.adjOf value).map Prod.fst

/-- Weight of the edge recorded in an adjacency, infinity when absent. -/
def weightTo (adj : Adj) (to_value : Val) : Cost :=
  match adj.find? (fun e => e.1 == to_value) with
  | some e => (e.2 : Cost)
  | none => ⊤

/-- Weight of a directed edge between two values; infinity when either node
or the edge is absent. -/
def get_edge_weight (g : Graph) (from_value to_value : Val) : Cost :=
  match g.get_node from_value, g.get_node to_value with
  | some adj, some _ => weightTo adj to_value
  | _, _ => ⊤

/-- Total number of directed adjacency entries. -/
def edgeTotal (g : Graph) : Nat := (g.nodes.map (fun nv => nv.2.length)).sum

/-- Well-formedness enjoyed by every graph built through the class API:
node keys are distinct, each adjacency has distinct keys, and every
adjacency target is a registered node. -/
def WF (g : Graph) : Prop :=
  (g.nodes.map Prod.fst).Nodup ∧
    (∀ nv ∈ g.nodes, (nv.2.map Prod.fst).Nodup) ∧
    ∀ nv ∈ g.nodes, ∀ e ∈ nv.2, e.1 ∈ g.nodes.map Prod.fst

instance (g : Graph) : Decidable g.WF := by
  unfold WF
  infer_instance

/-- All stored edge weights are nonnegative. -/
def Nonneg (g : Graph) : Prop :=
  ∀ nv ∈ g.nodes, ∀ e ∈ nv.2, 0 ≤ e.2

instance (g : Graph) : Decidable g.Nonneg := by
  unfold Nonneg
  infer_instance

end Graph

/-! Search result records: the uniform output contract. BFS and DFS return
no cost field; Dijkstra and A* additionally return the path cost. -/

/-- Result record of BFS and DFS. -/
structure SearchResult where
  found : Bool
  path : List Val
  visited : List Val
  nodes_explored : Nat
deriving DecidableEq

/-- Result record of Dijkstra and A*. -/
structure WeightedResult where
  found : Bool
  path : List Val
  cost : Cost
  visited : List Val
  nodes_explored : Nat
deriving DecidableEq

/-- Parent maps: a key can be absent (none), present mapping to None
(some none, the start marker), or present mapping to a node. -/
abbrev ParentMap := Val → Option (Option Val)

/-- The parent map with no keys. -/
def emptyParent : ParentMap := fun _ => none

/-- Set one key of a parent map. -/
def setParent (p : ParentMap) (key : Val) (value : Option Val) : ParentMap :=
  fun x => if x = key then some value else p x

/-- Walk parent links using dictionary access that raises on a missing key
(BFS and DFS reconstruction); none models the KeyError or exhausted fuel.
The returned list starts at the queried node; the caller reverses it. -/
def walkParentsIdx (parent : ParentMap) : Nat → Option Val → Option (List Val)
  | _, none => some []
  | 0, some _ => none
  | fuel + 1, some v =>
    match parent v with
    | none => none
    | some nxt => (walkParentsIdx parent fuel nxt).map (fun l => v :: l)

/-- Walk parent links using dictionary get with default None (Dijkstra and
A* reconstruction); a missing key ends the walk. -/
def walkParentsGet (parent : ParentMap) : Nat → Option Val → Option (List Val)
  | _, none => some []
  | 0, some _ => none
  | fuel + 1, some v =>
    (walkParentsGet parent fuel (parent v).join).map (fun l => v :: l)

/-- Fuel ample for every search loop: pops are bounded by insertions, which
are bounded per settled node by its degree. -/
def searchFuel (g : Graph) : Nat :=
  (g.nodes.length + 1) * (g.edgeTotal + 2) + 2

/-- Fuel ample for parent-walk reconstruction. -/
def walkFuel (g : Graph) : Nat := g.nodes.length + 1

/-! Breadth-first search. -/

/-- Mutable state of the BFS loop. -/
structure BfsState where
  queue : Queue Val
  visited : List Val
  parent : ParentMap
  visitedOrder : List Val

/-- Neighbor scan of BFS: each unvisited neighbor is marked visited, gets
its parent set, is enqueued, and is appended to the visited order. -/
def bfsScan (g : Graph) (current : Val) (st : BfsState) : BfsState :=
  (g.adjOf current).foldl
    (fun s e =>
      if s.visited.contains e.1 then s
      else
        ⟨s.queue.enqueue e.1, s.visited ++ [e.1],
          setParent s.parent e.1 (some current), s.visitedOrder ++ [e.1]⟩)
    st

/-- The BFS frontier loop. -/
def bfsLoop (g : Graph) (goal_value : Val) : Nat → BfsState → Option SearchResult
  | 0, _ => none
  | fuel + 1, st =>
    if st.queue.is_empty then
      some ⟨false, [], st.visitedOrder, st.visited.length⟩
    else
      match st.queue.dequeue with
      | none => none
      | some (current, q') =>
        if current = goal_value then
          (walkParentsIdx st.parent (walkFuel g) (some goal_value)).map
            (fun p => ⟨true, p.reverse, st.visitedOrder, st.visited.length⟩)
        else
          bfsLoop g goal_value fuel (bfsScan g current { st with queue := q' })

/-- Breadth-first search from a start value to a goal value. -/
def breadth_first_search (g : Graph) (start_value goal_value : Val) :
    Option SearchResult :=
  match g.get_node start_value, g.get_node goal_value with
  | some _, some _ =>
    bfsLoop g goal_value (searchFuel g)
      ⟨Queue.empty.enqueue start_value, [start_value],
        setParent emptyParent start_value none, [start_value]⟩
  | _, _ => some ⟨false, [], [], 0⟩

/-! Depth-first search. -/

/-- Mutable state of the DFS loop. -/
structure DfsState where
  stack : Stack Val
  visited : List Val
  parent : ParentMap
  visitedOrder : List Val

/-- Neighbor scan of DFS: unvisited neighbors are pushed in reverse
adjacency order; a parent is only set on first discovery. -/
def dfsScan (g : Graph) (current : Val) (st : DfsState) : DfsState :=
  (g.adjOf current).reverse.foldl
    (fun s e =>
      if s.visited.contains e.1 then s
      else
        { s with
          parent := if (s.parent e.1).isSome then s.parent
                    else setParent s.parent e.1 (some current),
          stack := s.stack.push e.1 })
    st

/-- The DFS frontier loop with lazy duplicate skipping. -/
def dfsLoop (g : Graph) (goal_value : Val) : Nat → DfsState → Option SearchResult
  | 0, _ => none
  | fuel + 1, st =>
    if st.stack.is_empty then
      some ⟨false, [], st.visitedOrder, st.visited.length⟩
    else
      match st.stack.pop with
      | none => none
      | some (current, s') =>
        if st.visited.contains current then
          dfsLoop g goal_value fuel { st with stack := s' }
        else
          let st1 : DfsState :=
            { st with
              stack := s'
              visited := st.visited ++ [current]
              visitedOrder := st.visitedOrder ++ [current] }
          if current = goal_value then
            (walkParentsIdx st1.parent (walkFuel g) (some goal_value)).map
              (fun p => ⟨true, p.reverse, st1.visitedOrder, st1.visited.length⟩)
          else
            dfsLoop g goal_value fuel (dfsScan g current st1)

/-- Depth-first search from a start value to a goal value. -/
def depth_first_search (g : Graph) (start_value goal_value : Val) :
    Option SearchResult :=
  match g.get_node start_value, g.get_node goal_value with
  | some _, some _ =>
    dfsLoop g goal_value (searchFuel g)
      ⟨Stack.empty.push start_value, [],
        setParent emptyParent start_value none, []⟩
  | _, _ => some ⟨false, [], [], 0⟩

/-! Dijkstra. -/

/-- Total distance maps (Python dictionaries keyed by every graph node). -/
abbrev CostMap := Val → Cost

/-- Set one key of a cost map. -/
def setCost (f : CostMap) (key : Val) (value : Cost) : CostMap :=
  fun x => if x = key then value else f x

/-- Mutable state of the Dijkstra loop. -/
structure DijkstraState where
  distance : CostMap
  parent : ParentMap
  visited : List Val
  visitedOrder : List Val
  pq : PriorityQueue Val

/-- Relaxation scan of Dijkstra over the neighbors of the settled node. -/
def dijkstraScan (g : Graph) (current : Val) (st : DijkstraState) : DijkstraState :=
  (g.adjOf current).foldl
    (fun s e =>
      if s.visited.contains e.1 then s
      else
        let new_distance := s.distance current + (e.2 : Cost)
        if new_distance < s.distance e.1 then
          { s with
            distance := setCost s.distance e.1 new_distance
            parent := setParent s.parent e.1 (some current)
            pq := s.pq.insert e.1 new_distance }
        else s)
    st

/-- The Dijkstra frontier loop with lazy deletion and early goal exit. -/
def dijkstraLoop (g : Graph) (goal_value : Val) :
    Nat → DijkstraState → Option WeightedResult
  | 0, _ => none
  | fuel + 1, st =>
    if st.pq.is_empty then
      some ⟨false, [], ⊤, st.visitedOrder, st.visited.length⟩
    else
      match st.pq.extract_min with
      | none => none
      | some ((_, current), pq') =>
        if st.visited.contains current then
          dijkstraLoop g goal_value fuel { st with pq := pq' }
        else
          let st1 : DijkstraState :=
            { st with
              pq := pq'
              visited := st.visited ++ [current]
              visitedOrder := st.visitedOrder ++ [current] }
          if current = goal_value then
            (walkParentsGet st1.parent (walkFuel g) (some goal_value)).map
              (fun p =>
                ⟨true, p.reverse, st1.distance goal_value, st1.visitedOrder,
                  st1.visited.length⟩)
          else
            dijkstraLoop g goal_value fuel (dijkstraScan g current st1)

/-- Dijkstra shortest path search from a start value to a goal value. -/
def dijkstra (g : Graph) (start_value goal_value : Val) : Option WeightedResult :=
  match g.get_node start_value, g.get_node goal_value with
  | some _, some _ =>
    dijkstraLoop g goal_value (searchFuel g)
      ⟨fun v => if v = start_value then 0 else ⊤,
        setParent emptyParent start_value none, [], [],
        PriorityQueue.empty.insert start_value 0⟩
  | _, _ => some ⟨false, [], ⊤, [], 0⟩

/-! A* search. -/

/-- Heuristics: callables from a node value and the goal value to a float. -/
abbrev Heuristic := Val → Val → Rat

/-- The zero heuristic, degenerating A* into Dijkstra. -/
def zero_heuristic : Heuristic := fun _ _ => 0

/-- Mutable state of the A* loop. -/
structure AStarState where
  g_score : CostMap
  f_score : CostMap
  parent : ParentMap
  visited : List Val
  visitedOrder : List Val
  pq : PriorityQueue Val

/-- Relaxation scan of A*: an improved g score updates the f score and
enqueues the neighbor at its f score. -/
def astarScan (g : Graph) (goal_value : Val) (h : Heuristic) (current : Val)
    (st : AStarState) : AStarState :=
  (g.adjOf current).foldl
    (fun s e =>
      if s.visited.contains e.1 then s
      else
        let tentative_g_score := s.g_score current + (e.2 : Cost)
        if tentative_g_score < s.g_score e.1 then
          { s with
            parent := setParent s.parent e.1 (some current)
            g_score := setCost s.g_score e.1 tentative_g_score
            f_score :=
              setCost s.f_score e.1 (tentative_g_score + (h e.1 goal_value : Rat))
            pq := s.pq.insert e.1 (tentative_g_score + (h e.1 goal_value : Rat)) }
        else s)
    st

/-- The A* frontier loop with lazy deletion and early goal exit. -/
def astarLoop (g : Graph) (goal_value : Val) (h : Heuristic) :
    Nat → AStarState → Option WeightedResult
  | 0, _ => none
  | fuel + 1, st =>
    if st.pq.is_empty then
      some ⟨false, [], ⊤, st.visitedOrder, st.visited.length⟩
    else
      match st.pq.extract_min with
      | none => none
      | some ((_, current), pq') =>
        if st.visited.contains current then
          astarLoop g goal_value h fuel { st with pq := pq' }
        else
          let st1 : AStarState :=
            { st with
              pq := pq'
              visited := st.visited ++ [current]
              visitedOrder := st.visitedOrder ++ [current] }
          if current = goal_value then
            (walkParentsGet st1.parent (walkFuel g) (some goal_value)).map
              (fun p =>
                ⟨true, p.reverse, st1.g_score goal_value, st1.visitedOrder,
                  st1.visited.length⟩)
          else
            astarLoop g goal_value h fuel (astarScan g goal_value h current st1)

/-- A* search from a start value to a goal value with a heuristic. -/
def astar (g : Graph) (start_value goal_value : Val) (h : Heuristic) :
    Option WeightedResult :=
  match g.get_node start_value, g.get_node goal_value with
  | some _, some _ =>
    astarLoop g goal_value h (searchFuel g)
      ⟨fun v => if v = start_value then 0 else ⊤,
        fun v => if v = start_value then ((h start_value goal_value : Rat) : Cost)
                 else ⊤,
        setParent emptyParent start_value none, [], [],
        PriorityQueue.empty.insert start_value
          ((h start_value goal_value : Rat) : Cost)⟩
  | _, _ => some ⟨false, [], ⊤, [], 0⟩

/-! Verification of the binary heap. -/

/-- The binary min-heap ordering property: every parent priority is at most
the child priority. -/
def IsMinHeap {α : Type} (l : List (Cost × α)) : Prop :=
  ∀ c, 0 < c → c < l.length → prioAt l ((c - 1) / 2) ≤ prioAt l c


theorem headSwap_perm {α : Type} :
    ∀ (t : List α) (m : Nat) (hm : m < t.length) (x : α),
      (t.get ⟨m, hm⟩ :: t.set m x).Perm (x :: t)
  | a :: t', 0, _, x => List.Perm.swap x a t'
  | a :: t', m + 1, hm, x => by
    have hm' : m < t'.length := by simpa using hm
    have ih := headSwap_perm t' m hm' x
    show (t'.get ⟨m, hm'⟩ :: a :: t'.set m x).Perm (x :: a :: t')
    exact (List.Perm.swap _ _ _).trans ((ih.cons a).trans (List.Perm.swap _ _ _))

theorem setSwap_perm {α : Type} :
    ∀ (l : List α) (i j : Nat) (hi : i < l.length) (hj : j < l.length),
      ((l.set i (l.get ⟨j, hj⟩)).set j (l.get ⟨i, hi⟩)).Perm l
  | a :: t, 0, 0, _, _ => by simp
  | a :: t, 0, j + 1, hi, hj => by
    have := headSwap_perm t j (by simpa using hj) a
    simpa using this
  | a :: t, i + 1, 0, hi, hj => by
    have := headSwap_perm t i (by simpa using hi) a
    simpa using this
  | a :: t, i + 1, j + 1, hi, hj => by
    have ih := setSwap_perm t i j (by simpa using hi) (by simpa using hj)
    simpa using ih.cons a

theorem listSwap_perm {α : Type} (l : List α) (i j : Nat) :
    (listSwap l i j).Perm l := by
  unfold listSwap
  rcases hi' : l[i]? with _ | a
  · exact List.Perm.refl l
  rcases hj' : l[j]? with _ | b
  · exact List.Perm.refl l
  obtain ⟨hi, hia⟩ := List.getElem?_eq_some_iff.mp hi'
  obtain ⟨hj, hjb⟩ := List.getElem?_eq_some_iff.mp hj'
  have ha : a = l.get ⟨i, hi⟩ := hia.symm
  have hb : b = l.get ⟨j, hj⟩ := hjb.symm
  rw [ha, hb]
  exact setSwap_perm l i j hi hj

theorem listSwap_getElem? {α : Type} {l : List α} {i j : Nat}
    (hi : i < l.length) (hj : j < l.length) (k : Nat) :
    (listSwap l i j)[k]? =
      if j = k then some (l.get ⟨i, hi⟩)
      else if i = k then some (l.get ⟨j, hj⟩)
      else l[k]? := by
  unfold listSwap
  rw [List.getElem?_eq_getElem hi, List.getElem?_eq_getElem hj]
  rw [List.getElem?_set, List.getElem?_set]
  simp only [List.length_set]
  rcases eq_or_ne j k with rfl | hjk
  · simp [hj]
  · rw [if_neg hjk, if_neg hjk]
    rcases eq_or_ne i k with rfl | hik
    · simp [hi]
    · rw [if_neg hik, if_neg hik]

theorem prioAt_listSwap {α : Type} {l : List (Cost × α)} {i j : Nat}
    (hi : i < l.length) (hj : j < l.length) (k : Nat) :
    prioAt (listSwap l i j) k =
      if j = k then prioAt l i else if i = k then prioAt l j else prioAt l k := by
  unfold prioAt
  rw [listSwap_getElem? hi hj k]
  split_ifs with h1 h2
  · subst h1
    rw [List.getElem?_eq_getElem hi]
    rfl
  · subst h2
    rw [List.getElem?_eq_getElem hj]
    rfl
  · rfl

/-- Heap property everywhere except possibly on the edge into the hole, with
the children of a positive hole already bounded by the parent of the hole. -/
def UpInv {α : Type} (l : List (Cost × α)) (hole : Nat) : Prop :=
  (∀ c, 0 < c → c < l.length → c ≠ hole → prioAt l ((c - 1) / 2) ≤ prioAt l c) ∧
    (0 < hole → ∀ c, 0 < c → c < l.length → (c - 1) / 2 = hole →
      prioAt l ((hole - 1) / 2) ≤ prioAt l c)

theorem heapify_up_length {α : Type} (l : List (Cost × α)) (index : Nat) :
    (heapify_up l index).length = l.length := by
  induction index using Nat.strong_induction_on generalizing l with
  | _ index ih =>
    rw [heapify_up]
    split_ifs with h
    · rw [ih _ (by omega), listSwap_length]
    · rfl

theorem heapify_up_perm {α : Type} (l : List (Cost × α)) (index : Nat) :
    (heapify_up l index).Perm l := by
  induction index using Nat.strong_induction_on generalizing l with
  | _ index ih =>
    rw [heapify_up]
    split_ifs with h
    · exact (ih _ (by omega) _).trans (listSwap_perm l _ _)
    · exact List.Perm.refl l


theorem heapify_up_heap {α : Type} (l : List (Cost × α)) (index : Nat)
    (hb : index < l.length) (hinv : UpInv l index) :
    IsMinHeap (heapify_up l index) := by
  induction index using Nat.strong_induction_on generalizing l with
  | _ index ih =>
    rw [heapify_up]
    split_ifs with h
    · obtain ⟨hpos, hlt⟩ := h
      have hplt : (index - 1) / 2 < index := by omega
      have hpb : (index - 1) / 2 < l.length := lt_trans hplt hb
      have hacc := fun k => prioAt_listSwap (l := l) hb hpb k
      have hvp : prioAt (listSwap l index ((index - 1) / 2)) ((index - 1) / 2)
          = prioAt l index := by
        rw [hacc, if_pos rfl]
      have hvi : prioAt (listSwap l index ((index - 1) / 2)) index
          = prioAt l ((index - 1) / 2) := by
        rw [hacc, if_neg (by omega), if_pos rfl]
      have hvo : ∀ k, k ≠ index → k ≠ (index - 1) / 2 →
          prioAt (listSwap l index ((index - 1) / 2)) k = prioAt l k := by
        intro k hk1 hk2
        rw [hacc, if_neg (fun he => hk2 he.symm), if_neg (fun he => hk1 he.symm)]
      apply ih _ hplt _ (by rw [listSwap_length]; exact hpb)
      constructor
      · intro c hc0 hcl hcp
        rw [listSwap_length] at hcl
        rcases eq_or_ne c index with rfl | hci
        · rw [hvp, hvi]
          exact le_of_lt hlt
        · rcases eq_or_ne ((c - 1) / 2) ((index - 1) / 2) with hq | hq
          · rw [hq, hvp, hvo c hci hcp]
            have h2 := hinv.1 c hc0 hcl hci
            rw [hq] at h2
            exact le_of_lt (lt_of_lt_of_le hlt h2)
          · rcases eq_or_ne ((c - 1) / 2) index with hq2 | hq2
            · rw [hq2, hvi, hvo c hci hcp]
              exact hinv.2 hpos c hc0 hcl hq2
            · rw [hvo _ hq2 hq, hvo c hci hcp]
              exact hinv.1 c hc0 hcl hci
      · intro hppos c hc0 hcl hcpar
        rw [listSwap_length] at hcl
        have hgp1 : ((index - 1) / 2 - 1) / 2 ≠ index := by omega
        have hgp2 : ((index - 1) / 2 - 1) / 2 ≠ (index - 1) / 2 := by omega
        rw [hvo _ hgp1 hgp2]
        rcases eq_or_ne c index with rfl | hci
        · rw [hvi]
          exact hinv.1 _ hppos hpb (by omega)
        · have hcp : c ≠ (index - 1) / 2 := by omega
          rw [hvo c hci hcp]
          have h1 := hinv.1 _ hppos hpb (by omega : (index - 1) / 2 ≠ index)
          have h2 := hinv.1 c hc0 hcl hci
          rw [hcpar] at h2
          exact le_trans h1 h2
    · intro c hc0 hcl
      rcases eq_or_ne c index with rfl | hci
      · push_neg at h
        exact h hc0
      · exact hinv.1 c hc0 hcl hci

/-- Heap property everywhere except possibly on the edges out of the hole,
with the children of a positive hole already above the parent of the hole. -/
def DownInv {α : Type} (l : List (Cost × α)) (hole : Nat) : Prop :=
  (∀ c, 0 < c → c < l.length → (c - 1) / 2 ≠ hole →
    prioAt l ((c - 1) / 2) ≤ prioAt l c) ∧
    (0 < hole → ∀ c, 0 < c → c < l.length → (c - 1) / 2 = hole →
      prioAt l ((hole - 1) / 2) ≤ prioAt l c)

/-- A swapping childMin is an in-bounds strict child improving on the hole
and at most the other child. -/
theorem childMin_spec {α : Type} (l : List (Cost × α)) (index : Nat)
    (h : childMin l index ≠ index) :
    childMin l index < l.length ∧ index < childMin l index ∧
      (childMin l index - 1) / 2 = index ∧
      prioAt l (childMin l index) < prioAt l index ∧
      ∀ c, 0 < c → c < l.length → (c - 1) / 2 = index → c ≠ childMin l index →
        prioAt l (childMin l index) ≤ prioAt l c := by
  by_cases hl : 2 * index + 1 < l.length ∧ prioAt l (2 * index + 1) < prioAt l index
  · by_cases hr : 2 * index + 2 < l.length ∧
        prioAt l (2 * index + 2) < prioAt l (2 * index + 1)
    · have hcm : childMin l index = 2 * index + 2 := by
        unfold childMin
        dsimp only
        rw [if_pos hl, if_pos hr]
      rw [hcm]
      refine ⟨hr.1, by omega, by omega, lt_trans hr.2 hl.2, ?_⟩
      intro c hc0 hc hcp hcne
      have hc1 : c = 2 * index + 1 := by omega
      subst hc1
      exact le_of_lt hr.2
    · have hcm : childMin l index = 2 * index + 1 := by
        unfold childMin
        dsimp only
        rw [if_pos hl, if_neg hr]
      rw [hcm]
      refine ⟨hl.1, by omega, by omega, hl.2, ?_⟩
      intro c hc0 hc hcp hcne
      have hc2 : c = 2 * index + 2 := by omega
      subst hc2
      exact not_lt.mp (fun hlt => hr ⟨hc, hlt⟩)
  · by_cases hr : 2 * index + 2 < l.length ∧
        prioAt l (2 * index + 2) < prioAt l index
    · have hcm : childMin l index = 2 * index + 2 := by
        unfold childMin
        dsimp only
        rw [if_neg hl, if_pos hr]
      rw [hcm]
      refine ⟨hr.1, by omega, by omega, hr.2, ?_⟩
      intro c hc0 hc hcp hcne
      have hc1 : c = 2 * index + 1 := by omega
      subst hc1
      have hle : prioAt l index ≤ prioAt l (2 * index + 1) :=
        not_lt.mp (fun hlt => hl ⟨hc, hlt⟩)
      exact le_of_lt (lt_of_lt_of_le hr.2 hle)
    · have hcm : childMin l index = index := by
        unfold childMin
        dsimp only
        rw [if_neg hl, if_neg hr]
      exact absurd hcm h

theorem heapify_down_length {α : Type} (l : List (Cost × α)) (index : Nat) :
    (heapify_down l index).length = l.length := by
  suffices H : ∀ (m : Nat) (l : List (Cost × α)) (index : Nat),
      l.length - index ≤ m → (heapify_down l index).length = l.length from
    H l.length l index (by omega)
  intro m
  induction m with
  | zero =>
    intro l index hle
    rw [heapify_down]
    split_ifs with h
    · rcases childMin_cases l index with heq | ⟨hlt, hgt⟩
      · exact absurd heq h
      · omega
    · rfl
  | succ m ih =>
    intro l index hle
    rw [heapify_down]
    split_ifs with h
    · rcases childMin_cases l index with heq | ⟨hlt, hgt⟩
      · exact absurd heq h
      · rw [ih _ _ (by rw [listSwap_length]; omega), listSwap_length]
    · rfl

theorem heapify_down_perm {α : Type} (l : List (Cost × α)) (index : Nat) :
    (heapify_down l index).Perm l := by
  suffices H : ∀ (m : Nat) (l : List (Cost × α)) (index : Nat),
      l.length - index ≤ m → (heapify_down l index).Perm l from
    H l.length l index (by omega)
  intro m
  induction m with
  | zero =>
    intro l index hle
    rw [heapify_down]
    split_ifs with h
    · rcases childMin_cases l index with heq | ⟨hlt, hgt⟩
      · exact absurd heq h
      · omega
    · exact List.Perm.refl l
  | succ m ih =>
    intro l index hle
    rw [heapify_down]
    split_ifs with h
    · rcases childMin_cases l index with heq | ⟨hlt, hgt⟩
      · exact absurd heq h
      · exact (ih _ _ (by rw [listSwap_length]; omega)).trans (listSwap_perm l _ _)
    · exact List.Perm.refl l

theorem heapify_down_heap {α : Type} (l : List (Cost × α)) (index : Nat)
    (hinv : DownInv l index) : IsMinHeap (heapify_down l index) := by
  suffices H : ∀ (m : Nat) (l : List (Cost × α)) (index : Nat),
      l.length - index ≤ m → DownInv l index → IsMinHeap (heapify_down l index) from
    H l.length l index (by omega) hinv
  clear hinv
  intro m
  induction m with
  | zero =>
    intro l index hle hinv
    rw [heapify_down]
    split_ifs with h
    · rcases childMin_cases l index with heq | ⟨hlt, hgt⟩
      · exact absurd heq h
      · omega
    · intro c hc0 hcl
      rcases eq_or_ne ((c - 1) / 2) index with hq | hq
      · omega
      · exact hinv.1 c hc0 hcl hq
  | succ m ih =>
    intro l index hle hinv
    rw [heapify_down]
    split_ifs with h
    · obtain ⟨hsb, hsgt, hspar, hslt, hsother⟩ := childMin_spec l index h
      have hib : index < l.length := lt_trans hsgt hsb
      have hacc := fun k => prioAt_listSwap (l := l) hib hsb k
      have hvs : prioAt (listSwap l index (childMin l index)) (childMin l index)
          = prioAt l index := by
        rw [hacc, if_pos rfl]
      have hvi : prioAt (listSwap l index (childMin l index)) index
          = prioAt l (childMin l index) := by
        rw [hacc, if_neg (by omega), if_pos rfl]
      have hvo : ∀ k, k ≠ childMin l index → k ≠ index →
          prioAt (listSwap l index (childMin l index)) k = prioAt l k := by
        intro k hk1 hk2
        rw [hacc, if_neg (fun he => hk1 he.symm), if_neg (fun he => hk2 he.symm)]
      apply ih _ _ (by rw [listSwap_length]; omega)
      constructor
      · intro c hc0 hcl hcp
        rw [listSwap_length] at hcl
        rcases eq_or_ne c (childMin l index) with rfl | hcs
        · rw [hspar, hvi, hvs]
          exact le_of_lt hslt
        · by_cases hci : c = index
          · have hq1 : (c - 1) / 2 ≠ childMin l index := by omega
            have hq2 : (c - 1) / 2 ≠ index := by omega
            rw [hvo _ hq1 hq2, hci, hvi]
            have hc0' : 0 < index := hci ▸ hc0
            exact hinv.2 hc0' _ (by omega) hsb hspar
          · rcases eq_or_ne ((c - 1) / 2) index with hq | hq
            · rw [hq, hvi, hvo c hcs hci]
              exact hsother c hc0 hcl hq hcs
            · rw [hvo _ hcp hq, hvo c hcs hci]
              exact hinv.1 c hc0 hcl hq
      · intro hspos c hc0 hcl hcpar
        rw [listSwap_length] at hcl
        have hcs : c ≠ childMin l index := by omega
        have hci : c ≠ index := by omega
        rw [hspar, hvi, hvo c hcs hci]
        have h1 := hinv.1 c hc0 hcl (by omega)
        rw [hcpar] at h1
        exact h1
    · intro c hc0 hcl
      have hcm : childMin l index = index := not_ne_iff.mp h
      rcases eq_or_ne ((c - 1) / 2) index with hq | hq
      · have hcrange : c = 2 * index + 1 ∨ c = 2 * index + 2 := by omega
        have hnl : ¬(2 * index + 1 < l.length ∧
            prioAt l (2 * index + 1) < prioAt l index) := by
          intro hl
          have hne : childMin l index ≠ index := by
            unfold childMin
            dsimp only
            rw [if_pos hl]
            split_ifs <;> omega
          exact hne hcm
        have hnr : ¬(2 * index + 2 < l.length ∧
            prioAt l (2 * index + 2) < prioAt l index) := by
          intro hr
          have hne : childMin l index ≠ index := by
            unfold childMin
            dsimp only
            rw [if_neg hnl, if_pos hr]
            omega
          exact hne hcm
        push_neg at hnl hnr
        rcases hcrange with rfl | rfl
        · rw [hq]
          exact hnl hcl
        · rw [hq]
          exact hnr hcl
      · exact hinv.1 c hc0 hcl hq

/-- The root of a min-heap is a minimum. -/
theorem IsMinHeap.root_min {α : Type} {l : List (Cost × α)} (hl : IsMinHeap l) :
    ∀ i, i < l.length → prioAt l 0 ≤ prioAt l i := by
  intro i
  induction i using Nat.strong_induction_on with
  | _ i ih =>
    intro hi
    rcases Nat.eq_zero_or_pos i with rfl | hpos
    · exact le_refl _
    · exact le_trans (ih ((i - 1) / 2) (by omega) (by omega)) (hl i hpos hi)


/-! Priority queue operation contracts. -/

theorem prioAt_append_left {α : Type} (l l2 : List (Cost × α)) (i : Nat)
    (hi : i < l.length) : prioAt (l ++ l2) i = prioAt l i := by
  unfold prioAt
  rw [List.getElem?_append_left hi]

namespace PriorityQueue

theorem insert_perm {α : Type} (q : PriorityQueue α) (v : α) (p : Cost) :
    (q.insert v p).heap.Perm ((p, v) :: q.heap) := by
  unfold insert
  exact (heapify_up_perm _ _).trans
    ((List.perm_append_singleton _ _).symm.symm)

theorem insert_heap {α : Type} (q : PriorityQueue α) (v : α) (p : Cost)
    (hq : IsMinHeap q.heap) : IsMinHeap (q.insert v p).heap := by
  unfold insert
  apply heapify_up_heap _ _ (by simp)
  constructor
  · intro c hc0 hcl hcp
    simp only [List.length_append, List.length_singleton] at hcl
    have hcb : c < q.heap.length := by omega
    rw [prioAt_append_left _ _ _ hcb, prioAt_append_left _ _ _ (by omega)]
    exact hq c hc0 hcb
  · intro hpos c hc0 hcl hcpar
    simp only [List.length_append, List.length_singleton] at hcl
    omega

theorem insert_size {α : Type} (q : PriorityQueue α) (v : α) (p : Cost) :
    (q.insert v p).size = q.size + 1 := by
  unfold insert size
  rw [heapify_up_length]
  simp

/-- Computation of extract_min on a nonempty queue, with all the facts the
search loops rely on: the head is returned, the remainder is a permutation
of the rest, the heap shape is kept, and the head is a minimum. -/
theorem extract_min_spec {α : Type} (q : PriorityQueue α)
    (x : Cost × α) (rest : List (Cost × α)) (he : q.heap = x :: rest)
    (hq : IsMinHeap q.heap) :
    ∃ q', q.extract_min = some (x, q') ∧ IsMinHeap q'.heap ∧
      (x :: q'.heap).Perm q.heap ∧ q'.heap.length = rest.length := by
  have hcomp : q.extract_min = some (x,
      ⟨if (((x :: rest).set 0 ((x :: rest).getLast (List.cons_ne_nil _ _))).dropLast).length == 0
        then ((x :: rest).set 0 ((x :: rest).getLast (List.cons_ne_nil _ _))).dropLast
        else heapify_down (((x :: rest).set 0 ((x :: rest).getLast (List.cons_ne_nil _ _))).dropLast) 0⟩) := by
    unfold extract_min
    split
    · rename_i heq
      rw [he] at heq
      exact absurd heq (List.cons_ne_nil _ _)
    · rename_i m r heq
      rw [he] at heq
      cases heq
      rfl
  rcases eq_or_ne rest [] with rfl | hrest
  · refine ⟨⟨[]⟩, ?_, ?_, ?_, ?_⟩
    · exact hcomp
    · intro c hc0 hcl
      simp at hcl
    · rw [he]
    · rfl
  · have hlast : (x :: rest).getLast (List.cons_ne_nil _ _) = rest.getLast hrest :=
      List.getLast_cons hrest
    have hset : (x :: rest).set 0 ((x :: rest).getLast (List.cons_ne_nil _ _)) =
        rest.getLast hrest :: rest := by rw [hlast]; rfl
    have hshrunk : (((x :: rest).set 0 ((x :: rest).getLast (List.cons_ne_nil _ _))).dropLast) =
        rest.getLast hrest :: rest.dropLast := by
      rw [hset, List.dropLast_cons_of_ne_nil hrest]
    have hrlpos : 0 < rest.length := List.length_pos.mpr hrest
    have hlen : (rest.getLast hrest :: rest.dropLast).length = rest.length := by
      simp only [List.length_cons, List.length_dropLast]
      omega
    have hne : ((rest.getLast hrest :: rest.dropLast).length == 0) = false := by
      simp
    have hpermshrunk : (rest.getLast hrest :: rest.dropLast).Perm rest := by
      have hp := List.perm_append_singleton (rest.getLast hrest) rest.dropLast
      rw [List.dropLast_concat_getLast hrest] at hp
      exact hp.symm
    rw [hshrunk, hne] at hcomp
    simp only [Bool.false_eq_true, if_false] at hcomp
    have hidx : ∀ k, 0 < k → k < rest.length →
        prioAt (rest.getLast hrest :: rest.dropLast) k = prioAt q.heap k := by
      intro k hk0 hkl
      unfold prioAt
      rcases k with _ | k
      · omega
      · have h1 : (rest.getLast hrest :: rest.dropLast)[k + 1]? = rest.dropLast[k]? := by
          simp
        have h2 : q.heap[k + 1]? = rest[k]? := by
          rw [he]
          simp
        rw [h1, h2, List.getElem?_dropLast, if_pos (by omega)]
    refine ⟨_, hcomp, ?_, ?_, ?_⟩
    · apply heapify_down_heap
      constructor
      · intro c hc0 hcl hcp
        rw [hlen] at hcl
        have hq0 : 0 < (c - 1) / 2 := by omega
        rw [hidx c hc0 hcl, hidx _ hq0 (by omega)]
        apply hq c hc0
        rw [he]
        simp only [List.length_cons]
        omega
      · intro hpos
        omega
    · refine List.Perm.trans ?_ (show (x :: rest).Perm q.heap by rw [he])
      exact ((heapify_down_perm _ _).trans hpermshrunk).cons x
    · rw [heapify_down_length, hlen]

theorem extract_min_none_iff {α : Type} (q : PriorityQueue α) :
    q.extract_min = none ↔ q.heap = [] := by
  unfold extract_min
  split
  · rename_i heq
    simp [heq]
  · rename_i m r heq
    simp [heq]

theorem extract_min_min {α : Type} (q : PriorityQueue α) (hq : IsMinHeap q.heap)
    (x : Cost × α) (q' : PriorityQueue α) (hx : q.extract_min = some (x, q')) :
    ∀ e ∈ q.heap, x.1 ≤ e.1 := by
  have hx0 : q.heap.head? = some x := by
    unfold extract_min at hx
    split at hx
    · exact absurd hx (by simp)
    · rename_i m r heq
      simp only [Option.some.injEq, Prod.mk.injEq] at hx
      rw [heq]
      simp [hx.1]
  intro e he
  obtain ⟨i, hi, hie⟩ := List.mem_iff_getElem.mp he
  have h0 : prioAt q.heap 0 = x.1 := by
    unfold prioAt
    rcases hl : q.heap with _ | ⟨y, r⟩
    · rw [hl] at hx0
      simp at hx0
    · rw [hl] at hx0
      simp only [List.head?_cons, Option.some.injEq] at hx0
      subst hx0
      simp [prioAt]
  have hie' : prioAt q.heap i = e.1 := by
    unfold prioAt
    rw [List.getElem?_eq_getElem hi, hie]
    rfl
  rw [← h0, ← hie']
  exact hq.root_min i hi

end PriorityQueue


/-! Repeated insertion and extraction (C3). -/

/-- Insert a batch of (value, priority) pairs, in order. -/
def insertAll {α : Type} (q : PriorityQueue α) : List (α × Cost) → PriorityQueue α
  | [] => q
  | e :: rest => insertAll (q.insert e.1 e.2) rest

/-- Extract a given number of times, collecting the (priority, value)
results; stops early if the queue empties. -/
def extractAll {α : Type} : Nat → PriorityQueue α → List (Cost × α)
  | 0, _ => []
  | n + 1, q =>
    match q.extract_min with
    | none => []
    | some (x, q') => x :: extractAll n q'

theorem insertAll_heap {α : Type} (pairs : List (α × Cost)) (q : PriorityQueue α)
    (hq : IsMinHeap q.heap) : IsMinHeap (insertAll q pairs).heap := by
  induction pairs generalizing q with
  | nil => exact hq
  | cons e rest ih => exact ih _ (PriorityQueue.insert_heap _ _ _ hq)

theorem insertAll_perm {α : Type} (pairs : List (α × Cost)) (q : PriorityQueue α) :
    (insertAll q pairs).heap.Perm (q.heap ++ pairs.map (fun e => (e.2, e.1))) := by
  induction pairs generalizing q with
  | nil => simp [insertAll]
  | cons e rest ih =>
    refine (ih _).trans ?_
    refine ((PriorityQueue.insert_perm q e.1 e.2).append_right _).trans ?_
    simp only [List.map_cons, List.cons_append]
    exact List.perm_middle.symm

theorem extractAll_spec {α : Type} :
    ∀ (n : Nat) (q : PriorityQueue α), IsMinHeap q.heap → q.heap.length = n →
      (extractAll n q).Perm q.heap ∧
        List.Pairwise (fun a b : Cost × α => a.1 ≤ b.1) (extractAll n q)
  | 0, q, _, hn => by
    rw [List.length_eq_zero] at hn
    constructor
    · rw [hn]
      exact List.Perm.refl _
    · exact List.Pairwise.nil
  | n + 1, q, hq, hn => by
    rcases hh : q.heap with _ | ⟨x, rest⟩
    · rw [hh] at hn
      simp at hn
    · obtain ⟨q', hx, hq', hperm, hlen⟩ := PriorityQueue.extract_min_spec q x rest hh hq
      have hn' : q'.heap.length = n := by
        rw [hlen]
        rw [hh] at hn
        simpa using hn
      obtain ⟨ihperm, ihsort⟩ := extractAll_spec n q' hq' hn'
      have hext : extractAll (n + 1) q = x :: extractAll n q' := by
        rw [extractAll, hx]
      rw [hext]
      constructor
      · exact (ihperm.cons x).trans (hh ▸ hperm)
      · refine List.Pairwise.cons ?_ ihsort
        intro b hb
        have hbq : b ∈ q.heap :=
          hperm.subset (List.mem_cons_of_mem x (ihperm.subset hb))
        exact PriorityQueue.extract_min_min q hq x q' hx b hbq
/-! Graph dictionary lemmas. -/

namespace Graph

theorem find?_setWeight_self (adj : Adj) (v : Val) (w : Rat) :
    (setWeight adj v w).find? (fun e => e.1 == v) = some (v, w) := by
  induction adj with
  | nil => simp [setWeight]
  | cons e rest ih =>
    unfold setWeight
    rcases eq_or_ne e.1 v with he | he
    · rw [if_pos he, List.find?_cons_of_pos _ (by simp)]
    · rw [if_neg he, List.find?_cons_of_neg _ (by simpa using he)]
      exact ih

theorem find?_setWeight_ne (adj : Adj) (v x : Val) (w : Rat) (hx : x ≠ v) :
    (setWeight adj v w).find? (fun e => e.1 == x) =
      adj.find? (fun e => e.1 == x) := by
  induction adj with
  | nil => simp [setWeight, Ne.symm hx]
  | cons e rest ih =>
    unfold setWeight
    rcases eq_or_ne e.1 v with he | he
    · have hex : e.1 ≠ x := fun hh => hx (hh ▸ he)
      rw [if_pos he, List.find?_cons_of_neg _ (by simpa using Ne.symm hx),
        List.find?_cons_of_neg _ (by simpa using hex)]
    · rw [if_neg he]
      rcases eq_or_ne e.1 x with hex | hex
      · rw [List.find?_cons_of_pos _ (by simpa using hex),
          List.find?_cons_of_pos _ (by simpa using hex)]
      · rw [List.find?_cons_of_neg _ (by simpa using hex),
          List.find?_cons_of_neg _ (by simpa using hex)]
        exact ih

theorem weightTo_setWeight_self (adj : Adj) (v : Val) (w : Rat) :
    weightTo (setWeight adj v w) v = (w : Cost) := by
  unfold weightTo
  rw [find?_setWeight_self]

theorem weightTo_setWeight_ne (adj : Adj) (v x : Val) (w : Rat) (hx : x ≠ v) :
    weightTo (setWeight adj v w) x = weightTo adj x := by
  unfold weightTo
  rw [find?_setWeight_ne adj v x w hx]

theorem get_node_setNeighbor (g : Graph) (u v : Val) (w : Rat) (x : Val) :
    (g.setNeighbor u v w).get_node x =
      (g.get_node x).map (fun adj => if x = u then setWeight adj v w else adj) := by
  unfold get_node setNeighbor
  induction g.nodes with
  | nil => rfl
  | cons nv rest ih =>
    simp only [List.map_cons]
    rcases eq_or_ne nv.1 x with hex | hex
    · subst hex
      rcases eq_or_ne nv.1 u with heu | heu
      · rw [if_pos (by simpa using heu), List.find?_cons_of_pos _ (by simp),
          List.find?_cons_of_pos _ (by simp)]
        simp [heu]
      · rw [if_neg (by simpa using heu), List.find?_cons_of_pos _ (by simp),
          List.find?_cons_of_pos _ (by simp)]
        simp [heu]
    · have hkey : ∀ y : Val × Adj, y.1 = nv.1 → ¬((y.1 == x) = true) :=
        fun y hy => by
          rw [hy]
          simpa using hex
      rcases eq_or_ne nv.1 u with heu | heu
      · rw [if_pos (by simpa using heu),
          @List.find?_cons_of_neg _ (fun e => e.1 == x) (nv.1, setWeight nv.2 v w)
            _ (hkey (nv.1, setWeight nv.2 v w) rfl),
          @List.find?_cons_of_neg _ (fun e => e.1 == x) nv _ (hkey nv rfl)]
        exact ih
      · rw [if_neg (by simpa using heu),
          @List.find?_cons_of_neg _ (fun e => e.1 == x) nv _ (hkey nv rfl),
          @List.find?_cons_of_neg _ (fun e => e.1 == x) nv _ (hkey nv rfl)]
        exact ih

theorem get_node_add_node_ne (g : Graph) (a x : Val) (hx : x ≠ a) :
    (g.add_node a).get_node x = g.get_node x := by
  unfold add_node
  split_ifs with hpresent
  · rfl
  · unfold get_node
    simp only [List.find?_append]
    rcases hf : g.nodes.find? (fun nv => nv.1 == x) with _ | nv
    · rw [hf]
      simp only [Option.none_or]
      rw [List.find?_cons_of_neg _ (by simpa using (Ne.symm hx))]
      rfl
    · rw [hf]
      simp

theorem get_node_add_node_self (g : Graph) (a : Val) :
    (g.add_node a).get_node a = some ((g.get_node a).getD []) := by
  unfold add_node
  split_ifs with hpresent
  · rcases hf : g.get_node a with _ | adj
    · rw [hf] at hpresent
      simp at hpresent
    · simp [hf]
  · unfold get_node at hpresent ⊢
    simp only [List.find?_append]
    rcases hf : g.nodes.find? (fun nv => nv.1 == a) with _ | nv
    · rw [hf]
      simp only [Option.none_or]
      rw [List.find?_cons_of_pos _ (by simp)]
      simp
    · rw [hf] at hpresent
      simp at hpresent

theorem directed_add_node (g : Graph) (a : Val) :
    (g.add_node a).directed = g.directed := by
  unfold add_node
  split_ifs <;> rfl

theorem directed_setNeighbor (g : Graph) (u v : Val) (w : Rat) :
    (g.setNeighbor u v w).directed = g.directed := rfl

end Graph


namespace Graph

theorem get_node_double_add_fst (g : Graph) (u v : Val) :
    ((g.add_node u).add_node v).get_node u = some ((g.get_node u).getD []) := by
  rcases eq_or_ne v u with rfl | hne
  · rw [get_node_add_node_self, get_node_add_node_self]
    rcases g.get_node v with _ | adj <;> rfl
  · rw [get_node_add_node_ne _ _ _ (Ne.symm hne), get_node_add_node_self]

theorem get_node_double_add_snd (g : Graph) (u v : Val) :
    ((g.add_node u).add_node v).get_node v = some ((g.get_node v).getD []) := by
  rcases eq_or_ne v u with rfl | hne
  · rw [get_node_add_node_self, get_node_add_node_self]
    rcases g.get_node v with _ | adj <;> rfl
  · rw [get_node_add_node_self, get_node_add_node_ne _ _ _ hne]

/-- Adding an edge stores exactly the requested forward weight. -/
theorem get_edge_weight_add_edge (g : Graph) (u v : Val) (w : Rat) :
    (g.add_edge u v w).get_edge_weight u v = (w : Cost) := by
  unfold add_edge
  dsimp only
  have hgu := get_node_double_add_fst g u v
  have hgv := get_node_double_add_snd g u v
  split_ifs with hdir
  · have hu : ((((g.add_node u).add_node v).setNeighbor u v w)).get_node u =
        some (setWeight ((g.get_node u).getD []) v w) := by
      rw [get_node_setNeighbor, hgu]
      simp
    have hv : ((((g.add_node u).add_node v).setNeighbor u v w)).get_node v =
        some (if v = u then setWeight ((g.get_node v).getD []) v w
          else (g.get_node v).getD []) := by
      rw [get_node_setNeighbor, hgv]
      rfl
    unfold get_edge_weight
    rw [hu, hv]
    exact weightTo_setWeight_self _ _ _
  · have hu : ((((g.add_node u).add_node v).setNeighbor u v w).setNeighbor v u w).get_node u =
        some (if u = v then setWeight (setWeight ((g.get_node u).getD []) v w) u w
          else setWeight ((g.get_node u).getD []) v w) := by
      rw [get_node_setNeighbor, get_node_setNeighbor, hgu]
      simp
    have hv : ((((g.add_node u).add_node v).setNeighbor u v w).setNeighbor v u w).get_node v =
        some (setWeight (if v = u then setWeight ((g.get_node v).getD []) v w
          else (g.get_node v).getD []) u w) := by
      rw [get_node_setNeighbor, get_node_setNeighbor, hgv]
      simp
    unfold get_edge_weight
    rw [hu, hv]
    rcases eq_or_ne u v with rfl | hne
    · rw [if_pos rfl]
      exact weightTo_setWeight_self _ _ _
    · rw [if_neg hne]
      exact weightTo_setWeight_self _ _ _

/-- On an undirected graph the reverse weight is stored as well. -/
theorem get_edge_weight_add_edge_symm (g : Graph) (u v : Val) (w : Rat)
    (hdir : g.directed = false) :
    (g.add_edge u v w).get_edge_weight v u = (w : Cost) := by
  unfold add_edge
  dsimp only
  rw [hdir]
  simp only [Bool.false_eq_true, if_false]
  have hgu := get_node_double_add_fst g u v
  have hgv := get_node_double_add_snd g u v
  have hu : ((((g.add_node u).add_node v).setNeighbor u v w).setNeighbor v u w).get_node u =
      some (if u = v then setWeight (setWeight ((g.get_node u).getD []) v w) u w
        else setWeight ((g.get_node u).getD []) v w) := by
    rw [get_node_setNeighbor, get_node_setNeighbor, hgu]
    simp
  have hv : ((((g.add_node u).add_node v).setNeighbor u v w).setNeighbor v u w).get_node v =
      some (setWeight (if v = u then setWeight ((g.get_node v).getD []) v w
        else (g.get_node v).getD []) u w) := by
    rw [get_node_setNeighbor, get_node_setNeighbor, hgv]
    simp
  unfold get_edge_weight
  rw [hu, hv]
  exact weightTo_setWeight_self _ _ _

/-- Adding a directed edge does not create the reverse edge. -/
theorem get_edge_weight_add_edge_reverse (g : Graph) (u v : Val) (w : Rat)
    (hdir : g.directed = true) (hne : u ≠ v) (hwf : g.WF)
    (hrev : g.get_edge_weight v u = ⊤) :
    (g.add_edge u v w).get_edge_weight v u = ⊤ := by
  unfold add_edge
  dsimp only
  rw [hdir]
  simp only [if_true]
  have hgu := get_node_double_add_fst g u v
  have hgv := get_node_double_add_snd g u v
  have hu : ((((g.add_node u).add_node v).setNeighbor u v w)).get_node u =
      some (setWeight ((g.get_node u).getD []) v w) := by
    rw [get_node_setNeighbor, hgu]
    simp
  have hv : ((((g.add_node u).add_node v).setNeighbor u v w)).get_node v =
      some ((g.get_node v).getD []) := by
    rw [get_node_setNeighbor, hgv]
    simp [Ne.symm hne]
  unfold get_edge_weight
  rw [hu, hv]
  rcases hgv0 : g.get_node v with _ | adjv
  · simp only [hgv0, Option.getD_none]
    rfl
  · simp only [hgv0, Option.getD_some]
    rcases hgu0 : g.get_node u with _ | adju
    · -- the target node was absent, so a well-formed graph has no entry
      unfold weightTo
      rw [List.find?_eq_none.mpr]
      intro e hea
      obtain ⟨nv, hnvmem, hnveq⟩ : ∃ nv ∈ g.nodes, nv.2 = adjv := by
        unfold get_node at hgv0
        rcases hf : g.nodes.find? (fun nv => nv.1 == v) with _ | nv
        · rw [hf] at hgv0
          simp at hgv0
        · rw [hf] at hgv0
          simp at hgv0
          exact ⟨nv, List.mem_of_find?_eq_some hf, hgv0⟩
      have hmemn := hwf.2.2 nv hnvmem e (hnveq ▸ hea)
      -- u is not among the node keys
      intro hbeq
      have heu : e.1 = u := by simpa using hbeq
      rw [heu] at hmemn
      obtain ⟨nu, hnumem, hnueq⟩ := List.mem_map.mp hmemn
      unfold get_node at hgu0
      rcases hfu : g.nodes.find? (fun nv => nv.1 == u) with _ | nw
      · have := List.find?_eq_none.mp hfu nu hnumem
        simp [hnueq] at this
      · rw [hfu] at hgu0
        simp at hgu0
    · -- both nodes present, so the hypothesis is exactly the old lookup
      unfold get_edge_weight at hrev
      rw [hgv0, hgu0] at hrev
      exact hrev

end Graph


/-! Claim C3. -/

/-- C3: inserting N (value, priority) pairs into a fresh priority queue and
then extracting N times yields exactly the multiset of inserted
(priority, value) pairs, the returned priorities are non-decreasing, and
the priority sequence equals the sorted sequence of inserted priorities. -/
theorem c3_priority_queue_heapsort {α : Type} (pairs : List (α × Cost)) :
    (extractAll (insertAll PriorityQueue.empty pairs).size
        (insertAll PriorityQueue.empty pairs)).Perm
      (pairs.map (fun e => (e.2, e.1))) ∧
    List.Pairwise (fun a b : Cost × α => a.1 ≤ b.1)
      (extractAll (insertAll PriorityQueue.empty pairs).size
        (insertAll PriorityQueue.empty pairs)) ∧
    (extractAll (insertAll PriorityQueue.empty pairs).size
        (insertAll PriorityQueue.empty pairs)).length = pairs.length ∧
    (extractAll (insertAll PriorityQueue.empty pairs).size
        (insertAll PriorityQueue.empty pairs)).map Prod.fst =
      (pairs.map Prod.snd).mergeSort := by
  have hheap : IsMinHeap (insertAll (PriorityQueue.empty (α := α)) pairs).heap :=
    insertAll_heap pairs _ (fun c hc0 hcl => absurd hcl (by simp [PriorityQueue.empty]))
  have hperm0' : (insertAll (PriorityQueue.empty (α := α)) pairs).heap.Perm
      (pairs.map (fun e => (e.2, e.1))) := by
    have hperm0 := insertAll_perm pairs (PriorityQueue.empty (α := α))
    simpa [PriorityQueue.empty] using hperm0
  obtain ⟨hperm, hsort⟩ :=
    extractAll_spec (insertAll (PriorityQueue.empty (α := α)) pairs).size
      (insertAll PriorityQueue.empty pairs) hheap rfl
  have hP := hperm.trans hperm0'
  refine ⟨hP, hsort, ?_, ?_⟩
  · rw [hP.length_eq, List.length_map]
  · have hsorted : List.Sorted (· ≤ ·)
        ((extractAll (insertAll PriorityQueue.empty pairs).size
          (insertAll PriorityQueue.empty pairs)).map Prod.fst) :=
      (List.pairwise_map).mpr hsort
    have hpermP : ((extractAll (insertAll PriorityQueue.empty pairs).size
        (insertAll PriorityQueue.empty pairs)).map Prod.fst).Perm
          (pairs.map Prod.snd) := by
      have hm := hP.map Prod.fst
      simpa [List.map_map, Function.comp] using hm
    exact List.eq_of_perm_of_sorted
      (hpermP.trans (List.mergeSort_perm (pairs.map Prod.snd) _).symm)
      hsorted (List.sorted_mergeSort' _)

/-! Claim C4. -/

/-- C4: add_edge on an undirected graph stores the weight in both
directions; on a directed graph only forward, the reverse staying infinite
when it was absent; re-adding an ordered pair overwrites the weight. -/
theorem c4_add_edge_get_edge_weight (g : Graph) (u v : Val) (w w' : Rat)
    (hwf : g.WF) :
    (g.directed = false →
      (g.add_edge u v w).get_edge_weight u v = (w : Cost) ∧
        (g.add_edge u v w).get_edge_weight v u = (w : Cost)) ∧
    (g.directed = true →
      (g.add_edge u v w).get_edge_weight u v = (w : Cost) ∧
        (u ≠ v → g.get_edge_weight v u = ⊤ →
          (g.add_edge u v w).get_edge_weight v u = ⊤)) ∧
    ((g.add_edge u v w).add_edge u v w').get_edge_weight u v = (w' : Cost) := by
  refine ⟨?_, ?_, ?_⟩
  · intro hdir
    exact ⟨Graph.get_edge_weight_add_edge g u v w,
      Graph.get_edge_weight_add_edge_symm g u v w hdir⟩
  · intro hdir
    exact ⟨Graph.get_edge_weight_add_edge g u v w,
      fun hne hrev =>
        Graph.get_edge_weight_add_edge_reverse g u v w hdir hne hwf hrev⟩
  · exact Graph.get_edge_weight_add_edge _ u v w'

theorem c4_add_edge_get_edge_weight_witness :
    (Graph.mk true []).WF ∧
    (((Graph.mk true []).directed = false →
      ((Graph.mk true []).add_edge 0 1 2).get_edge_weight 0 1 = ((2 : Rat) : Cost) ∧
        ((Graph.mk true []).add_edge 0 1 2).get_edge_weight 1 0 = ((2 : Rat) : Cost)) ∧
    ((Graph.mk true []).directed = true →
      ((Graph.mk true []).add_edge 0 1 2).get_edge_weight 0 1 = ((2 : Rat) : Cost) ∧
        ((0 : Val) ≠ 1 → (Graph.mk true []).get_edge_weight 1 0 = ⊤ →
          ((Graph.mk true []).add_edge 0 1 2).get_edge_weight 1 0 = ⊤)) ∧
    (((Graph.mk true []).add_edge 0 1 2).add_edge 0 1 3).get_edge_weight 0 1 =
      ((3 : Rat) : Cost)) :=
  ⟨by decide, c4_add_edge_get_edge_weight (Graph.mk true []) 0 1 2 3 (by decide)⟩

/-! Claim C5. -/

/-- C5: when the start or the goal value is absent from the graph, each of
the four search functions immediately returns the not-found record with an
empty path, empty visited list, zero explored count and, for the weighted
searches, an infinite cost. -/
theorem c5_absent_endpoint (g : Graph) (s t : Val) (h : Heuristic)
    (habs : g.get_node s = none ∨ g.get_node t = none) :
    breadth_first_search g s t = some ⟨false, [], [], 0⟩ ∧
    depth_first_search g s t = some ⟨false, [], [], 0⟩ ∧
    dijkstra g s t = some ⟨false, [], ⊤, [], 0⟩ ∧
    astar g s t h = some ⟨false, [], ⊤, [], 0⟩ := by
  have hcontra : ∀ a b, g.get_node s = some a → g.get_node t = some b → False := by
    intro a b ha hb
    rcases habs with h1 | h1
    · rw [ha] at h1
      exact Option.noConfusion h1
    · rw [hb] at h1
      exact Option.noConfusion h1
  refine ⟨?_, ?_, ?_, ?_⟩
  · unfold breadth_first_search
    rcases hgs : g.get_node s with _ | a
    · rfl
    · rcases hgt : g.get_node t with _ | b
      · rfl
      · exact (hcontra a b hgs hgt).elim
  · unfold depth_first_search
    rcases hgs : g.get_node s with _ | a
    · rfl
    · rcases hgt : g.get_node t with _ | b
      · rfl
      · exact (hcontra a b hgs hgt).elim
  · unfold dijkstra
    rcases hgs : g.get_node s with _ | a
    · rfl
    · rcases hgt : g.get_node t with _ | b
      · rfl
      · exact (hcontra a b hgs hgt).elim
  · unfold astar
    rcases hgs : g.get_node s with _ | a
    · rfl
    · rcases hgt : g.get_node t with _ | b
      · rfl
      · exact (hcontra a b hgs hgt).elim

theorem c5_absent_endpoint_witness :
    ((Graph.mk false [(0, [])]).get_node 0 = none ∨
      (Graph.mk false [(0, [])]).get_node 9 = none) ∧
    (breadth_first_search (Graph.mk false [(0, [])]) 0 9 = some ⟨false, [], [], 0⟩ ∧
      depth_first_search (Graph.mk false [(0, [])]) 0 9 = some ⟨false, [], [], 0⟩ ∧
      dijkstra (Graph.mk false [(0, [])]) 0 9 = some ⟨false, [], ⊤, [], 0⟩ ∧
      astar (Graph.mk false [(0, [])]) 0 9 zero_heuristic = some ⟨false, [], ⊤, [], 0⟩) :=
  ⟨by decide, c5_absent_endpoint (Graph.mk false [(0, [])]) 0 9 zero_heuristic (by decide)⟩

/-! Claim C9. -/

/-- C9: extracting or peeking an empty priority queue, dequeuing or peeking
an empty queue, and popping or peeking an empty stack each hit the error
branch, and the error branch is hit exactly when the container is empty. -/
theorem c9_empty_container_errors {α : Type} (pq : PriorityQueue α)
    (q : Queue α) (s : Stack α) :
    (pq.extract_min = none ↔ pq.is_empty = true) ∧
    (pq.peek_min = none ↔ pq.is_empty = true) ∧
    (q.dequeue = none ↔ q.is_empty = true) ∧
    (q.peek = none ↔ q.is_empty = true) ∧
    (s.pop = none ↔ s.is_empty = true) ∧
    (s.peek = none ↔ s.is_empty = true) := by
  refine ⟨?_, ?_, ?_, ?_, ?_, ?_⟩
  · rw [PriorityQueue.extract_min_none_iff]
    unfold PriorityQueue.is_empty PriorityQueue.size
    rcases pq.heap with _ | ⟨x, r⟩ <;> simp
  · unfold PriorityQueue.peek_min PriorityQueue.is_empty PriorityQueue.size
    rcases pq.heap with _ | ⟨x, r⟩ <;> simp
  · unfold Queue.dequeue Queue.is_empty
    rcases q.items with _ | ⟨x, r⟩ <;> simp
  · unfold Queue.peek Queue.is_empty
    rcases q.items with _ | ⟨x, r⟩ <;> simp
  · unfold Stack.pop Stack.is_empty
    rcases s.items with _ | ⟨x, r⟩ <;> simp
  · unfold Stack.peek Stack.is_empty
    rcases s.items with _ | ⟨x, r⟩ <;> simp

/-! Claim C6: the zero heuristic degenerates A* into Dijkstra. -/

/-- View a Dijkstra state as an A* state whose f score map equals its
g score map. -/
def toAStar (st : DijkstraState) : AStarState :=
  ⟨st.distance, st.distance, st.parent, st.visited, st.visitedOrder, st.pq⟩

theorem astarScan_zero (g : Graph) (t current : Val) (st : DijkstraState) :
    astarScan g t zero_heuristic current (toAStar st) =
      toAStar (dijkstraScan g current st) := by
  unfold astarScan dijkstraScan
  apply List.foldl_hom toAStar
  intro s e
  dsimp only [toAStar]
  by_cases hv : s.visited.contains e.1
  · rw [if_pos hv, if_pos hv]
  · rw [if_neg hv, if_neg hv]
    by_cases hlt : s.distance current + (e.2 : Cost) < s.distance e.1
    · rw [if_pos hlt, if_pos hlt]
      have hz : s.distance current + (e.2 : Cost) +
          ((zero_heuristic e.1 t : Rat) : Cost) =
            s.distance current + (e.2 : Cost) := by
        show s.distance current + (e.2 : Cost) + ((0 : Rat) : Cost) = _
        norm_num
      rw [hz]
    · rw [if_neg hlt, if_neg hlt]

theorem astarLoop_zero (g : Graph) (t : Val) :
    ∀ (fuel : Nat) (st : DijkstraState),
      astarLoop g t zero_heuristic fuel (toAStar st) = dijkstraLoop g t fuel st
  | 0, _ => rfl
  | fuel + 1, st => by
    rw [astarLoop, dijkstraLoop]
    dsimp only [toAStar]
    by_cases he : st.pq.is_empty
    · rw [if_pos he, if_pos he]
    · rw [if_neg he, if_neg he]
      rcases hx : st.pq.extract_min with _ | ⟨⟨p, current⟩, pq'⟩
      · rfl
      · by_cases hv : st.visited.contains current
        · simp only [hv, if_true]
          exact astarLoop_zero g t fuel { st with pq := pq' }
        · simp only [hv, Bool.false_eq_true, if_false]
          by_cases hgoal : current = t
          · rw [if_pos hgoal, if_pos hgoal]
          · rw [if_neg hgoal, if_neg hgoal]
            have hscan := astarScan_zero g t current
              { st with
                pq := pq'
                visited := st.visited ++ [current]
                visitedOrder := st.visitedOrder ++ [current] }
            dsimp only [toAStar] at hscan
            rw [hscan]
            exact astarLoop_zero g t fuel _

/-- C6: with the zero heuristic, A* returns exactly the same result record
as Dijkstra on every graph and endpoint pair. -/
theorem c6_astar_zero_eq_dijkstra (g : Graph) (start_value goal_value : Val) :
    astar g start_value goal_value zero_heuristic =
      dijkstra g start_value goal_value := by
  unfold astar dijkstra
  rcases hgs : g.get_node start_value with _ | a
  · rfl
  rcases hgt : g.get_node goal_value with _ | b
  · rfl
  have hfs : (fun v => if v = start_value
      then ((zero_heuristic start_value goal_value : Rat) : Cost) else ⊤) =
      (fun v => if v = start_value then (0 : Cost) else ⊤) := by
    funext v
    show (if v = start_value then (((0 : Rat)) : Cost) else ⊤) = _
    norm_num
  have hpq : PriorityQueue.empty.insert start_value
      ((zero_heuristic start_value goal_value : Rat) : Cost) =
      PriorityQueue.empty.insert start_value (0 : Cost) := by
    show PriorityQueue.empty.insert start_value (((0 : Rat)) : Cost) = _
    norm_num
  rw [hfs, hpq]
  exact astarLoop_zero g goal_value (searchFuel g)
    ⟨fun v => if v = start_value then 0 else ⊤,
      setParent emptyParent start_value none, [], [],
      PriorityQueue.empty.insert start_value 0⟩


/-! Claim C8: instrumented twins of the four searches, additionally
recording the order in which nodes are removed from the frontier and
settled (the finalization trace), and for BFS also the discovery trace. -/

/-- BFS neighbor scan additionally recording the discovery order. -/
def bfsScanT (g : Graph) (current : Val) (sd : BfsState × List Val) :
    BfsState × List Val :=
  (g.adjOf current).foldl
    (fun sd e =>
      if sd.1.visited.contains e.1 then sd
      else
        (⟨sd.1.queue.enqueue e.1, sd.1.visited ++ [e.1],
          setParent sd.1.parent e.1 (some current), sd.1.visitedOrder ++ [e.1]⟩,
          sd.2 ++ [e.1]))
    sd

/-- The BFS loop with discovery and finalization traces. -/
def bfsLoopT (g : Graph) (goal_value : Val) :
    Nat → BfsState → List Val → List Val →
      Option (SearchResult × List Val × List Val)
  | 0, _, _, _ => none
  | fuel + 1, st, disc, fin =>
    if st.queue.is_empty then
      some (⟨false, [], st.visitedOrder, st.visited.length⟩, disc, fin)
    else
      match st.queue.dequeue with
      | none => none
      | some (current, q') =>
        if current = goal_value then
          (walkParentsIdx st.parent (walkFuel g) (some goal_value)).map
            (fun p => (⟨true, p.reverse, st.visitedOrder, st.visited.length⟩,
              disc, fin ++ [current]))
        else
          bfsLoopT g goal_value fuel
            (bfsScanT g current ({ st with queue := q' }, disc)).1
            (bfsScanT g current ({ st with queue := q' }, disc)).2
            (fin ++ [current])

/-- BFS with traces. -/
def breadth_first_searchT (g : Graph) (start_value goal_value : Val) :
    Option (SearchResult × List Val × List Val) :=
  match g.get_node start_value, g.get_node goal_value with
  | some _, some _ =>
    bfsLoopT g goal_value (searchFuel g)
      ⟨Queue.empty.enqueue start_value, [start_value],
        setParent emptyParent start_value none, [start_value]⟩
      [start_value] []
  | _, _ => some (⟨false, [], [], 0⟩, [], [])

/-- The DFS loop with a finalization trace. -/
def dfsLoopT (g : Graph) (goal_value : Val) :
    Nat → DfsState → List Val → Option (SearchResult × List Val)
  | 0, _, _ => none
  | fuel + 1, st, fin =>
    if st.stack.is_empty then
      some (⟨false, [], st.visitedOrder, st.visited.length⟩, fin)
    else
      match st.stack.pop with
      | none => none
      | some (current, s') =>
        if st.visited.contains current then
          dfsLoopT g goal_value fuel { st with stack := s' } fin
        else
          let st1 : DfsState :=
            { st with
              stack := s'
              visited := st.visited ++ [current]
              visitedOrder := st.visitedOrder ++ [current] }
          if current = goal_value then
            (walkParentsIdx st1.parent (walkFuel g) (some goal_value)).map
              (fun p => (⟨true, p.reverse, st1.visitedOrder, st1.visited.length⟩,
                fin ++ [current]))
          else
            dfsLoopT g goal_value fuel (dfsScan g current st1) (fin ++ [current])

/-- DFS with a finalization trace. -/
def depth_first_searchT (g : Graph) (start_value goal_value : Val) :
    Option (SearchResult × List Val) :=
  match g.get_node start_value, g.get_node goal_value with
  | some _, some _ =>
    dfsLoopT g goal_value (searchFuel g)
      ⟨Stack.empty.push start_value, [],
        setParent emptyParent start_value none, []⟩ []
  | _, _ => some (⟨false, [], [], 0⟩, [])

/-- The Dijkstra loop with a finalization trace. -/
def dijkstraLoopT (g : Graph) (goal_value : Val) :
    Nat → DijkstraState → List Val → Option (WeightedResult × List Val)
  | 0, _, _ => none
  | fuel + 1, st, fin =>
    if st.pq.is_empty then
      some (⟨false, [], ⊤, st.visitedOrder, st.visited.length⟩, fin)
    else
      match st.pq.extract_min with
      | none => none
      | some ((_, current), pq') =>
        if st.visited.contains current then
          dijkstraLoopT g goal_value fuel { st with pq := pq' } fin
        else
          let st1 : DijkstraState :=
            { st with
              pq := pq'
              visited := st.visited ++ [current]
              visitedOrder := st.visitedOrder ++ [current] }
          if current = goal_value then
            (walkParentsGet st1.parent (walkFuel g) (some goal_value)).map
              (fun p =>
                (⟨true, p.reverse, st1.distance goal_value, st1.visitedOrder,
                  st1.visited.length⟩, fin ++ [current]))
          else
            dijkstraLoopT g goal_value fuel (dijkstraScan g current st1)
              (fin ++ [current])

/-- Dijkstra with a finalization trace. -/
def dijkstraT (g : Graph) (start_value goal_value : Val) :
    Option (WeightedResult × List Val) :=
  match g.get_node start_value, g.get_node goal_value with
  | some _, some _ =>
    dijkstraLoopT g goal_value (searchFuel g)
      ⟨fun v => if v = start_value then 0 else ⊤,
        setParent emptyParent start_value none, [], [],
        PriorityQueue.empty.insert start_value 0⟩ []
  | _, _ => some (⟨false, [], ⊤, [], 0⟩, [])

/-- The A* loop with a finalization trace. -/
def astarLoopT (g : Graph) (goal_value : Val) (h : Heuristic) :
    Nat → AStarState → List Val → Option (WeightedResult × List Val)
  | 0, _, _ => none
  | fuel + 1, st, fin =>
    if st.pq.is_empty then
      some (⟨false, [], ⊤, st.visitedOrder, st.visited.length⟩, fin)
    else
      match st.pq.extract_min with
      | none => none
      | some ((_, current), pq') =>
        if st.visited.contains current then
          astarLoopT g goal_value h fuel { st with pq := pq' } fin
        else
          let st1 : AStarState :=
            { st with
              pq := pq'
              visited := st.visited ++ [current]
              visitedOrder := st.visitedOrder ++ [current] }
          if current = goal_value then
            (walkParentsGet st1.parent (walkFuel g) (some goal_value)).map
              (fun p =>
                (⟨true, p.reverse, st1.g_score goal_value, st1.visitedOrder,
                  st1.visited.length⟩, fin ++ [current]))
          else
            astarLoopT g goal_value h fuel (astarScan g goal_value h current st1)
              (fin ++ [current])

/-- A* with a finalization trace. -/
def astarT (g : Graph) (start_value goal_value : Val) (h : Heuristic) :
    Option (WeightedResult × List Val) :=
  match g.get_node start_value, g.get_node goal_value with
  | some _, some _ =>
    astarLoopT g goal_value h (searchFuel g)
      ⟨fun v => if v = start_value then 0 else ⊤,
        fun v => if v = start_value then ((h start_value goal_value : Rat) : Cost)
                 else ⊤,
        setParent emptyParent start_value none, [], [],
        PriorityQueue.empty.insert start_value
          ((h start_value goal_value : Rat) : Cost)⟩ []
  | _, _ => some (⟨false, [], ⊤, [], 0⟩, [])


theorem bfsScanT_fst (g : Graph) (current : Val) (st : BfsState)
    (disc : List Val) :
    (bfsScanT g current (st, disc)).1 = bfsScan g current st := by
  unfold bfsScanT bfsScan
  exact (List.foldl_hom Prod.fst _ _ _ (st, disc) (by
    intro sd e
    by_cases hv : sd.1.visited.contains e.1
    · rw [if_pos hv, if_pos hv]
    · rw [if_neg hv, if_neg hv])).symm

theorem bfsLoopT_fst (g : Graph) (t : Val) :
    ∀ (fuel : Nat) (st : BfsState) (disc fin : List Val),
      (bfsLoopT g t fuel st disc fin).map Prod.fst = bfsLoop g t fuel st
  | 0, _, _, _ => rfl
  | fuel + 1, st, disc, fin => by
    rw [bfsLoopT, bfsLoop]
    by_cases he : st.queue.is_empty
    · rw [if_pos he, if_pos he]
      rfl
    · rw [if_neg he, if_neg he]
      rcases hd : st.queue.dequeue with _ | ⟨current, q'⟩
      · rfl
      · dsimp only
        by_cases hg : current = t
        · rw [if_pos hg, if_pos hg]
          rcases walkParentsIdx st.parent (walkFuel g) (some t) with _ | p <;> rfl
        · rw [if_neg hg, if_neg hg, bfsScanT_fst]
          exact bfsLoopT_fst g t fuel _ _ _

theorem dfsLoopT_fst (g : Graph) (t : Val) :
    ∀ (fuel : Nat) (st : DfsState) (fin : List Val),
      (dfsLoopT g t fuel st fin).map Prod.fst = dfsLoop g t fuel st
  | 0, _, _ => rfl
  | fuel + 1, st, fin => by
    rw [dfsLoopT, dfsLoop]
    by_cases he : st.stack.is_empty
    · rw [if_pos he, if_pos he]
      rfl
    · rw [if_neg he, if_neg he]
      rcases hd : st.stack.pop with _ | ⟨current, s'⟩
      · rfl
      · dsimp only
        by_cases hv : st.visited.contains current
        · rw [if_pos hv, if_pos hv]
          exact dfsLoopT_fst g t fuel _ _
        · rw [if_neg hv, if_neg hv]
          by_cases hg : current = t
          · rw [if_pos hg, if_pos hg]
            rcases walkParentsIdx st.parent (walkFuel g) (some t) with _ | p <;> rfl
          · rw [if_neg hg, if_neg hg]
            exact dfsLoopT_fst g t fuel _ _

theorem dijkstraLoopT_fst (g : Graph) (t : Val) :
    ∀ (fuel : Nat) (st : DijkstraState) (fin : List Val),
      (dijkstraLoopT g t fuel st fin).map Prod.fst = dijkstraLoop g t fuel st
  | 0, _, _ => rfl
  | fuel + 1, st, fin => by
    rw [dijkstraLoopT, dijkstraLoop]
    by_cases he : st.pq.is_empty
    · rw [if_pos he, if_pos he]
      rfl
    · rw [if_neg he, if_neg he]
      rcases hx : st.pq.extract_min with _ | ⟨⟨p, current⟩, pq'⟩
      · rfl
      · dsimp only
        by_cases hv : st.visited.contains current
        · rw [if_pos hv, if_pos hv]
          exact dijkstraLoopT_fst g t fuel _ _
        · rw [if_neg hv, if_neg hv]
          by_cases hg : current = t
          · rw [if_pos hg, if_pos hg]
            rcases walkParentsGet st.parent (walkFuel g) (some t) with _ | p <;> rfl
          · rw [if_neg hg, if_neg hg]
            exact dijkstraLoopT_fst g t fuel _ _

theorem astarLoopT_fst (g : Graph) (t : Val) (h : Heuristic) :
    ∀ (fuel : Nat) (st : AStarState) (fin : List Val),
      (astarLoopT g t h fuel st fin).map Prod.fst = astarLoop g t h fuel st
  | 0, _, _ => rfl
  | fuel + 1, st, fin => by
    rw [astarLoopT, astarLoop]
    by_cases he : st.pq.is_empty
    · rw [if_pos he, if_pos he]
      rfl
    · rw [if_neg he, if_neg he]
      rcases hx : st.pq.extract_min with _ | ⟨⟨p, current⟩, pq'⟩
      · rfl
      · dsimp only
        by_cases hv : st.visited.contains current
        · rw [if_pos hv, if_pos hv]
          exact astarLoopT_fst g t h fuel _ _
        · rw [if_neg hv, if_neg hv]
          by_cases hg : current = t
          · rw [if_pos hg, if_pos hg]
            rcases walkParentsGet st.parent (walkFuel g) (some t) with _ | p <;> rfl
          · rw [if_neg hg, if_neg hg]
            exact astarLoopT_fst g t h fuel _ _


theorem dijkstraScan_fields (g : Graph) (current : Val) (st : DijkstraState) :
    (dijkstraScan g current st).visited = st.visited ∧
      (dijkstraScan g current st).visitedOrder = st.visitedOrder := by
  unfold dijkstraScan
  generalize g.adjOf current = l
  induction l generalizing st with
  | nil => exact ⟨rfl, rfl⟩
  | cons e rest ih =>
    simp only [List.foldl_cons]
    constructor
    · rw [(ih _).1]
      split_ifs <;> rfl
    · rw [(ih _).2]
      split_ifs <;> rfl

theorem astarScan_fields (g : Graph) (t : Val) (h : Heuristic) (current : Val)
    (st : AStarState) :
    (astarScan g t h current st).visited = st.visited ∧
      (astarScan g t h current st).visitedOrder = st.visitedOrder := by
  unfold astarScan
  generalize g.adjOf current = l
  induction l generalizing st with
  | nil => exact ⟨rfl, rfl⟩
  | cons e rest ih =>
    simp only [List.foldl_cons]
    constructor
    · rw [(ih _).1]
      split_ifs <;> rfl
    · rw [(ih _).2]
      split_ifs <;> rfl

theorem dfsScan_fields (g : Graph) (current : Val) (st : DfsState) :
    (dfsScan g current st).visited = st.visited ∧
      (dfsScan g current st).visitedOrder = st.visitedOrder := by
  unfold dfsScan
  generalize (g.adjOf current).reverse = l
  induction l generalizing st with
  | nil => exact ⟨rfl, rfl⟩
  | cons e rest ih =>
    simp only [List.foldl_cons]
    constructor
    · rw [(ih _).1]
      split_ifs <;> rfl
    · rw [(ih _).2]
      split_ifs <;> rfl

theorem bfsScanT_inv (g : Graph) (current : Val) (st : BfsState)
    (disc : List Val) (hdisc : disc = st.visitedOrder)
    (hlen : st.visited.length = st.visitedOrder.length) :
    (bfsScanT g current (st, disc)).2 =
        (bfsScanT g current (st, disc)).1.visitedOrder ∧
      (bfsScanT g current (st, disc)).1.visited.length =
        (bfsScanT g current (st, disc)).1.visitedOrder.length := by
  unfold bfsScanT
  generalize g.adjOf current = l
  induction l generalizing st disc with
  | nil => exact ⟨hdisc, hlen⟩
  | cons e rest ih =>
    simp only [List.foldl_cons]
    by_cases hv : st.visited.contains e.1
    · rw [if_pos hv]
      exact ih st disc hdisc hlen
    · rw [if_neg hv]
      exact ih _ _ (by simp [hdisc]) (by simp [hlen])


theorem dijkstraLoopT_trace (g : Graph) (t : Val) :
    ∀ (fuel : Nat) (st : DijkstraState) (fin : List Val),
      fin = st.visitedOrder → st.visited.length = st.visitedOrder.length →
      ∀ r fin', dijkstraLoopT g t fuel st fin = some (r, fin') →
        r.visited = fin' ∧ r.nodes_explored = fin'.length
  | 0, st, fin => by
    intro _ _ r fin' hres
    exact Option.noConfusion hres
  | fuel + 1, st, fin => by
    intro hfin hlen
    rw [dijkstraLoopT]
    by_cases he : st.pq.is_empty
    · rw [if_pos he]
      intro r fin' hres
      simp only [Option.some.injEq, Prod.mk.injEq] at hres
      obtain ⟨h1, h2⟩ := hres
      rw [← h1, ← h2]
      refine ⟨hfin.symm, ?_⟩
      show st.visited.length = fin.length
      rw [hfin]
      exact hlen
    · rw [if_neg he]
      rcases hx : st.pq.extract_min with _ | ⟨⟨p, current⟩, pq'⟩
      · intro r fin' hres
        exact Option.noConfusion hres
      · dsimp only
        by_cases hv : st.visited.contains current
        · rw [if_pos hv]
          exact dijkstraLoopT_trace g t fuel _ _ hfin hlen
        · rw [if_neg hv]
          by_cases hg : current = t
          · rw [if_pos hg]
            rcases hw : walkParentsGet st.parent (walkFuel g) (some t) with _ | pth
            · intro r fin' hres
              exact Option.noConfusion hres
            · intro r fin' hres
              simp only [Option.map_some', Option.some.injEq, Prod.mk.injEq] at hres
              obtain ⟨h1, h2⟩ := hres
              rw [← h1, ← h2]
              constructor
              · show st.visitedOrder ++ [current] = fin ++ [current]
                rw [hfin]
              · show (st.visited ++ [current]).length = (fin ++ [current]).length
                simp [hlen, hfin]
          · rw [if_neg hg]
            apply dijkstraLoopT_trace g t fuel _ _
            · rw [(dijkstraScan_fields g current _).2]
              show fin ++ [current] = st.visitedOrder ++ [current]
              rw [hfin]
            · rw [(dijkstraScan_fields g current _).1,
                (dijkstraScan_fields g current _).2]
              show (st.visited ++ [current]).length = (st.visitedOrder ++ [current]).length
              simp [hlen]

theorem astarLoopT_trace (g : Graph) (t : Val) (h : Heuristic) :
    ∀ (fuel : Nat) (st : AStarState) (fin : List Val),
      fin = st.visitedOrder → st.visited.length = st.visitedOrder.length →
      ∀ r fin', astarLoopT g t h fuel st fin = some (r, fin') →
        r.visited = fin' ∧ r.nodes_explored = fin'.length
  | 0, st, fin => by
    intro _ _ r fin' hres
    exact Option.noConfusion hres
  | fuel + 1, st, fin => by
    intro hfin hlen
    rw [astarLoopT]
    by_cases he : st.pq.is_empty
    · rw [if_pos he]
      intro r fin' hres
      simp only [Option.some.injEq, Prod.mk.injEq] at hres
      obtain ⟨h1, h2⟩ := hres
      rw [← h1, ← h2]
      refine ⟨hfin.symm, ?_⟩
      show st.visited.length = fin.length
      rw [hfin]
      exact hlen
    · rw [if_neg he]
      rcases hx : st.pq.extract_min with _ | ⟨⟨p, current⟩, pq'⟩
      · intro r fin' hres
        exact Option.noConfusion hres
      · dsimp only
        by_cases hv : st.visited.contains current
        · rw [if_pos hv]
          exact astarLoopT_trace g t h fuel _ _ hfin hlen
        · rw [if_neg hv]
          by_cases hg : current = t
          · rw [if_pos hg]
            rcases hw : walkParentsGet st.parent (walkFuel g) (some t) with _ | pth
            · intro r fin' hres
              exact Option.noConfusion hres
            · intro r fin' hres
              simp only [Option.map_some', Option.some.injEq, Prod.mk.injEq] at hres
              obtain ⟨h1, h2⟩ := hres
              rw [← h1, ← h2]
              constructor
              · show st.visitedOrder ++ [current] = fin ++ [current]
                rw [hfin]
              · show (st.visited ++ [current]).length = (fin ++ [current]).length
                simp [hlen, hfin]
          · rw [if_neg hg]
            apply astarLoopT_trace g t h fuel _ _
            · rw [(astarScan_fields g t h current _).2]
              show fin ++ [current] = st.visitedOrder ++ [current]
              rw [hfin]
            · rw [(astarScan_fields g t h current _).1,
                (astarScan_fields g t h current _).2]
              show (st.visited ++ [current]).length = (st.visitedOrder ++ [current]).length
              simp [hlen]

theorem dfsLoopT_trace (g : Graph) (t : Val) :
    ∀ (fuel : Nat) (st : DfsState) (fin : List Val),
      fin = st.visitedOrder → st.visited.length = st.visitedOrder.length →
      ∀ r fin', dfsLoopT g t fuel st fin = some (r, fin') →
        r.visited = fin' ∧ r.nodes_explored = fin'.length
  | 0, st, fin => by
    intro _ _ r fin' hres
    exact Option.noConfusion hres
  | fuel + 1, st, fin => by
    intro hfin hlen
    rw [dfsLoopT]
    by_cases he : st.stack.is_empty
    · rw [if_pos he]
      intro r fin' hres
      simp only [Option.some.injEq, Prod.mk.injEq] at hres
      obtain ⟨h1, h2⟩ := hres
      rw [← h1, ← h2]
      refine ⟨hfin.symm, ?_⟩
      show st.visited.length = fin.length
      rw [hfin]
      exact hlen
    · rw [if_neg he]
      rcases hx : st.stack.pop with _ | ⟨current, s'⟩
      · intro r fin' hres
        exact Option.noConfusion hres
      · dsimp only
        by_cases hv : st.visited.contains current
        · rw [if_pos hv]
          exact dfsLoopT_trace g t fuel _ _ hfin hlen
        · rw [if_neg hv]
          by_cases hg : current = t
          · rw [if_pos hg]
            rcases hw : walkParentsIdx
                (DfsState.mk s' (st.visited ++ [current]) st.parent
                  (st.visitedOrder ++ [current])).parent (walkFuel g)
                (some t) with _ | pth
            · intro r fin' hres
              exact Option.noConfusion hres
            · intro r fin' hres
              simp only [Option.map_some', Option.some.injEq, Prod.mk.injEq] at hres
              obtain ⟨h1, h2⟩ := hres
              rw [← h1, ← h2]
              constructor
              · show st.visitedOrder ++ [current] = fin ++ [current]
                rw [hfin]
              · show (st.visited ++ [current]).length = (fin ++ [current]).length
                simp [hlen, hfin]
          · rw [if_neg hg]
            apply dfsLoopT_trace g t fuel _ _
            · rw [(dfsScan_fields g current _).2]
              show fin ++ [current] = st.visitedOrder ++ [current]
              rw [hfin]
            · rw [(dfsScan_fields g current _).1, (dfsScan_fields g current _).2]
              show (st.visited ++ [current]).length = (st.visitedOrder ++ [current]).length
              simp [hlen]

theorem bfsLoopT_trace (g : Graph) (t : Val) :
    ∀ (fuel : Nat) (st : BfsState) (disc fin : List Val),
      disc = st.visitedOrder → st.visited.length = st.visitedOrder.length →
      ∀ r disc' fin', bfsLoopT g t fuel st disc fin = some (r, disc', fin') →
        r.visited = disc' ∧ r.nodes_explored = disc'.length
  | 0, st, disc, fin => by
    intro _ _ r disc' fin' hres
    exact Option.noConfusion hres
  | fuel + 1, st, disc, fin => by
    intro hdisc hlen
    rw [bfsLoopT]
    by_cases he : st.queue.is_empty
    · rw [if_pos he]
      intro r disc' fin' hres
      simp only [Option.some.injEq, Prod.mk.injEq] at hres
      obtain ⟨h1, h2, h3⟩ := hres
      rw [← h1, ← h2]
      refine ⟨hdisc.symm, ?_⟩
      show st.visited.length = disc.length
      rw [hdisc]
      exact hlen
    · rw [if_neg he]
      rcases hd : st.queue.dequeue with _ | ⟨current, q'⟩
      · intro r disc' fin' hres
        exact Option.noConfusion hres
      · dsimp only
        by_cases hg : current = t
        · rw [if_pos hg]
          rcases hw : walkParentsIdx st.parent (walkFuel g) (some t) with _ | pth
          · intro r disc' fin' hres
            exact Option.noConfusion hres
          · intro r disc' fin' hres
            simp only [Option.map_some', Option.some.injEq, Prod.mk.injEq] at hres
            obtain ⟨h1, h2, h3⟩ := hres
            rw [← h1, ← h2]
            refine ⟨hdisc.symm, ?_⟩
            show st.visited.length = disc.length
            rw [hdisc]
            exact hlen
        · rw [if_neg hg]
          apply bfsLoopT_trace g t fuel _ _ _
          · exact (bfsScanT_inv g current { st with queue := q' } disc hdisc hlen).1
          · exact (bfsScanT_inv g current { st with queue := q' } disc hdisc hlen).2


/-- C8 counterexample: in the BFS run on the two-edge graph A-B, A-C
searching A to B, the returned visited list is the discovery order
including node C, which is never removed from the frontier; the
finalization trace has only two nodes, so visited is not the finalization
order and nodes_explored is not the count of finalized nodes. -/
theorem c8_bfs_visited_not_finalization_order :
    breadth_first_searchT (((Graph.mk false []).add_edge 0 1 1).add_edge 0 2 1) 0 1 =
      some (⟨true, [0, 1], [0, 1, 2], 3⟩, [0, 1, 2], [0, 1]) ∧
    breadth_first_search (((Graph.mk false []).add_edge 0 1 1).add_edge 0 2 1) 0 1 =
      some ⟨true, [0, 1], [0, 1, 2], 3⟩ ∧
    ([0, 1, 2] : List Val) ≠ [0, 1] ∧
    (3 : Nat) ≠ ([0, 1] : List Val).length := by
  refine ⟨by decide, by decide, by decide, by decide⟩

/-- C8 amended: the trace-instrumented twins project to the four search
functions, and for DFS, Dijkstra and A* the returned visited list is
exactly the finalization trace with nodes_explored its length, while for
BFS the returned visited list is exactly the discovery trace (enqueue
order, start included) with nodes_explored its length. -/
theorem c8_amended_visited_semantics (g : Graph) (s t : Val) (h : Heuristic) :
    ((breadth_first_searchT g s t).map Prod.fst = breadth_first_search g s t ∧
      ∀ r disc fin, breadth_first_searchT g s t = some (r, disc, fin) →
        r.visited = disc ∧ r.nodes_explored = disc.length) ∧
    ((depth_first_searchT g s t).map Prod.fst = depth_first_search g s t ∧
      ∀ r fin, depth_first_searchT g s t = some (r, fin) →
        r.visited = fin ∧ r.nodes_explored = fin.length) ∧
    ((dijkstraT g s t).map Prod.fst = dijkstra g s t ∧
      ∀ r fin, dijkstraT g s t = some (r, fin) →
        r.visited = fin ∧ r.nodes_explored = fin.length) ∧
    ((astarT g s t h).map Prod.fst = astar g s t h ∧
      ∀ r fin, astarT g s t h = some (r, fin) →
        r.visited = fin ∧ r.nodes_explored = fin.length) := by
  refine ⟨⟨?_, ?_⟩, ⟨?_, ?_⟩, ⟨?_, ?_⟩, ⟨?_, ?_⟩⟩
  · unfold breadth_first_searchT breadth_first_search
    rcases g.get_node s with _ | a
    · rfl
    rcases g.get_node t with _ | b
    · rfl
    exact bfsLoopT_fst g t _ _ _ _
  · unfold breadth_first_searchT
    rcases g.get_node s with _ | a
    · intro r disc fin hres
      simp only [Option.some.injEq, Prod.mk.injEq] at hres
      obtain ⟨h1, h2, h3⟩ := hres
      rw [← h1, ← h2]
      exact ⟨rfl, rfl⟩
    rcases g.get_node t with _ | b
    · intro r disc fin hres
      simp only [Option.some.injEq, Prod.mk.injEq] at hres
      obtain ⟨h1, h2, h3⟩ := hres
      rw [← h1, ← h2]
      exact ⟨rfl, rfl⟩
    intro r disc fin hres
    exact bfsLoopT_trace g t (searchFuel g) _ _ _ rfl rfl r disc fin hres
  · unfold depth_first_searchT depth_first_search
    rcases g.get_node s with _ | a
    · rfl
    rcases g.get_node t with _ | b
    · rfl
    exact dfsLoopT_fst g t _ _ _
  · unfold depth_first_searchT
    rcases g.get_node s with _ | a
    · intro r fin hres
      simp only [Option.some.injEq, Prod.mk.injEq] at hres
      obtain ⟨h1, h2⟩ := hres
      rw [← h1, ← h2]
      exact ⟨rfl, rfl⟩
    rcases g.get_node t with _ | b
    · intro r fin hres
      simp only [Option.some.injEq, Prod.mk.injEq] at hres
      obtain ⟨h1, h2⟩ := hres
      rw [← h1, ← h2]
      exact ⟨rfl, rfl⟩
    intro r fin hres
    exact dfsLoopT_trace g t (searchFuel g) _ _ rfl rfl r fin hres
  · unfold dijkstraT dijkstra
    rcases g.get_node s with _ | a
    · rfl
    rcases g.get_node t with _ | b
    · rfl
    exact dijkstraLoopT_fst g t _ _ _
  · unfold dijkstraT
    rcases g.get_node s with _ | a
    · intro r fin hres
      simp only [Option.some.injEq, Prod.mk.injEq] at hres
      obtain ⟨h1, h2⟩ := hres
      rw [← h1, ← h2]
      exact ⟨rfl, rfl⟩
    rcases g.get_node t with _ | b
    · intro r fin hres
      simp only [Option.some.injEq, Prod.mk.injEq] at hres
      obtain ⟨h1, h2⟩ := hres
      rw [← h1, ← h2]
      exact ⟨rfl, rfl⟩
    intro r fin hres
    exact dijkstraLoopT_trace g t (searchFuel g) _ _ rfl rfl r fin hres
  · unfold astarT astar
    rcases g.get_node s with _ | a
    · rfl
    rcases g.get_node t with _ | b
    · rfl
    exact astarLoopT_fst g t h _ _ _
  · unfold astarT
    rcases g.get_node s with _ | a
    · intro r fin hres
      simp only [Option.some.injEq, Prod.mk.injEq] at hres
      obtain ⟨h1, h2⟩ := hres
      rw [← h1, ← h2]
      exact ⟨rfl, rfl⟩
    rcases g.get_node t with _ | b
    · intro r fin hres
      simp only [Option.some.injEq, Prod.mk.injEq] at hres
      obtain ⟨h1, h2⟩ := hres
      rw [← h1, ← h2]
      exact ⟨rfl, rfl⟩
    intro r fin hres
    exact astarLoopT_trace g t h (searchFuel g) _ _ rfl rfl r fin hres

theorem c8_amended_visited_semantics_witness :
    ((breadth_first_searchT (((Graph.mk false []).add_edge 0 1 1).add_edge 0 2 1) 0 1).map
        Prod.fst = breadth_first_search (((Graph.mk false []).add_edge 0 1 1).add_edge 0 2 1) 0 1 ∧
      ∀ r disc fin,
        breadth_first_searchT (((Graph.mk false []).add_edge 0 1 1).add_edge 0 2 1) 0 1 =
          some (r, disc, fin) → r.visited = disc ∧ r.nodes_explored = disc.length) ∧
    ((depth_first_searchT (((Graph.mk false []).add_edge 0 1 1).add_edge 0 2 1) 0 1).map
        Prod.fst = depth_first_search (((Graph.mk false []).add_edge 0 1 1).add_edge 0 2 1) 0 1 ∧
      ∀ r fin,
        depth_first_searchT (((Graph.mk false []).add_edge 0 1 1).add_edge 0 2 1) 0 1 =
          some (r, fin) → r.visited = fin ∧ r.nodes_explored = fin.length) ∧
    ((dijkstraT (((Graph.mk false []).add_edge 0 1 1).add_edge 0 2 1) 0 1).map
        Prod.fst = dijkstra (((Graph.mk false []).add_edge 0 1 1).add_edge 0 2 1) 0 1 ∧
      ∀ r fin,
        dijkstraT (((Graph.mk false []).add_edge 0 1 1).add_edge 0 2 1) 0 1 =
          some (r, fin) → r.visited = fin ∧ r.nodes_explored = fin.length) ∧
    ((astarT (((Graph.mk false []).add_edge 0 1 1).add_edge 0 2 1) 0 1 zero_heuristic).map
        Prod.fst = astar (((Graph.mk false []).add_edge 0 1 1).add_edge 0 2 1) 0 1 zero_heuristic ∧
      ∀ r fin,
        astarT (((Graph.mk false []).add_edge 0 1 1).add_edge 0 2 1) 0 1 zero_heuristic =
          some (r, fin) → r.visited = fin ∧ r.nodes_explored = fin.length) :=
  c8_amended_visited_semantics (((Graph.mk false []).add_edge 0 1 1).add_edge 0 2 1)
    0 1 zero_heuristic


/-! Termination of the four searches: ranks, size bounds and parent walks. -/

/-- Position of the first occurrence of a value in a list. -/
def idxIn : List Val → Val → Nat
  | [], _ => 0
  | a :: l, v => if v = a then 0 else idxIn l v + 1

theorem idxIn_lt_length {l : List Val} {v : Val} (hv : v ∈ l) :
    idxIn l v < l.length := by
  induction l with
  | nil => cases hv
  | cons a l ih =>
    by_cases hva : v = a
    · simp [idxIn, hva]
    · rcases List.mem_cons.mp hv with h | h
      · exact absurd h hva
      · simp only [idxIn, if_neg hva, List.length_cons]
        exact Nat.succ_lt_succ (ih h)

theorem idxIn_append_left {l1 : List Val} (l2 : List Val) {v : Val}
    (hv : v ∈ l1) : idxIn (l1 ++ l2) v = idxIn l1 v := by
  induction l1 with
  | nil => cases hv
  | cons a l ih =>
    by_cases hva : v = a
    · simp [idxIn, hva]
    · rcases List.mem_cons.mp hv with h | h
      · exact absurd h hva
      · simp only [List.cons_append, idxIn, if_neg hva, List.append_eq, ih h]

theorem idxIn_append_self {l1 : List Val} {v : Val} (hv : v ∉ l1) :
    idxIn (l1 ++ [v]) v = l1.length := by
  induction l1 with
  | nil => simp [idxIn]
  | cons a l ih =>
    have hva : v ≠ a := fun h => hv (h ▸ List.mem_cons_self a l)
    simp only [List.cons_append, idxIn, if_neg hva, List.length_cons, List.append_eq]
    rw [ih (fun h => hv (List.mem_cons_of_mem a h))]

theorem nodup_subset_length {l l2 : List Val} (hn : l.Nodup)
    (hs : ∀ v ∈ l, v ∈ l2) : l.length ≤ l2.length :=
  (List.subperm_of_subset hn hs).length_le

namespace Graph

/-- A found node record comes from an entry of the node dictionary. -/
theorem get_node_some_elim {g : Graph} {c : Val} {adj : Adj}
    (h : g.get_node c = some adj) :
    ∃ nv ∈ g.nodes, nv.1 = c ∧ nv.2 = adj := by
  unfold get_node at h
  rcases hf : g.nodes.find? (·.1 == c) with _ | nv
  · rw [hf] at h
    cases h
  · rw [hf] at h
    refine ⟨nv, List.mem_of_find?_eq_some hf, ?_, ?_⟩
    · have hp := List.find?_some hf
      simpa using hp
    · simpa using h

/-- Every adjacency entry of a well-formed graph targets a registered node. -/
theorem adjOf_mem_nodeValues (g : Graph) (hwf : g.WF) (c : Val) :
    ∀ e ∈ g.adjOf c, e.1 ∈ g.nodeValues := by
  intro e he
  unfold adjOf at he
  rcases hf : g.get_node c with _ | adj
  · rw [hf] at he
    cases he
  · rw [hf] at he
    simp only [Option.getD_some] at he
    obtain ⟨nv, hmem, hk, hv⟩ := get_node_some_elim hf
    exact hwf.2.2 nv hmem e (hv ▸ he)

/-- An adjacency list is no longer than the total entry count. -/
theorem adjOf_length_le (g : Graph) (c : Val) :
    (g.adjOf c).length ≤ g.edgeTotal := by
  unfold adjOf
  rcases hf : g.get_node c with _ | adj
  · simp
  · simp only [Option.getD_some]
    obtain ⟨nv, hmem, hk, hv⟩ := get_node_some_elim hf
    unfold edgeTotal
    rw [← hv]
    exact List.single_le_sum (fun x _ => Nat.zero_le x) _
      (List.mem_map_of_mem (fun nv => nv.2.length) hmem)

/-- A value with a node record is a registered node. -/
theorem mem_nodeValues_of_get_node {g : Graph} {v : Val} {adj : Adj}
    (h : g.get_node v = some adj) : v ∈ g.nodeValues := by
  obtain ⟨nv, hmem, hk, hv⟩ := get_node_some_elim h
  exact hk ▸ List.mem_map_of_mem Prod.fst hmem

end Graph

/-- Computation shape of extract_min on any nonempty queue: the head is
returned, the remainder is a permutation of the rest and is one shorter. -/
theorem PriorityQueue.extract_min_shape {α : Type} (q : PriorityQueue α)
    (x : Cost × α) (rest : List (Cost × α)) (he : q.heap = x :: rest) :
    ∃ q', q.extract_min = some (x, q') ∧ (x :: q'.heap).Perm q.heap ∧
      q'.heap.length = rest.length := by
  have hcomp : q.extract_min = some (x,
      ⟨if (((x :: rest).set 0 ((x :: rest).getLast (List.cons_ne_nil _ _))).dropLast).length == 0
        then ((x :: rest).set 0 ((x :: rest).getLast (List.cons_ne_nil _ _))).dropLast
        else heapify_down (((x :: rest).set 0 ((x :: rest).getLast (List.cons_ne_nil _ _))).dropLast) 0⟩) := by
    unfold extract_min
    split
    · rename_i heq
      rw [he] at heq
      exact absurd heq (List.cons_ne_nil _ _)
    · rename_i m r heq
      rw [he] at heq
      cases heq
      rfl
  rcases eq_or_ne rest [] with rfl | hrest
  · refine ⟨⟨[]⟩, hcomp, ?_, rfl⟩
    rw [he]
  · have hlast : (x :: rest).getLast (List.cons_ne_nil _ _) = rest.getLast hrest :=
      List.getLast_cons hrest
    have hset : (x :: rest).set 0 ((x :: rest).getLast (List.cons_ne_nil _ _)) =
        rest.getLast hrest :: rest := by rw [hlast]; rfl
    have hshrunk : (((x :: rest).set 0 ((x :: rest).getLast (List.cons_ne_nil _ _))).dropLast) =
        rest.getLast hrest :: rest.dropLast := by
      rw [hset, List.dropLast_cons_of_ne_nil hrest]
    have hrlpos : 0 < rest.length := List.length_pos.mpr hrest
    have hlen : (rest.getLast hrest :: rest.dropLast).length = rest.length := by
      simp only [List.length_cons, List.length_dropLast]
      omega
    have hne : ((rest.getLast hrest :: rest.dropLast).length == 0) = false := by
      simp
    have hpermshrunk : (rest.getLast hrest :: rest.dropLast).Perm rest := by
      have hp := List.perm_append_singleton (rest.getLast hrest) rest.dropLast
      rw [List.dropLast_concat_getLast hrest] at hp
      exact hp.symm
    rw [hshrunk, hne] at hcomp
    simp only [Bool.false_eq_true, if_false] at hcomp
    refine ⟨_, hcomp, ?_, ?_⟩
    · refine List.Perm.trans ?_ (show (x :: rest).Perm q.heap by rw [he])
      exact ((heapify_down_perm _ _).trans hpermshrunk).cons x
    · rw [heapify_down_length, hlen]

theorem walkParentsIdx_none (parent : ParentMap) (f : Nat) :
    walkParentsIdx parent f none = some [] := by
  cases f <;> rfl

theorem walkParentsGet_none (parent : ParentMap) (f : Nat) :
    walkParentsGet parent f none = some [] := by
  cases f <;> rfl

/-- A raising parent walk succeeds on any node of a visited list whose
parent pointers are defined on the list and strictly decrease the rank. -/
theorem walk_succeeds_idx (parent : ParentMap) (visited : List Val)
    (hdef : ∀ v ∈ visited, (parent v).isSome = true)
    (hmem : ∀ v u, parent v = some (some u) → u ∈ visited)
    (hidx : ∀ v ∈ visited, ∀ u, parent v = some (some u) →
      idxIn visited u < idxIn visited v) :
    ∀ (f : Nat) (v : Val), v ∈ visited → idxIn visited v + 1 ≤ f →
      ∃ l, walkParentsIdx parent f (some v) = some l := by
  intro f
  induction f with
  | zero => intro v hv hf; omega
  | succ f ih =>
    intro v hv hf
    rcases hpv : parent v with _ | pv
    · have := hdef v hv
      rw [hpv] at this
      cases this
    · rcases pv with _ | u
      · refine ⟨[v], ?_⟩
        rw [walkParentsIdx, hpv]
        dsimp only
        rw [walkParentsIdx_none]
        rfl
      · have hu := hmem v u hpv
        have hlt := hidx v hv u hpv
        obtain ⟨l, hl⟩ := ih u hu (by omega)
        refine ⟨v :: l, ?_⟩
        rw [walkParentsIdx, hpv]
        dsimp only
        rw [hl]
        rfl

/-- A defaulting parent walk succeeds on any node of a visited list whose
parent pointers strictly decrease the rank. -/
theorem walk_succeeds_get (parent : ParentMap) (visited : List Val)
    (hmem : ∀ v u, parent v = some (some u) → u ∈ visited)
    (hidx : ∀ v ∈ visited, ∀ u, parent v = some (some u) →
      idxIn visited u < idxIn visited v) :
    ∀ (f : Nat) (v : Val), v ∈ visited → idxIn visited v + 1 ≤ f →
      ∃ l, walkParentsGet parent f (some v) = some l := by
  intro f
  induction f with
  | zero => intro v hv hf; omega
  | succ f ih =>
    intro v hv hf
    rcases hpv : parent v with _ | pv
    · refine ⟨[v], ?_⟩
      rw [walkParentsGet, hpv]
      show (walkParentsGet parent f none).map _ = _
      rw [walkParentsGet_none]
      rfl
    · rcases pv with _ | u
      · refine ⟨[v], ?_⟩
        rw [walkParentsGet, hpv]
        show (walkParentsGet parent f none).map _ = _
        rw [walkParentsGet_none]
        rfl
      · have hu := hmem v u hpv
        have hlt := hidx v hv u hpv
        obtain ⟨l, hl⟩ := ih u hu (by omega)
        refine ⟨v :: l, ?_⟩
        rw [walkParentsGet, hpv]
        show (walkParentsGet parent f (some u)).map _ = _
        rw [hl]
        rfl


theorem Queue.dequeue_some {α : Type} {q : Queue α} {x : α} {q' : Queue α}
    (h : q.dequeue = some (x, q')) : q.items = x :: q'.items := by
  unfold dequeue at h
  rcases hq : q.items with _ | ⟨a, rest⟩
  · rw [hq] at h
    cases h
  · rw [hq] at h
    simp only [Option.some.injEq, Prod.mk.injEq] at h
    rw [h.1, ← h.2]

theorem Queue.dequeue_none {α : Type} {q : Queue α} (h : q.dequeue = none) :
    q.items = [] := by
  unfold dequeue at h
  rcases hq : q.items with _ | ⟨a, rest⟩
  · rfl
  · rw [hq] at h
    cases h

theorem Stack.pop_some {α : Type} {s : Stack α} {x : α} {s' : Stack α}
    (h : s.pop = some (x, s')) : s.items = x :: s'.items := by
  unfold pop at h
  rcases hq : s.items with _ | ⟨a, rest⟩
  · rw [hq] at h
    cases h
  · rw [hq] at h
    simp only [Option.some.injEq, Prod.mk.injEq] at h
    rw [h.1, ← h.2]

theorem Stack.pop_none {α : Type} {s : Stack α} (h : s.pop = none) :
    s.items = [] := by
  unfold pop at h
  rcases hq : s.items with _ | ⟨a, rest⟩
  · rfl
  · rw [hq] at h
    cases h

/-- Invariant of the BFS loop granting bounded state and acyclic parents. -/
def BfsTermInv (g : Graph) (st : BfsState) : Prop :=
  st.visited.Nodup ∧
  (∀ v ∈ st.visited, v ∈ g.nodeValues) ∧
  (∀ v ∈ st.queue.items, v ∈ st.visited) ∧
  (∀ v ∈ st.visited, (st.parent v).isSome = true) ∧
  (∀ v u, st.parent v = some (some u) → u ∈ st.visited) ∧
  (∀ v ∈ st.visited, ∀ u, st.parent v = some (some u) →
    idxIn st.visited u < idxIn st.visited v)

theorem bfsStep_term (g : Graph) (st : BfsState) (current e1 : Val)
    (hinv : BfsTermInv g st) (hcur : current ∈ st.visited)
    (he1 : e1 ∈ g.nodeValues) (hnv : ¬st.visited.contains e1 = true) :
    BfsTermInv g ⟨st.queue.enqueue e1, st.visited ++ [e1],
      setParent st.parent e1 (some current), st.visitedOrder ++ [e1]⟩ ∧
    (st.queue.enqueue e1).items.length +
        (g.nodes.length - (st.visited ++ [e1]).length) =
      st.queue.items.length + (g.nodes.length - st.visited.length) := by
  obtain ⟨hnd, hvn, hqv, hdef, hmem, hidx⟩ := hinv
  have hne1 : e1 ∉ st.visited := by simpa using hnv
  have hnd2 : (st.visited ++ [e1]).Nodup := by
    rw [List.nodup_append]
    exact ⟨hnd, List.nodup_singleton _, by simpa using hne1⟩
  have hsub2 : ∀ v ∈ st.visited ++ [e1], v ∈ g.nodeValues := by
    intro v hv
    rcases List.mem_append.mp hv with h | h
    · exact hvn v h
    · rw [List.mem_singleton.mp h]
      exact he1
  constructor
  · unfold BfsTermInv
    dsimp only
    refine ⟨hnd2, hsub2, ?_, ?_, ?_, ?_⟩
    · intro v hv
      dsimp only [Queue.enqueue] at hv
      rcases List.mem_append.mp hv with h | h
      · exact List.mem_append_left _ (hqv v h)
      · exact List.mem_append_right _ h
    · intro v hv
      simp only [setParent]
      by_cases hve : v = e1
      · rw [if_pos hve]
        rfl
      · rw [if_neg hve]
        rcases List.mem_append.mp hv with h | h
        · exact hdef v h
        · exact absurd (List.mem_singleton.mp h) hve
    · intro v u hp
      simp only [setParent] at hp
      by_cases hve : v = e1
      · rw [if_pos hve] at hp
        simp only [Option.some.injEq] at hp
        rw [← hp]
        exact List.mem_append_left _ hcur
      · rw [if_neg hve] at hp
        exact List.mem_append_left _ (hmem v u hp)
    · intro v hv u hp
      simp only [setParent] at hp
      by_cases hve : v = e1
      · rw [if_pos hve] at hp
        simp only [Option.some.injEq] at hp
        rw [← hp, hve, idxIn_append_self hne1, idxIn_append_left _ hcur]
        exact idxIn_lt_length hcur
      · rw [if_neg hve] at hp
        have hvv : v ∈ st.visited := by
          rcases List.mem_append.mp hv with h | h
          · exact h
          · exact absurd (List.mem_singleton.mp h) hve
        have hu : u ∈ st.visited := hmem v u hp
        rw [idxIn_append_left _ hu, idxIn_append_left _ hvv]
        exact hidx v hvv u hp
  · have hlen : (st.visited ++ [e1]).length ≤ g.nodes.length := by
      have := nodup_subset_length hnd2 hsub2
      simpa [Graph.nodeValues] using this
    simp only [Queue.enqueue, List.length_append, List.length_cons,
      List.length_singleton] at hlen ⊢
    omega

theorem bfsScan_term (g : Graph) (hwf : g.WF) (current : Val) (st : BfsState)
    (hinv : BfsTermInv g st) (hcur : current ∈ st.visited) :
    BfsTermInv g (bfsScan g current st) ∧
    (bfsScan g current st).queue.items.length +
        (g.nodes.length - (bfsScan g current st).visited.length) =
      st.queue.items.length + (g.nodes.length - st.visited.length) := by
  have hsub := g.adjOf_mem_nodeValues hwf current
  unfold bfsScan
  generalize g.adjOf current = l at hsub
  induction l generalizing st with
  | nil => exact ⟨hinv, rfl⟩
  | cons e rest ih =>
    have hsub2 : ∀ x ∈ rest, x.1 ∈ g.nodeValues :=
      fun x hx => hsub x (List.mem_cons_of_mem e hx)
    simp only [List.foldl_cons]
    by_cases hv : st.visited.contains e.1
    · rw [if_pos hv]
      exact ih st hinv hcur hsub2
    · rw [if_neg hv]
      obtain ⟨hinv1, heq1⟩ :=
        bfsStep_term g st current e.1 hinv hcur (hsub e (List.mem_cons_self e rest)) hv
      have hcur1 : current ∈ st.visited ++ [e.1] := List.mem_append_left _ hcur
      obtain ⟨hinv2, heq2⟩ := ih _ hinv1 hcur1 hsub2
      exact ⟨hinv2, heq2.trans heq1⟩

theorem bfsLoop_term (g : Graph) (t : Val) (hwf : g.WF) :
    ∀ (fuel : Nat) (st : BfsState), BfsTermInv g st →
      st.queue.items.length + (g.nodes.length - st.visited.length) < fuel →
      ∃ r, bfsLoop g t fuel st = some r := by
  intro fuel
  induction fuel with
  | zero => intro st _ hf; omega
  | succ fuel ih =>
    intro st hinv hfuel
    rw [bfsLoop]
    by_cases he : st.queue.is_empty
    · rw [if_pos he]
      exact ⟨_, rfl⟩
    · rw [if_neg he]
      rcases hd : st.queue.dequeue with _ | ⟨c, q'⟩
      · exact absurd (by simp [Queue.is_empty, Queue.dequeue_none hd]) he
      · dsimp only
        have hitems := Queue.dequeue_some hd
        have hc : c ∈ st.visited := hinv.2.2.1 c (by rw [hitems]; exact List.mem_cons_self c _)
        by_cases hg : c = t
        · rw [if_pos hg]
          have hN : st.visited.length ≤ g.nodes.length := by
            have := nodup_subset_length hinv.1 hinv.2.1
            simpa [Graph.nodeValues] using this
          have ht : t ∈ st.visited := hg ▸ hc
          obtain ⟨l, hl⟩ := walk_succeeds_idx st.parent st.visited hinv.2.2.2.1
            hinv.2.2.2.2.1 hinv.2.2.2.2.2 (walkFuel g) t ht
            (by
              have := idxIn_lt_length ht
              unfold walkFuel
              omega)
          rw [hl]
          exact ⟨_, rfl⟩
        · rw [if_neg hg]
          have hinvm : BfsTermInv g { st with queue := q' } := by
            obtain ⟨h1, h2, h3, h4, h5, h6⟩ := hinv
            refine ⟨h1, h2, ?_, h4, h5, h6⟩
            intro v hv
            exact h3 v (by rw [hitems]; exact List.mem_cons_of_mem c hv)
          obtain ⟨hinv2, heq2⟩ := bfsScan_term g hwf c { st with queue := q' } hinvm hc
          refine ih _ hinv2 ?_
          rw [heq2]
          dsimp only
          have : st.queue.items.length = q'.items.length + 1 := by
            rw [hitems]
            rfl
          omega


/-- Settling a fresh node preserves the ranked-parent invariants. -/
theorem settle_parent_inv (visited : List Val) (parent : ParentMap) (c : Val)
    (hc : c ∉ visited)
    (hmem : ∀ v u, parent v = some (some u) → u ∈ visited)
    (hidx : ∀ v ∈ visited, ∀ u, parent v = some (some u) →
      idxIn visited u < idxIn visited v) :
    (∀ v u, parent v = some (some u) → u ∈ visited ++ [c]) ∧
    (∀ v ∈ visited ++ [c], ∀ u, parent v = some (some u) →
      idxIn (visited ++ [c]) u < idxIn (visited ++ [c]) v) := by
  refine ⟨fun v u hp => List.mem_append_left _ (hmem v u hp), ?_⟩
  intro v hv u hp
  have hu : u ∈ visited := hmem v u hp
  rcases List.mem_append.mp hv with h | h
  · rw [idxIn_append_left _ hu, idxIn_append_left _ h]
    exact hidx v h u hp
  · rw [List.mem_singleton.mp h, idxIn_append_self hc, idxIn_append_left _ hu]
    exact idxIn_lt_length hu

/-- Invariant of the DFS loop granting bounded state and acyclic parents. -/
def DfsTermInv (g : Graph) (st : DfsState) : Prop :=
  st.visited.Nodup ∧
  (∀ v ∈ st.visited, v ∈ g.nodeValues) ∧
  (∀ v ∈ st.stack.items, v ∈ g.nodeValues) ∧
  (∀ v, v ∈ st.visited ∨ v ∈ st.stack.items → (st.parent v).isSome = true) ∧
  (∀ v u, st.parent v = some (some u) → u ∈ st.visited) ∧
  (∀ v ∈ st.visited, ∀ u, st.parent v = some (some u) →
    idxIn st.visited u < idxIn st.visited v)

theorem dfsScan_term (g : Graph) (hwf : g.WF) (current : Val) (st : DfsState)
    (hinv : DfsTermInv g st) (hcur : current ∈ st.visited) :
    DfsTermInv g (dfsScan g current st) ∧
    (dfsScan g current st).stack.items.length ≤
      st.stack.items.length + (g.adjOf current).length ∧
    (dfsScan g current st).visited = st.visited := by
  have hsub : ∀ e ∈ (g.adjOf current).reverse, e.1 ∈ g.nodeValues := by
    intro e he
    exact g.adjOf_mem_nodeValues hwf current e (List.mem_reverse.mp he)
  have hrl : (g.adjOf current).reverse.length = (g.adjOf current).length :=
    List.length_reverse _
  unfold dfsScan
  rw [← hrl]
  generalize (g.adjOf current).reverse = l at hsub
  induction l generalizing st with
  | nil => exact ⟨hinv, Nat.le_add_right _ _, rfl⟩
  | cons e rest ih =>
    have hsub2 : ∀ x ∈ rest, x.1 ∈ g.nodeValues :=
      fun x hx => hsub x (List.mem_cons_of_mem e hx)
    simp only [List.foldl_cons]
    by_cases hv : st.visited.contains e.1
    · rw [if_pos hv]
      obtain ⟨h1, h2, h3⟩ := ih st hinv hcur hsub2
      exact ⟨h1, by simp only [List.length_cons]; omega, h3⟩
    · rw [if_neg hv]
      have hne1 : e.1 ∉ st.visited := by simpa using hv
      obtain ⟨hnd, hvn, hsn, hdef, hmem, hidx⟩ := hinv
      have hinv1 : DfsTermInv g
          { st with
            parent := if (st.parent e.1).isSome then st.parent
                      else setParent st.parent e.1 (some current),
            stack := st.stack.push e.1 } := by
        refine ⟨hnd, hvn, ?_, ?_, ?_, ?_⟩
        · intro v hvm
          dsimp only [Stack.push] at hvm
          rcases List.mem_cons.mp hvm with h | h
          · rw [h]
            exact hsub e (List.mem_cons_self e rest)
          · exact hsn v h
        · intro v hvm
          dsimp only [Stack.push] at hvm
          dsimp only
          by_cases hps : (st.parent e.1).isSome
          · rw [if_pos hps]
            rcases hvm with h | h
            · exact hdef v (Or.inl h)
            · rcases List.mem_cons.mp h with h2 | h2
              · rw [h2]
                exact hps
              · exact hdef v (Or.inr h2)
          · rw [if_neg hps]
            simp only [setParent]
            by_cases hve : v = e.1
            · rw [if_pos hve]
              rfl
            · rw [if_neg hve]
              rcases hvm with h | h
              · exact hdef v (Or.inl h)
              · rcases List.mem_cons.mp h with h2 | h2
                · exact absurd h2 hve
                · exact hdef v (Or.inr h2)
        · intro v u hp
          dsimp only at hp
          by_cases hps : (st.parent e.1).isSome
          · rw [if_pos hps] at hp
            exact hmem v u hp
          · rw [if_neg hps] at hp
            simp only [setParent] at hp
            by_cases hve : v = e.1
            · rw [if_pos hve] at hp
              simp only [Option.some.injEq] at hp
              rw [← hp]
              exact hcur
            · rw [if_neg hve] at hp
              exact hmem v u hp
        · intro v hvm u hp
          dsimp only at hp hvm
          by_cases hps : (st.parent e.1).isSome
          · rw [if_pos hps] at hp
            exact hidx v hvm u hp
          · rw [if_neg hps] at hp
            simp only [setParent] at hp
            by_cases hve : v = e.1
            · exact absurd (hve ▸ hvm) hne1
            · rw [if_neg hve] at hp
              exact hidx v hvm u hp
      obtain ⟨h1, h2, h3⟩ := ih _ hinv1 hcur hsub2
      refine ⟨h1, ?_, h3⟩
      have hpl : (st.stack.push e.1).items.length = st.stack.items.length + 1 := rfl
      simp only [List.length_cons] at h2 ⊢
      omega

theorem dfsLoop_term (g : Graph) (t : Val) (hwf : g.WF) :
    ∀ (fuel : Nat) (st : DfsState), DfsTermInv g st →
      st.stack.items.length +
          (g.edgeTotal + 1) * (g.nodes.length - st.visited.length) < fuel →
      ∃ r, dfsLoop g t fuel st = some r := by
  intro fuel
  induction fuel with
  | zero => intro st _ hf; omega
  | succ fuel ih =>
    intro st hinv hfuel
    rw [dfsLoop]
    by_cases he : st.stack.is_empty
    · rw [if_pos he]
      exact ⟨_, rfl⟩
    · rw [if_neg he]
      rcases hd : st.stack.pop with _ | ⟨c, s2⟩
      · exact absurd (by simp [Stack.is_empty, Stack.pop_none hd]) he
      · dsimp only
        have hitems := Stack.pop_some hd
        have hlen_items : st.stack.items.length = s2.items.length + 1 := by
          rw [hitems]
          rfl
        by_cases hvis : st.visited.contains c
        · rw [if_pos hvis]
          refine ih { st with stack := s2 } ?_ (by dsimp only; omega)
          obtain ⟨h1, h2, h3, h4, h5, h6⟩ := hinv
          refine ⟨h1, h2, ?_, ?_, h5, h6⟩
          · intro v hv
            exact h3 v (by rw [hitems]; exact List.mem_cons_of_mem c hv)
          · intro v hv
            refine h4 v ?_
            rcases hv with h | h
            · exact Or.inl h
            · exact Or.inr (by rw [hitems]; exact List.mem_cons_of_mem c h)
        · rw [if_neg hvis]
          obtain ⟨hnd, hvn, hsn, hdef, hmem, hidx⟩ := hinv
          have hcn : c ∈ g.nodeValues := hsn c (by rw [hitems]; exact List.mem_cons_self c _)
          have hcnv : c ∉ st.visited := by simpa using hvis
          have hnd1 : (st.visited ++ [c]).Nodup := by
            rw [List.nodup_append]
            exact ⟨hnd, List.nodup_singleton _, by simpa using hcnv⟩
          have hvn1 : ∀ v ∈ st.visited ++ [c], v ∈ g.nodeValues := by
            intro v hv
            rcases List.mem_append.mp hv with h | h
            · exact hvn v h
            · rw [List.mem_singleton.mp h]
              exact hcn
          obtain ⟨hmem1, hidx1⟩ := settle_parent_inv st.visited st.parent c hcnv hmem hidx
          have hinv1 : DfsTermInv g
              { st with
                  stack := s2
                  visited := st.visited ++ [c]
                  visitedOrder := st.visitedOrder ++ [c] } := by
            refine ⟨hnd1, hvn1, ?_, ?_, hmem1, hidx1⟩
            · intro v hv
              exact hsn v (by rw [hitems]; exact List.mem_cons_of_mem c hv)
            · intro v hv
              refine hdef v ?_
              rcases hv with h | h
              · rcases List.mem_append.mp h with h2 | h2
                · exact Or.inl h2
                · exact Or.inr (by
                    rw [List.mem_singleton.mp h2, hitems]
                    exact List.mem_cons_self c _)
              · exact Or.inr (by rw [hitems]; exact List.mem_cons_of_mem c h)
          have hN : (st.visited ++ [c]).length ≤ g.nodes.length := by
            have := nodup_subset_length hnd1 hvn1
            simpa [Graph.nodeValues] using this
          by_cases hg : c = t
          · rw [if_pos hg]
            have ht : t ∈ st.visited ++ [c] := by
              rw [← hg]
              exact List.mem_append_right _ (List.mem_singleton_self c)
            have hdef1 : ∀ v ∈ st.visited ++ [c], (st.parent v).isSome = true := by
              intro v hv
              rcases List.mem_append.mp hv with h | h
              · exact hdef v (Or.inl h)
              · refine hdef v (Or.inr ?_)
                rw [List.mem_singleton.mp h, hitems]
                exact List.mem_cons_self c _
            obtain ⟨l, hl⟩ := walk_succeeds_idx st.parent (st.visited ++ [c])
              hdef1 hmem1 hidx1 (walkFuel g) t ht
              (by
                have := idxIn_lt_length ht
                simp only [List.length_append, List.length_singleton] at this hN
                unfold walkFuel
                omega)
            rw [hl]
            exact ⟨_, rfl⟩
          · rw [if_neg hg]
            have hcur1 : c ∈ st.visited ++ [c] :=
              List.mem_append_right _ (List.mem_singleton_self c)
            obtain ⟨hinv2, hstk2, hvis2⟩ := dfsScan_term g hwf c _ hinv1 hcur1
            refine ih _ hinv2 ?_
            have hadj : (g.adjOf c).length ≤ g.edgeTotal := g.adjOf_length_le c
            dsimp only at hstk2
            rw [hvis2]
            have hvl1 : (st.visited ++ [c]).length = st.visited.length + 1 := by
              simp
            rw [hvl1]
            have hmul : (g.edgeTotal + 1) * (g.nodes.length - st.visited.length) =
                (g.edgeTotal + 1) * (g.nodes.length - (st.visited.length + 1)) +
                  (g.edgeTotal + 1) := by
              have h1 : g.nodes.length - st.visited.length =
                  (g.nodes.length - (st.visited.length + 1)) + 1 := by
                simp only [List.length_append, List.length_singleton] at hN
                omega
              rw [h1, Nat.mul_succ]
            rw [hmul] at hfuel
            obtain ⟨P, hP⟩ : ∃ P,
                (g.edgeTotal + 1) * (g.nodes.length - (st.visited.length + 1)) = P :=
              ⟨_, rfl⟩
            rw [hP] at hfuel ⊢
            omega


/-- Invariant of the Dijkstra loop granting bounded state and acyclic
parents. -/
def DijkstraTermInv (g : Graph) (st : DijkstraState) : Prop :=
  st.visited.Nodup ∧
  (∀ v ∈ st.visited, v ∈ g.nodeValues) ∧
  (∀ e ∈ st.pq.heap, e.2 ∈ g.nodeValues) ∧
  (∀ v u, st.parent v = some (some u) → u ∈ st.visited) ∧
  (∀ v ∈ st.visited, ∀ u, st.parent v = some (some u) →
    idxIn st.visited u < idxIn st.visited v)

theorem dijkstraScan_term (g : Graph) (hwf : g.WF) (current : Val)
    (st : DijkstraState) (hinv : DijkstraTermInv g st)
    (hcur : current ∈ st.visited) :
    DijkstraTermInv g (dijkstraScan g current st) ∧
    (dijkstraScan g current st).pq.heap.length ≤
      st.pq.heap.length + (g.adjOf current).length ∧
    (dijkstraScan g current st).visited = st.visited := by
  have hsub := g.adjOf_mem_nodeValues hwf current
  unfold dijkstraScan
  generalize g.adjOf current = l at hsub
  induction l generalizing st with
  | nil => exact ⟨hinv, Nat.le_add_right _ _, rfl⟩
  | cons e rest ih =>
    have hsub2 : ∀ x ∈ rest, x.1 ∈ g.nodeValues :=
      fun x hx => hsub x (List.mem_cons_of_mem e hx)
    simp only [List.foldl_cons]
    by_cases hv : st.visited.contains e.1
    · rw [if_pos hv]
      obtain ⟨h1, h2, h3⟩ := ih st hinv hcur hsub2
      refine ⟨h1, le_trans h2 ?_, h3⟩
      rw [List.length_cons]
      omega
    · rw [if_neg hv]
      have hne1 : e.1 ∉ st.visited := by simpa using hv
      by_cases himp : st.distance current + (e.2 : Cost) < st.distance e.1
      · rw [if_pos himp]
        obtain ⟨hnd, hvn, hpn, hmem, hidx⟩ := hinv
        have hinv1 : DijkstraTermInv g
            { st with
                distance := setCost st.distance e.1 (st.distance current + (e.2 : Cost))
                parent := setParent st.parent e.1 (some current)
                pq := st.pq.insert e.1 (st.distance current + (e.2 : Cost)) } := by
          refine ⟨hnd, hvn, ?_, ?_, ?_⟩
          · intro x hx
            dsimp only at hx
            have hx2 := (PriorityQueue.insert_perm st.pq e.1
              (st.distance current + (e.2 : Cost))).mem_iff.mp hx
            rcases List.mem_cons.mp hx2 with h | h
            · rw [h]
              exact hsub e (List.mem_cons_self e rest)
            · exact hpn x h
          · intro v u hp
            dsimp only at hp
            simp only [setParent] at hp
            by_cases hve : v = e.1
            · rw [if_pos hve] at hp
              simp only [Option.some.injEq] at hp
              rw [← hp]
              exact hcur
            · rw [if_neg hve] at hp
              exact hmem v u hp
          · intro v hvm u hp
            dsimp only at hp hvm
            simp only [setParent] at hp
            by_cases hve : v = e.1
            · exact absurd (hve ▸ hvm) hne1
            · rw [if_neg hve] at hp
              exact hidx v hvm u hp
        obtain ⟨h1, h2, h3⟩ := ih _ hinv1 hcur hsub2
        refine ⟨h1, le_trans h2 ?_, h3⟩
        have hpl : (st.pq.insert e.1 (st.distance current + (e.2 : Cost))).heap.length =
            st.pq.heap.length + 1 := by
          have := PriorityQueue.insert_size st.pq e.1 (st.distance current + (e.2 : Cost))
          simpa [PriorityQueue.size] using this
        dsimp only
        rw [List.length_cons]
        omega
      · rw [if_neg himp]
        obtain ⟨h1, h2, h3⟩ := ih st hinv hcur hsub2
        refine ⟨h1, le_trans h2 ?_, h3⟩
        rw [List.length_cons]
        omega

theorem dijkstraLoop_term (g : Graph) (t : Val) (hwf : g.WF) :
    ∀ (fuel : Nat) (st : DijkstraState), DijkstraTermInv g st →
      st.pq.heap.length +
          (g.edgeTotal + 1) * (g.nodes.length - st.visited.length) < fuel →
      ∃ r, dijkstraLoop g t fuel st = some r := by
  intro fuel
  induction fuel with
  | zero => intro st _ hf; omega
  | succ fuel ih =>
    intro st hinv hfuel
    rw [dijkstraLoop]
    by_cases he : st.pq.is_empty
    · rw [if_pos he]
      exact ⟨_, rfl⟩
    · rw [if_neg he]
      rcases hx : st.pq.extract_min with _ | ⟨⟨p, c⟩, pq2⟩
      · exact absurd (by
          simp [PriorityQueue.is_empty, PriorityQueue.size,
            (PriorityQueue.extract_min_none_iff st.pq).mp hx]) he
      · dsimp only
        rcases hh : st.pq.heap with _ | ⟨x, rest⟩
        · exact absurd (by simp [PriorityQueue.is_empty, PriorityQueue.size, hh]) he
        obtain ⟨q2, hex, hperm, hlen⟩ := PriorityQueue.extract_min_shape st.pq x rest hh
        rw [hx] at hex
        simp only [Option.some.injEq, Prod.mk.injEq] at hex
        obtain ⟨hx1, hq2⟩ := hex
        rw [← hx1] at hperm
        rw [← hq2] at hperm hlen
        have hperm2 : ((p, c) :: pq2.heap).Perm st.pq.heap := hperm
        have hlen2 : pq2.heap.length = rest.length := hlen
        have hheaplen : st.pq.heap.length = pq2.heap.length + 1 := by
          rw [hlen2, hh]
          rfl
        obtain ⟨hnd, hvn, hpn, hmem, hidx⟩ := hinv
        have hcn : c ∈ g.nodeValues :=
          hpn (p, c) (hperm2.mem_iff.mp (List.mem_cons_self _ _))
        have hpn2 : ∀ e ∈ pq2.heap, e.2 ∈ g.nodeValues := by
          intro e hee
          exact hpn e (hperm2.mem_iff.mp (List.mem_cons_of_mem _ hee))
        by_cases hvis : st.visited.contains c
        · rw [if_pos hvis]
          refine ih { st with pq := pq2 } ⟨hnd, hvn, hpn2, hmem, hidx⟩
            (by dsimp only; omega)
        · rw [if_neg hvis]
          have hcnv : c ∉ st.visited := by simpa using hvis
          have hnd1 : (st.visited ++ [c]).Nodup := by
            rw [List.nodup_append]
            exact ⟨hnd, List.nodup_singleton _, by simpa using hcnv⟩
          have hvn1 : ∀ v ∈ st.visited ++ [c], v ∈ g.nodeValues := by
            intro v hv
            rcases List.mem_append.mp hv with h | h
            · exact hvn v h
            · rw [List.mem_singleton.mp h]
              exact hcn
          obtain ⟨hmem1, hidx1⟩ :=
            settle_parent_inv st.visited st.parent c hcnv hmem hidx
          have hinv1 : DijkstraTermInv g
              { st with
                  pq := pq2
                  visited := st.visited ++ [c]
                  visitedOrder := st.visitedOrder ++ [c] } :=
            ⟨hnd1, hvn1, hpn2, hmem1, hidx1⟩
          have hN : (st.visited ++ [c]).length ≤ g.nodes.length := by
            have := nodup_subset_length hnd1 hvn1
            simpa [Graph.nodeValues] using this
          by_cases hg : c = t
          · rw [if_pos hg]
            have ht : t ∈ st.visited ++ [c] := by
              rw [← hg]
              exact List.mem_append_right _ (List.mem_singleton_self c)
            obtain ⟨l, hl⟩ := walk_succeeds_get st.parent (st.visited ++ [c])
              hmem1 hidx1 (walkFuel g) t ht
              (by
                have := idxIn_lt_length ht
                simp only [List.length_append, List.length_singleton] at this hN
                unfold walkFuel
                omega)
            rw [hl]
            exact ⟨_, rfl⟩
          · rw [if_neg hg]
            have hcur1 : c ∈ st.visited ++ [c] :=
              List.mem_append_right _ (List.mem_singleton_self c)
            obtain ⟨hinv2, hstk2, hvis2⟩ := dijkstraScan_term g hwf c _ hinv1 hcur1
            refine ih _ hinv2 ?_
            have hadj : (g.adjOf c).length ≤ g.edgeTotal := g.adjOf_length_le c
            dsimp only at hstk2
            rw [hvis2]
            have hvl1 : (st.visited ++ [c]).length = st.visited.length + 1 := by
              simp
            rw [hvl1]
            have hmul : (g.edgeTotal + 1) * (g.nodes.length - st.visited.length) =
                (g.edgeTotal + 1) * (g.nodes.length - (st.visited.length + 1)) +
                  (g.edgeTotal + 1) := by
              have h1 : g.nodes.length - st.visited.length =
                  (g.nodes.length - (st.visited.length + 1)) + 1 := by
                simp only [List.length_append, List.length_singleton] at hN
                omega
              rw [h1, Nat.mul_succ]
            rw [hmul] at hfuel
            obtain ⟨P, hP⟩ : ∃ P,
                (g.edgeTotal + 1) * (g.nodes.length - (st.visited.length + 1)) = P :=
              ⟨_, rfl⟩
            rw [hP] at hfuel ⊢
            omega


/-- Invariant of the A* loop granting bounded state and acyclic parents. -/
def AStarTermInv (g : Graph) (st : AStarState) : Prop :=
  st.visited.Nodup ∧
  (∀ v ∈ st.visited, v ∈ g.nodeValues) ∧
  (∀ e ∈ st.pq.heap, e.2 ∈ g.nodeValues) ∧
  (∀ v u, st.parent v = some (some u) → u ∈ st.visited) ∧
  (∀ v ∈ st.visited, ∀ u, st.parent v = some (some u) →
    idxIn st.visited u < idxIn st.visited v)

theorem astarScan_term (g : Graph) (hwf : g.WF) (t : Val) (hfun : Heuristic)
    (current : Val) (st : AStarState) (hinv : AStarTermInv g st)
    (hcur : current ∈ st.visited) :
    AStarTermInv g (astarScan g t hfun current st) ∧
    (astarScan g t hfun current st).pq.heap.length ≤
      st.pq.heap.length + (g.adjOf current).length ∧
    (astarScan g t hfun current st).visited = st.visited := by
  have hsub := g.adjOf_mem_nodeValues hwf current
  unfold astarScan
  generalize g.adjOf current = l at hsub
  induction l generalizing st with
  | nil => exact ⟨hinv, Nat.le_add_right _ _, rfl⟩
  | cons e rest ih =>
    have hsub2 : ∀ x ∈ rest, x.1 ∈ g.nodeValues :=
      fun x hx => hsub x (List.mem_cons_of_mem e hx)
    simp only [List.foldl_cons]
    by_cases hv : st.visited.contains e.1
    · rw [if_pos hv]
      obtain ⟨h1, h2, h3⟩ := ih st hinv hcur hsub2
      refine ⟨h1, le_trans h2 ?_, h3⟩
      rw [List.length_cons]
      omega
    · rw [if_neg hv]
      have hne1 : e.1 ∉ st.visited := by simpa using hv
      by_cases himp : st.g_score current + (e.2 : Cost) < st.g_score e.1
      · rw [if_pos himp]
        obtain ⟨hnd, hvn, hpn, hmem, hidx⟩ := hinv
        have hinv1 : AStarTermInv g
            { st with
                parent := setParent st.parent e.1 (some current)
                g_score := setCost st.g_score e.1 (st.g_score current + (e.2 : Cost))
                f_score := setCost st.f_score e.1
                  (st.g_score current + (e.2 : Cost) + ((hfun e.1 t : Rat) : Cost))
                pq := st.pq.insert e.1
                  (st.g_score current + (e.2 : Cost) + ((hfun e.1 t : Rat) : Cost)) } := by
          refine ⟨hnd, hvn, ?_, ?_, ?_⟩
          · intro x hx
            dsimp only at hx
            have hx2 := (PriorityQueue.insert_perm st.pq e.1
              (st.g_score current + (e.2 : Cost) + ((hfun e.1 t : Rat) : Cost))).mem_iff.mp hx
            rcases List.mem_cons.mp hx2 with h | h
            · rw [h]
              exact hsub e (List.mem_cons_self e rest)
            · exact hpn x h
          · intro v u hp
            dsimp only at hp
            simp only [setParent] at hp
            by_cases hve : v = e.1
            · rw [if_pos hve] at hp
              simp only [Option.some.injEq] at hp
              rw [← hp]
              exact hcur
            · rw [if_neg hve] at hp
              exact hmem v u hp
          · intro v hvm u hp
            dsimp only at hp hvm
            simp only [setParent] at hp
            by_cases hve : v = e.1
            · exact absurd (hve ▸ hvm) hne1
            · rw [if_neg hve] at hp
              exact hidx v hvm u hp
        obtain ⟨h1, h2, h3⟩ := ih _ hinv1 hcur hsub2
        refine ⟨h1, le_trans h2 ?_, h3⟩
        have hpl : (st.pq.insert e.1
            (st.g_score current + (e.2 : Cost) + ((hfun e.1 t : Rat) : Cost))).heap.length =
            st.pq.heap.length + 1 := by
          have := PriorityQueue.insert_size st.pq e.1
            (st.g_score current + (e.2 : Cost) + ((hfun e.1 t : Rat) : Cost))
          simpa [PriorityQueue.size] using this
        dsimp only
        rw [List.length_cons]
        omega
      · rw [if_neg himp]
        obtain ⟨h1, h2, h3⟩ := ih st hinv hcur hsub2
        refine ⟨h1, le_trans h2 ?_, h3⟩
        rw [List.length_cons]
        omega

theorem astarLoop_term (g : Graph) (t : Val) (hfun : Heuristic) (hwf : g.WF) :
    ∀ (fuel : Nat) (st : AStarState), AStarTermInv g st →
      st.pq.heap.length +
          (g.edgeTotal + 1) * (g.nodes.length - st.visited.length) < fuel →
      ∃ r, astarLoop g t hfun fuel st = some r := by
  intro fuel
  induction fuel with
  | zero => intro st _ hf; omega
  | succ fuel ih =>
    intro st hinv hfuel
    rw [astarLoop]
    by_cases he : st.pq.is_empty
    · rw [if_pos he]
      exact ⟨_, rfl⟩
    · rw [if_neg he]
      rcases hx : st.pq.extract_min with _ | ⟨⟨p, c⟩, pq2⟩
      · exact absurd (by
          simp [PriorityQueue.is_empty, PriorityQueue.size,
            (PriorityQueue.extract_min_none_iff st.pq).mp hx]) he
      · dsimp only
        rcases hh : st.pq.heap with _ | ⟨x, rest⟩
        · exact absurd (by simp [PriorityQueue.is_empty, PriorityQueue.size, hh]) he
        obtain ⟨q2, hex, hperm, hlen⟩ := PriorityQueue.extract_min_shape st.pq x rest hh
        rw [hx] at hex
        simp only [Option.some.injEq, Prod.mk.injEq] at hex
        obtain ⟨hx1, hq2⟩ := hex
        rw [← hx1] at hperm
        rw [← hq2] at hperm hlen
        have hheaplen : st.pq.heap.length = pq2.heap.length + 1 := by
          rw [hlen, hh]
          rfl
        obtain ⟨hnd, hvn, hpn, hmem, hidx⟩ := hinv
        have hcn : c ∈ g.nodeValues :=
          hpn (p, c) (hperm.mem_iff.mp (List.mem_cons_self _ _))
        have hpn2 : ∀ e ∈ pq2.heap, e.2 ∈ g.nodeValues := by
          intro e hee
          exact hpn e (hperm.mem_iff.mp (List.mem_cons_of_mem _ hee))
        by_cases hvis : st.visited.contains c
        · rw [if_pos hvis]
          refine ih { st with pq := pq2 } ⟨hnd, hvn, hpn2, hmem, hidx⟩
            (by dsimp only; omega)
        · rw [if_neg hvis]
          have hcnv : c ∉ st.visited := by simpa using hvis
          have hnd1 : (st.visited ++ [c]).Nodup := by
            rw [List.nodup_append]
            exact ⟨hnd, List.nodup_singleton _, by simpa using hcnv⟩
          have hvn1 : ∀ v ∈ st.visited ++ [c], v ∈ g.nodeValues := by
            intro v hv
            rcases List.mem_append.mp hv with h | h
            · exact hvn v h
            · rw [List.mem_singleton.mp h]
              exact hcn
          obtain ⟨hmem1, hidx1⟩ :=
            settle_parent_inv st.visited st.parent c hcnv hmem hidx
          have hinv1 : AStarTermInv g
              { st with
                  pq := pq2
                  visited := st.visited ++ [c]
                  visitedOrder := st.visitedOrder ++ [c] } :=
            ⟨hnd1, hvn1, hpn2, hmem1, hidx1⟩
          have hN : (st.visited ++ [c]).length ≤ g.nodes.length := by
            have := nodup_subset_length hnd1 hvn1
            simpa [Graph.nodeValues] using this
          by_cases hg : c = t
          · rw [if_pos hg]
            have ht : t ∈ st.visited ++ [c] := by
              rw [← hg]
              exact List.mem_append_right _ (List.mem_singleton_self c)
            obtain ⟨l, hl⟩ := walk_succeeds_get st.parent (st.visited ++ [c])
              hmem1 hidx1 (walkFuel g) t ht
              (by
                have := idxIn_lt_length ht
                simp only [List.length_append, List.length_singleton] at this hN
                unfold walkFuel
                omega)
            rw [hl]
            exact ⟨_, rfl⟩
          · rw [if_neg hg]
            have hcur1 : c ∈ st.visited ++ [c] :=
              List.mem_append_right _ (List.mem_singleton_self c)
            obtain ⟨hinv2, hstk2, hvis2⟩ := astarScan_term g hwf t hfun c _ hinv1 hcur1
            refine ih _ hinv2 ?_
            have hadj : (g.adjOf c).length ≤ g.edgeTotal := g.adjOf_length_le c
            dsimp only at hstk2
            rw [hvis2]
            have hvl1 : (st.visited ++ [c]).length = st.visited.length + 1 := by
              simp
            rw [hvl1]
            have hmul : (g.edgeTotal + 1) * (g.nodes.length - st.visited.length) =
                (g.edgeTotal + 1) * (g.nodes.length - (st.visited.length + 1)) +
                  (g.edgeTotal + 1) := by
              have h1 : g.nodes.length - st.visited.length =
                  (g.nodes.length - (st.visited.length + 1)) + 1 := by
                simp only [List.length_append, List.length_singleton] at hN
                omega
              rw [h1, Nat.mul_succ]
            rw [hmul] at hfuel
            obtain ⟨P, hP⟩ : ∃ P,
                (g.edgeTotal + 1) * (g.nodes.length - (st.visited.length + 1)) = P :=
              ⟨_, rfl⟩
            rw [hP] at hfuel ⊢
            omega


theorem init_parent_ne (s v u : Val) :
    ¬setParent emptyParent s none v = some (some u) := by
  intro hp
  simp only [setParent, emptyParent] at hp
  by_cases hv : v = s
  · rw [if_pos hv] at hp
    exact Option.noConfusion (Option.some.inj hp)
  · rw [if_neg hv] at hp
    exact Option.noConfusion hp

/-- C10: on a well-formed graph every one of the four search functions
terminates with a result for every start, goal and heuristic: the frontier
loops finish within the fuel bound and path reconstruction cannot loop. -/
theorem c10_termination (g : Graph) (s t : Val) (h : Heuristic) (hwf : g.WF) :
    (breadth_first_search g s t).isSome = true ∧
    (depth_first_search g s t).isSome = true ∧
    (dijkstra g s t).isSome = true ∧
    (astar g s t h).isSome = true := by
  have hprod : (g.nodes.length + 1) * 2 ≤ (g.nodes.length + 1) * (g.edgeTotal + 2) :=
    Nat.mul_le_mul_left _ (by omega)
  have hring : (g.nodes.length + 1) * (g.edgeTotal + 2) =
      (g.edgeTotal + 1) * g.nodes.length + g.nodes.length + g.edgeTotal + 2 := by
    ring
  refine ⟨?_, ?_, ?_, ?_⟩
  · unfold breadth_first_search
    rcases hs : g.get_node s with _ | adjs
    · rfl
    rcases hts : g.get_node t with _ | adjt
    · rfl
    have hsn : s ∈ g.nodeValues := Graph.mem_nodeValues_of_get_node hs
    have hNpos : 0 < g.nodes.length := by
      have h1 := List.length_pos.mpr (List.ne_nil_of_mem hsn)
      simpa [Graph.nodeValues] using h1
    have hinv : BfsTermInv g
        ⟨Queue.empty.enqueue s, [s], setParent emptyParent s none, [s]⟩ := by
      refine ⟨List.nodup_singleton s, ?_, ?_, ?_, ?_, ?_⟩
      · intro v hv
        rw [List.mem_singleton.mp hv]
        exact hsn
      · intro v hv
        dsimp only [Queue.empty, Queue.enqueue] at hv
        simpa using hv
      · intro v hv
        rw [List.mem_singleton.mp hv]
        simp [setParent]
      · intro v u hp
        exact absurd hp (init_parent_ne s v u)
      · intro v hv u hp
        exact absurd hp (init_parent_ne s v u)
    obtain ⟨r, hr⟩ := bfsLoop_term g t hwf (searchFuel g) _ hinv (by
      dsimp only [Queue.empty, Queue.enqueue]
      unfold searchFuel
      simp only [List.nil_append, List.length_singleton]
      omega)
    rw [Option.isSome_iff_exists]
    exact ⟨r, hr⟩
  · unfold depth_first_search
    rcases hs : g.get_node s with _ | adjs
    · rfl
    rcases hts : g.get_node t with _ | adjt
    · rfl
    have hsn : s ∈ g.nodeValues := Graph.mem_nodeValues_of_get_node hs
    have hinv : DfsTermInv g
        ⟨Stack.empty.push s, [], setParent emptyParent s none, []⟩ := by
      refine ⟨List.nodup_nil, ?_, ?_, ?_, ?_, ?_⟩
      · intro v hv
        exact absurd hv (List.not_mem_nil v)
      · intro v hv
        dsimp only [Stack.empty, Stack.push] at hv
        rw [List.mem_singleton.mp hv]
        exact hsn
      · intro v hv
        rcases hv with h2 | h2
        · exact absurd h2 (List.not_mem_nil v)
        · dsimp only [Stack.empty, Stack.push] at h2
          rw [List.mem_singleton.mp h2]
          simp [setParent]
      · intro v u hp
        exact absurd hp (init_parent_ne s v u)
      · intro v hv u hp
        exact absurd hv (List.not_mem_nil v)
    obtain ⟨r, hr⟩ := dfsLoop_term g t hwf (searchFuel g) _ hinv (by
      dsimp only [Stack.empty, Stack.push]
      unfold searchFuel
      simp only [List.length_singleton, List.length_nil, Nat.sub_zero]
      omega)
    rw [Option.isSome_iff_exists]
    exact ⟨r, hr⟩
  · unfold dijkstra
    rcases hs : g.get_node s with _ | adjs
    · rfl
    rcases hts : g.get_node t with _ | adjt
    · rfl
    have hsn : s ∈ g.nodeValues := Graph.mem_nodeValues_of_get_node hs
    have hinv : DijkstraTermInv g
        ⟨fun v => if v = s then 0 else ⊤, setParent emptyParent s none, [], [],
          PriorityQueue.empty.insert s 0⟩ := by
      refine ⟨List.nodup_nil, ?_, ?_, ?_, ?_⟩
      · intro v hv
        exact absurd hv (List.not_mem_nil v)
      · intro x hx
        have hx2 := (PriorityQueue.insert_perm PriorityQueue.empty s 0).mem_iff.mp hx
        rcases List.mem_cons.mp hx2 with h2 | h2
        · rw [h2]
          exact hsn
        · simp [PriorityQueue.empty] at h2
      · intro v u hp
        exact absurd hp (init_parent_ne s v u)
      · intro v hv u hp
        exact absurd hv (List.not_mem_nil v)
    have hpl : (PriorityQueue.empty.insert s 0 : PriorityQueue Val).heap.length = 1 := by
      have h2 := PriorityQueue.insert_size (PriorityQueue.empty : PriorityQueue Val) s 0
      simpa [PriorityQueue.size, PriorityQueue.empty] using h2
    obtain ⟨r, hr⟩ := dijkstraLoop_term g t hwf (searchFuel g) _ hinv (by
      dsimp only
      rw [hpl]
      unfold searchFuel
      simp only [List.length_nil, Nat.sub_zero]
      omega)
    rw [Option.isSome_iff_exists]
    exact ⟨r, hr⟩
  · unfold astar
    rcases hs : g.get_node s with _ | adjs
    · rfl
    rcases hts : g.get_node t with _ | adjt
    · rfl
    have hsn : s ∈ g.nodeValues := Graph.mem_nodeValues_of_get_node hs
    have hinv : AStarTermInv g
        ⟨fun v => if v = s then 0 else ⊤,
          fun v => if v = s then ((h s t : Rat) : Cost) else ⊤,
          setParent emptyParent s none, [], [],
          PriorityQueue.empty.insert s ((h s t : Rat) : Cost)⟩ := by
      refine ⟨List.nodup_nil, ?_, ?_, ?_, ?_⟩
      · intro v hv
        exact absurd hv (List.not_mem_nil v)
      · intro x hx
        have hx2 := (PriorityQueue.insert_perm PriorityQueue.empty s
          ((h s t : Rat) : Cost)).mem_iff.mp hx
        rcases List.mem_cons.mp hx2 with h2 | h2
        · rw [h2]
          exact hsn
        · simp [PriorityQueue.empty] at h2
      · intro v u hp
        exact absurd hp (init_parent_ne s v u)
      · intro v hv u hp
        exact absurd hv (List.not_mem_nil v)
    have hpl : (PriorityQueue.empty.insert s ((h s t : Rat) : Cost) :
        PriorityQueue Val).heap.length = 1 := by
      have h2 := PriorityQueue.insert_size (PriorityQueue.empty : PriorityQueue Val) s
        ((h s t : Rat) : Cost)
      simpa [PriorityQueue.size, PriorityQueue.empty] using h2
    obtain ⟨r, hr⟩ := astarLoop_term g t h hwf (searchFuel g) _ hinv (by
      dsimp only
      rw [hpl]
      unfold searchFuel
      simp only [List.length_nil, Nat.sub_zero]
      omega)
    rw [Option.isSome_iff_exists]
    exact ⟨r, hr⟩

theorem c10_termination_witness :
    (breadth_first_search (((Graph.mk false []).add_edge 0 1 1).add_edge 1 0 2) 0 1).isSome = true ∧
    (depth_first_search (((Graph.mk false []).add_edge 0 1 1).add_edge 1 0 2) 0 1).isSome = true ∧
    (dijkstra (((Graph.mk false []).add_edge 0 1 1).add_edge 1 0 2) 0 1).isSome = true ∧
    (astar (((Graph.mk false []).add_edge 0 1 1).add_edge 1 0 2) 0 1 zero_heuristic).isSome = true :=
  c10_termination (((Graph.mk false []).add_edge 0 1 1).add_edge 1 0 2) 0 1
    zero_heuristic (by decide)


/-! Walks through the adjacency structure; the reference notion of a path
from the spec, with edge count the list length minus one. -/

/-- A directed edge recorded in the adjacency of its source. -/
def EdgeOf (g : Graph) (u v : Val) : Prop := ∃ e ∈ g.adjOf u, e.1 = v

instance (g : Graph) (u v : Val) : Decidable (EdgeOf g u v) :=
  inferInstanceAs (Decidable (∃ e ∈ g.adjOf u, e.1 = v))

/-- A walk from s to t: a nonempty node list starting at s, ending at t,
each consecutive pair an edge. -/
def IsWalkFromTo (g : Graph) (s t : Val) (p : List Val) : Prop :=
  p ≠ [] ∧ p.head? = some s ∧ p.getLast? = some t ∧ p.Chain' (EdgeOf g)

instance (g : Graph) (s t : Val) (p : List Val) :
    Decidable (IsWalkFromTo g s t p) :=
  inferInstanceAs (Decidable
    (p ≠ [] ∧ p.head? = some s ∧ p.getLast? = some t ∧ p.Chain' (EdgeOf g)))

theorem walk_length_pos {g : Graph} {s t : Val} {p : List Val}
    (hw : IsWalkFromTo g s t p) : 0 < p.length :=
  List.length_pos.mpr hw.1

theorem walk_snoc {g : Graph} {s w t : Val} {p : List Val}
    (hw : IsWalkFromTo g s w p) (he : EdgeOf g w t) :
    IsWalkFromTo g s t (p ++ [t]) := by
  obtain ⟨hne, hhd, hlast, hchain⟩ := hw
  refine ⟨by simp, ?_, ?_, ?_⟩
  · rcases p with _ | ⟨a, q⟩
    · exact absurd rfl hne
    · simpa using hhd
  · simp
  · rw [List.chain'_append]
    refine ⟨hchain, List.chain'_singleton t, ?_⟩
    intro x hx y hy
    rw [hlast] at hx
    simp only [Option.mem_def, Option.some.injEq] at hx
    simp only [List.head?_cons, Option.mem_def, Option.some.injEq] at hy
    rw [← hx, ← hy]
    exact he

theorem walk_last_cases {g : Graph} {s t : Val} {p : List Val}
    (hw : IsWalkFromTo g s t p) :
    (p = [t] ∧ s = t) ∨
      ∃ q w, p = q ++ [t] ∧ IsWalkFromTo g s w q ∧ EdgeOf g w t := by
  obtain ⟨hne, hhd, hlast, hchain⟩ := hw
  have hdec : p.dropLast ++ [p.getLast hne] = p := List.dropLast_concat_getLast hne
  have hlastv : p.getLast hne = t := by
    have h1 : p.getLast? = some (p.getLast hne) := List.getLast?_eq_getLast p hne
    rw [hlast] at h1
    exact (Option.some.inj h1).symm
  rcases hq : p.dropLast with _ | ⟨a, q2⟩
  · left
    have hp : p = [t] := by
      rw [← hdec, hq, hlastv]
      rfl
    refine ⟨hp, ?_⟩
    rw [hp] at hhd
    simpa using hhd.symm
  · right
    have hqne : p.dropLast ≠ [] := by
      rw [hq]
      exact List.cons_ne_nil a q2
    have hp : p = p.dropLast ++ [t] := by
      rw [← hlastv, hdec]
    set w := p.dropLast.getLast hqne
    have hwlast : p.dropLast.getLast? = some w := List.getLast?_eq_getLast _ hqne
    rw [hp, List.chain'_append] at hchain
    obtain ⟨hc1, hc2, hc3⟩ := hchain
    refine ⟨p.dropLast, w, hp, ⟨hqne, ?_, hwlast, hc1⟩, ?_⟩
    · have ha : a = s := by
        rw [hp, hq] at hhd
        simpa using hhd
      rw [hq, List.head?_cons, ha]
    · exact hc3 w hwlast t rfl

/-- Any walk inside a neighbor-closed visited set ends inside the set. -/
theorem walk_closed_visited (g : Graph) (s : Val) (visited : List Val)
    (hs : s ∈ visited)
    (hcl : ∀ w ∈ visited, ∀ v, EdgeOf g w v → v ∈ visited) :
    ∀ (n : Nat) (p : List Val) (x : Val), p.length ≤ n →
      IsWalkFromTo g s x p → x ∈ visited := by
  intro n
  induction n with
  | zero =>
    intro p x hlen hw
    have := walk_length_pos hw
    omega
  | succ n ih =>
    intro p x hlen hw
    rcases walk_last_cases hw with ⟨hp, hst⟩ | ⟨q, w, hp, hq, he⟩
    · rw [← hst]
      exact hs
    · have hql : q.length ≤ n := by
        have : p.length = q.length + 1 := by
          rw [hp]
          simp
        omega
      exact hcl w (ih q w hql hq) x he


/-- Set one key of a level map. -/
def setLev (f : Val → Nat) (key : Val) (value : Nat) : Val → Nat :=
  fun x => if x = key then value else f x

/-- Invariant of the BFS minimality proof between two frontier pops. -/
structure C2Inv (g : Graph) (s t : Val) (st : BfsState) (lev : Val → Nat)
    (proc : List Val) : Prop where
  hs : s ∈ st.visited
  hps : st.parent s = some none
  hlevs : lev s = 0
  honly : ∀ v, st.parent v = some none → v = s
  hchain : ∀ v ∈ st.visited, v ≠ s → ∃ u, st.parent v = some (some u) ∧
    u ∈ st.visited ∧ EdgeOf g u v ∧ lev v = lev u + 1
  hqv : ∀ v ∈ st.queue.items, v ∈ st.visited
  hcover : ∀ v ∈ st.visited, v ∈ proc ∨ v ∈ st.queue.items
  hproc : ∀ w ∈ proc, w ∈ st.visited ∧ ∀ v, EdgeOf g w v → v ∈ st.visited
  ht : t ∉ proc
  hM1 : ∀ v ∈ st.visited, ∀ p, IsWalkFromTo g s v p → lev v + 1 ≤ p.length
  hsorted : (st.queue.items.map lev).Sorted (· ≤ ·)
  hwin : ∀ x ∈ st.queue.items, ∀ y ∈ st.queue.items, lev x ≤ lev y + 1

/-- Invariant of the BFS minimality proof during the neighbor scan of the
node last removed from the frontier. -/
structure C2Mid (g : Graph) (s t current : Val) (st : BfsState)
    (lev : Val → Nat) (proc : List Val) : Prop where
  hs : s ∈ st.visited
  hps : st.parent s = some none
  hlevs : lev s = 0
  honly : ∀ v, st.parent v = some none → v = s
  hchain : ∀ v ∈ st.visited, v ≠ s → ∃ u, st.parent v = some (some u) ∧
    u ∈ st.visited ∧ EdgeOf g u v ∧ lev v = lev u + 1
  hqv : ∀ v ∈ st.queue.items, v ∈ st.visited
  hcover : ∀ v ∈ st.visited, v ∈ proc ∨ v ∈ st.queue.items ∨ v = current
  hproc : ∀ w ∈ proc, w ∈ st.visited ∧ ∀ v, EdgeOf g w v → v ∈ st.visited
  ht : t ∉ proc
  hM1 : ∀ v ∈ st.visited, ∀ p, IsWalkFromTo g s v p → lev v + 1 ≤ p.length
  hsorted : (st.queue.items.map lev).Sorted (· ≤ ·)
  hlo : ∀ x ∈ st.queue.items, lev current ≤ lev x
  hhi : ∀ x ∈ st.queue.items, lev x ≤ lev current + 1
  hcur : current ∈ st.visited

/-- Any walk out of the explored region needs two more edges than the level
of the node being scanned. -/
theorem walk_cross (g : Graph) (s t current : Val) (st : BfsState)
    (lev : Val → Nat) (proc : List Val)
    (hmid : C2Mid g s t current st lev proc) :
    ∀ (n : Nat) (p : List Val) (x : Val), p.length ≤ n → x ∉ st.visited →
      IsWalkFromTo g s x p → lev current + 2 ≤ p.length := by
  intro n
  induction n with
  | zero =>
    intro p x hlen hxv hw
    have := walk_length_pos hw
    omega
  | succ n ih =>
    intro p x hlen hxv hw
    rcases walk_last_cases hw with ⟨hp, hst⟩ | ⟨q, w, hp, hq, he⟩
    · exact absurd (hst ▸ hmid.hs) hxv
    · have hplen : p.length = q.length + 1 := by
        rw [hp]
        simp
      by_cases hwv : w ∈ st.visited
      · rcases hmid.hcover w hwv with hwp | hwq | hwc
        · exact absurd ((hmid.hproc w hwp).2 x he) hxv
        · have h1 := hmid.hlo w hwq
          have h2 := hmid.hM1 w hwv q hq
          omega
        · have h2 := hmid.hM1 w hwv q hq
          rw [hwc] at h2
          omega
      · have h3 := ih q w (by omega) hwv hq
        omega

theorem bfsStep_min (g : Graph) (s t current : Val) (st : BfsState)
    (lev : Val → Nat) (proc : List Val) (e1 : Val)
    (hmid : C2Mid g s t current st lev proc)
    (hedge : EdgeOf g current e1)
    (hnv : ¬st.visited.contains e1 = true) :
    C2Mid g s t current
      ⟨st.queue.enqueue e1, st.visited ++ [e1],
        setParent st.parent e1 (some current), st.visitedOrder ++ [e1]⟩
      (setLev lev e1 (lev current + 1)) proc ∧
    (∀ v ∈ st.visited, setLev lev e1 (lev current + 1) v = lev v) := by
  have hne1 : e1 ∉ st.visited := by simpa using hnv
  have hagree : ∀ v ∈ st.visited, setLev lev e1 (lev current + 1) v = lev v := by
    intro v hv
    have hvne : v ≠ e1 := fun h => hne1 (h ▸ hv)
    simp only [setLev, if_neg hvne]
  have hsne : s ≠ e1 := fun h => hne1 (h ▸ hmid.hs)
  have hcne : current ≠ e1 := fun h => hne1 (h ▸ hmid.hcur)
  have hlevc : setLev lev e1 (lev current + 1) current = lev current :=
    hagree current hmid.hcur
  have hleve : setLev lev e1 (lev current + 1) e1 = lev current + 1 := by
    simp [setLev]
  refine ⟨⟨?_, ?_, ?_, ?_, ?_, ?_, ?_, ?_, hmid.ht, ?_, ?_, ?_, ?_, ?_⟩, hagree⟩
  · exact List.mem_append_left _ hmid.hs
  · dsimp only
    simp only [setParent, if_neg hsne]
    exact hmid.hps
  · rw [hagree s hmid.hs]
    exact hmid.hlevs
  · intro v hp
    dsimp only at hp
    simp only [setParent] at hp
    by_cases hve : v = e1
    · rw [if_pos hve] at hp
      exact absurd (Option.some.inj hp).symm (Option.noConfusion)
    · rw [if_neg hve] at hp
      exact hmid.honly v hp
  · intro v hv hvs
    dsimp only at hv ⊢
    rcases List.mem_append.mp hv with h | h
    · obtain ⟨u, hpu, huv, hed, hlv⟩ := hmid.hchain v h hvs
      have hvne : v ≠ e1 := fun h2 => hne1 (h2 ▸ h)
      have hune : u ≠ e1 := fun h2 => hne1 (h2 ▸ huv)
      refine ⟨u, ?_, List.mem_append_left _ huv, hed, ?_⟩
      · simp only [setParent, if_neg hvne]
        exact hpu
      · rw [hagree v h, hagree u huv]
        exact hlv
    · rw [List.mem_singleton.mp h]
      refine ⟨current, ?_, List.mem_append_left _ hmid.hcur, hedge, ?_⟩
      · simp [setParent]
      · rw [hleve, hlevc]
  · intro v hv
    dsimp only [Queue.enqueue] at hv
    rcases List.mem_append.mp hv with h | h
    · exact List.mem_append_left _ (hmid.hqv v h)
    · exact List.mem_append_right _ h
  · intro v hv
    dsimp only [Queue.enqueue]
    rcases List.mem_append.mp hv with h | h
    · rcases hmid.hcover v h with h2 | h2 | h2
      · exact Or.inl h2
      · exact Or.inr (Or.inl (List.mem_append_left _ h2))
      · exact Or.inr (Or.inr h2)
    · exact Or.inr (Or.inl (List.mem_append_right _ h))
  · intro w hw
    obtain ⟨h1, h2⟩ := hmid.hproc w hw
    exact ⟨List.mem_append_left _ h1, fun v hv => List.mem_append_left _ (h2 v hv)⟩
  · intro v hv p hp
    dsimp only at hv
    rcases List.mem_append.mp hv with h | h
    · rw [hagree v h]
      exact hmid.hM1 v h p hp
    · rw [List.mem_singleton.mp h, hleve]
      have := walk_cross g s t current st lev proc hmid p.length p e1 le_rfl hne1
        ((List.mem_singleton.mp h) ▸ hp)
      omega
  · dsimp only [Queue.enqueue]
    rw [List.map_append]
    have hmc : st.queue.items.map (setLev lev e1 (lev current + 1)) =
        st.queue.items.map lev :=
      List.map_congr_left (fun x hx => hagree x (hmid.hqv x hx))
    rw [hmc]
    have hms := hmid.hsorted
    unfold List.Sorted at hms ⊢
    rw [List.pairwise_append]
    refine ⟨hms, ?_, ?_⟩
    · simp only [List.map_cons, List.map_nil]
      exact List.pairwise_singleton _ _
    · intro x hx y hy
      simp only [List.map_cons, List.map_nil, List.mem_singleton] at hy
      rw [hy, hleve]
      obtain ⟨x0, hx0, hfx⟩ := List.mem_map.mp hx
      rw [← hfx]
      exact hmid.hhi x0 hx0
  · intro x hx
    dsimp only [Queue.enqueue] at hx
    rw [hlevc]
    rcases List.mem_append.mp hx with h | h
    · rw [hagree x (hmid.hqv x h)]
      exact hmid.hlo x h
    · rw [List.mem_singleton.mp h, hleve]
      omega
  · intro x hx
    dsimp only [Queue.enqueue] at hx
    rw [hlevc]
    rcases List.mem_append.mp hx with h | h
    · rw [hagree x (hmid.hqv x h)]
      exact hmid.hhi x h
    · rw [List.mem_singleton.mp h, hleve]
  · exact List.mem_append_left _ hmid.hcur

theorem bfsScan_min (g : Graph) (s t current : Val) (st : BfsState)
    (lev : Val → Nat) (proc : List Val)
    (hmid : C2Mid g s t current st lev proc) :
    ∃ lev2, C2Mid g s t current (bfsScan g current st) lev2 proc ∧
      (∀ v ∈ st.visited, lev2 v = lev v) ∧
      (∀ e ∈ g.adjOf current, e.1 ∈ (bfsScan g current st).visited) ∧
      (∀ v ∈ st.visited, v ∈ (bfsScan g current st).visited) := by
  have hsub : ∀ e ∈ g.adjOf current, EdgeOf g current e.1 :=
    fun e he => ⟨e, he, rfl⟩
  unfold bfsScan
  generalize g.adjOf current = l at hsub ⊢
  induction l generalizing st lev with
  | nil =>
    exact ⟨lev, hmid, fun v _ => rfl,
      fun e he => absurd he (List.not_mem_nil e), fun v hv => hv⟩
  | cons e rest ih =>
    have hsub2 : ∀ x ∈ rest, EdgeOf g current x.1 :=
      fun x hx => hsub x (List.mem_cons_of_mem e hx)
    simp only [List.foldl_cons]
    by_cases hv : st.visited.contains e.1
    · rw [if_pos hv]
      obtain ⟨lev2, h1, h2, h3, h4⟩ := ih st lev hmid hsub2
      refine ⟨lev2, h1, h2, ?_, h4⟩
      intro x hx
      rcases List.mem_cons.mp hx with h | h
      · rw [h]
        exact h4 e.1 (by simpa using hv)
      · exact h3 x h
    · rw [if_neg hv]
      obtain ⟨hmid1, hagree⟩ := bfsStep_min g s t current st lev proc e.1 hmid
        (hsub e (List.mem_cons_self e rest)) hv
      obtain ⟨lev2, h1, h2, h3, h4⟩ := ih _ _ hmid1 hsub2
      refine ⟨lev2, h1, ?_, ?_, ?_⟩
      · intro v hvv
        rw [h2 v (List.mem_append_left _ hvv), hagree v hvv]
      · intro x hx
        rcases List.mem_cons.mp hx with h | h
        · rw [h]
          exact h4 e.1 (List.mem_append_right _ (List.mem_singleton_self _))
        · exact h3 x h
      · intro v hvv
        exact h4 v (List.mem_append_left _ hvv)


/-- The parent walk of a BFS-discovered node yields its breadth-first tree
branch: a walk from the start of length one more than the node level. -/
theorem walk_chain_spec (g : Graph) (s : Val) (parent : ParentMap)
    (visited : List Val) (lev : Val → Nat)
    (hmem : ∀ v u, parent v = some (some u) → u ∈ visited)
    (hidx : ∀ v ∈ visited, ∀ u, parent v = some (some u) →
      idxIn visited u < idxIn visited v)
    (hps : parent s = some none) (hlevs : lev s = 0)
    (honly : ∀ v, parent v = some none → v = s)
    (hchain : ∀ v ∈ visited, v ≠ s → ∃ u, parent v = some (some u) ∧
      u ∈ visited ∧ EdgeOf g u v ∧ lev v = lev u + 1) :
    ∀ (f : Nat) (v : Val), v ∈ visited → idxIn visited v + 1 ≤ f →
      ∃ l, walkParentsIdx parent f (some v) = some l ∧
        l.length = lev v + 1 ∧ IsWalkFromTo g s v l.reverse := by
  intro f
  induction f with
  | zero => intro v hv hf; omega
  | succ f ih =>
    intro v hv hf
    by_cases hvs : v = s
    · refine ⟨[v], ?_, ?_, ?_⟩
      · rw [walkParentsIdx, hvs, hps]
        dsimp only
        rw [walkParentsIdx_none]
        rfl
      · rw [hvs, hlevs]
        rfl
      · rw [hvs]
        exact ⟨by simp, rfl, rfl, List.chain'_singleton s⟩
    · obtain ⟨u, hpu, huv, hedge, hlv⟩ := hchain v hv hvs
      have hlt := hidx v hv u hpu
      obtain ⟨l2, hl2, hlen2, hwalk2⟩ := ih u huv (by omega)
      refine ⟨v :: l2, ?_, ?_, ?_⟩
      · rw [walkParentsIdx, hpu]
        dsimp only
        rw [hl2]
        rfl
      · simp only [List.length_cons, hlen2, hlv]
      · rw [List.reverse_cons]
        exact walk_snoc hwalk2 hedge

/-- Master lemma of the BFS minimality claim: from an invariant state with
the goal reachable, the loop returns a found record whose path is a
shortest walk in edge count. -/
theorem bfsLoop_min (g : Graph) (s t : Val) (hwf : g.WF) :
    ∀ (fuel : Nat) (st : BfsState) (lev : Val → Nat) (proc : List Val),
      BfsTermInv g st →
      st.queue.items.length + (g.nodes.length - st.visited.length) < fuel →
      C2Inv g s t st lev proc →
      (∃ p0, IsWalkFromTo g s t p0) →
      ∃ r, bfsLoop g t fuel st = some r ∧ r.found = true ∧
        IsWalkFromTo g s t r.path ∧
        ∀ p, IsWalkFromTo g s t p → r.path.length ≤ p.length := by
  intro fuel
  induction fuel with
  | zero => intro st lev proc _ hf _ _; omega
  | succ fuel ih =>
    intro st lev proc hterm hfuel hinv hreach
    rw [bfsLoop]
    by_cases he : st.queue.is_empty
    · exfalso
      obtain ⟨p0, hp0⟩ := hreach
      have hqe : st.queue.items = [] := by
        simpa [Queue.is_empty, List.isEmpty_iff] using he
      have hcl : ∀ w ∈ st.visited, ∀ v, EdgeOf g w v → v ∈ st.visited := by
        intro w hw v hedge
        rcases hinv.hcover w hw with h | h
        · exact (hinv.hproc w h).2 v hedge
        · rw [hqe] at h
          exact absurd h (List.not_mem_nil w)
      have htv := walk_closed_visited g s st.visited hinv.hs hcl p0.length p0 t
        le_rfl hp0
      rcases hinv.hcover t htv with h | h
      · exact hinv.ht h
      · rw [hqe] at h
        exact List.not_mem_nil t h
    · rw [if_neg he]
      rcases hd : st.queue.dequeue with _ | ⟨c, q2⟩
      · exact absurd (by simp [Queue.is_empty, Queue.dequeue_none hd]) he
      · dsimp only
        have hitems := Queue.dequeue_some hd
        have hc : c ∈ st.visited :=
          hinv.hqv c (by rw [hitems]; exact List.mem_cons_self c _)
        by_cases hg : c = t
        · rw [if_pos hg]
          have htv : t ∈ st.visited := hg ▸ hc
          have hN : st.visited.length ≤ g.nodes.length := by
            have := nodup_subset_length hterm.1 hterm.2.1
            simpa [Graph.nodeValues] using this
          obtain ⟨l, hl, hlen, hwalk⟩ := walk_chain_spec g s st.parent st.visited
            lev hterm.2.2.2.2.1 hterm.2.2.2.2.2 hinv.hps hinv.hlevs hinv.honly
            hinv.hchain (walkFuel g) t htv
            (by
              have := idxIn_lt_length htv
              unfold walkFuel
              omega)
          rw [hl]
          refine ⟨⟨true, l.reverse, st.visitedOrder, st.visited.length⟩, rfl, rfl,
            hwalk, ?_⟩
          intro p hp
          have hm := hinv.hM1 t htv p hp
          simp only [List.length_reverse, hlen]
          omega
        · rw [if_neg hg]
          have hmidp : C2Mid g s t c { st with queue := q2 } lev proc := by
            have hsq : (st.queue.items.map lev).Sorted (· ≤ ·) := hinv.hsorted
            rw [hitems, List.map_cons, List.sorted_cons] at hsq
            refine ⟨hinv.hs, hinv.hps, hinv.hlevs, hinv.honly, hinv.hchain, ?_,
              ?_, hinv.hproc, hinv.ht, hinv.hM1, hsq.2, ?_, ?_, hc⟩
            · intro v hv
              exact hinv.hqv v (by rw [hitems]; exact List.mem_cons_of_mem c hv)
            · intro v hv
              rcases hinv.hcover v hv with h | h
              · exact Or.inl h
              · rw [hitems] at h
                rcases List.mem_cons.mp h with h2 | h2
                · exact Or.inr (Or.inr h2)
                · exact Or.inr (Or.inl h2)
            · intro x hx
              exact hsq.1 (lev x) (List.mem_map_of_mem lev hx)
            · intro x hx
              refine hinv.hwin x ?_ c ?_
              · rw [hitems]
                exact List.mem_cons_of_mem c hx
              · rw [hitems]
                exact List.mem_cons_self c _
          obtain ⟨lev2, hmid2, hagree, hnbrs, hmono⟩ :=
            bfsScan_min g s t c { st with queue := q2 } lev proc hmidp
          have hinvm : BfsTermInv g { st with queue := q2 } := by
            obtain ⟨h1, h2, h3, h4, h5, h6⟩ := hterm
            refine ⟨h1, h2, ?_, h4, h5, h6⟩
            intro v hv
            exact h3 v (by rw [hitems]; exact List.mem_cons_of_mem c hv)
          obtain ⟨hterm2, heq2⟩ := bfsScan_term g hwf c { st with queue := q2 }
            hinvm hc
          have htc : t ≠ c := fun h2 => hg h2.symm
          have hinv2 : C2Inv g s t (bfsScan g c { st with queue := q2 }) lev2
              (proc ++ [c]) := by
            refine ⟨hmid2.hs, hmid2.hps, hmid2.hlevs, hmid2.honly, hmid2.hchain,
              hmid2.hqv, ?_, ?_, ?_, hmid2.hM1, hmid2.hsorted, ?_⟩
            · intro v hv
              rcases hmid2.hcover v hv with h | h | h
              · exact Or.inl (List.mem_append_left _ h)
              · exact Or.inr h
              · exact Or.inl (List.mem_append_right _ (by rw [h]; exact List.mem_singleton_self c))
            · intro w hw
              rcases List.mem_append.mp hw with h | h
              · exact hmid2.hproc w h
              · rw [List.mem_singleton.mp h]
                refine ⟨hmid2.hcur, ?_⟩
                intro v hedge
                obtain ⟨e, hee, he1⟩ := hedge
                exact he1 ▸ hnbrs e hee
            · intro hmem2
              rcases List.mem_append.mp hmem2 with h | h
              · exact hinv.ht h
              · exact htc (List.mem_singleton.mp h)
            · intro x hx y hy
              have h1 := hmid2.hhi x hx
              have h2 := hmid2.hlo y hy
              omega
          refine ih _ lev2 (proc ++ [c]) hterm2 ?_ hinv2 hreach
          rw [heq2]
          dsimp only
          have hql : st.queue.items.length = q2.items.length + 1 := by
            rw [hitems]
            rfl
          omega


/-- A registered node value has a node record. -/
theorem Graph.get_node_isSome_of_mem {g : Graph} {v : Val}
    (hv : v ∈ g.nodeValues) : ∃ adj, g.get_node v = some adj := by
  unfold get_node
  rcases hf : g.nodes.find? (·.1 == v) with _ | nv
  · exfalso
    rw [List.find?_eq_none] at hf
    obtain ⟨nv, hmem, hfst⟩ := List.mem_map.mp hv
    exact absurd (by simp [hfst]) (hf nv hmem)
  · exact ⟨nv.2, by rw [hf]; rfl⟩

/-- C2: on a well-formed graph, whenever the goal node is reachable from the
start node by a walk, BFS returns found = true and a path that is itself a
walk from start to goal with the fewest nodes — hence the fewest edges —
among all such walks, with edge weights ignored entirely. -/
theorem c2_bfs_shortest_edges (g : Graph) (s t : Val) (hwf : g.WF)
    (hsn : s ∈ g.nodeValues) (htn : t ∈ g.nodeValues)
    (hreach : ∃ p, IsWalkFromTo g s t p) :
    ∃ r, breadth_first_search g s t = some r ∧ r.found = true ∧
      IsWalkFromTo g s t r.path ∧
      ∀ p, IsWalkFromTo g s t p → r.path.length ≤ p.length := by
  unfold breadth_first_search
  rcases hgs : g.get_node s with _ | adjs
  · obtain ⟨adj, ha⟩ := Graph.get_node_isSome_of_mem hsn
    rw [hgs] at ha
    cases ha
  rcases hgt : g.get_node t with _ | adjt
  · obtain ⟨adj, ha⟩ := Graph.get_node_isSome_of_mem htn
    rw [hgt] at ha
    cases ha
  have hNpos : 0 < g.nodes.length := by
    have h1 := List.length_pos.mpr (List.ne_nil_of_mem hsn)
    simpa [Graph.nodeValues] using h1
  have hterm0 : BfsTermInv g
      ⟨Queue.empty.enqueue s, [s], setParent emptyParent s none, [s]⟩ := by
    refine ⟨List.nodup_singleton s, ?_, ?_, ?_, ?_, ?_⟩
    · intro v hv
      rw [List.mem_singleton.mp hv]
      exact hsn
    · intro v hv
      dsimp only [Queue.empty, Queue.enqueue] at hv
      simpa using hv
    · intro v hv
      rw [List.mem_singleton.mp hv]
      simp [setParent]
    · intro v u hp
      exact absurd hp (init_parent_ne s v u)
    · intro v hv u hp
      exact absurd hp (init_parent_ne s v u)
  have hinv0 : C2Inv g s t
      ⟨Queue.empty.enqueue s, [s], setParent emptyParent s none, [s]⟩
      (fun _ => 0) [] := by
    refine ⟨List.mem_singleton_self s, by simp [setParent], rfl, ?_, ?_, ?_, ?_,
      ?_, List.not_mem_nil t, ?_, ?_, ?_⟩
    · intro v hp
      simp only [setParent, emptyParent] at hp
      by_cases hv : v = s
      · exact hv
      · rw [if_neg hv] at hp
        exact Option.noConfusion hp
    · intro v hv hvs
      exact absurd (List.mem_singleton.mp hv) hvs
    · intro v hv
      dsimp only [Queue.empty, Queue.enqueue] at hv
      simpa using hv
    · intro v hv
      refine Or.inr ?_
      dsimp only [Queue.empty, Queue.enqueue]
      simpa using hv
    · intro w hw
      exact absurd hw (List.not_mem_nil w)
    · intro v hv p hp
      have := walk_length_pos hp
      omega
    · dsimp only [Queue.empty, Queue.enqueue]
      simp only [List.nil_append, List.map_cons, List.map_nil]
      exact List.sorted_singleton 0
    · intro x hx y hy
      omega
  obtain ⟨r, hr, hfound, hwalk, hmin⟩ := bfsLoop_min g s t hwf (searchFuel g) _
    (fun _ => 0) [] hterm0
    (by
      dsimp only [Queue.empty, Queue.enqueue]
      unfold searchFuel
      simp only [List.nil_append, List.length_singleton]
      have hprod : (g.nodes.length + 1) * 2 ≤
          (g.nodes.length + 1) * (g.edgeTotal + 2) :=
        Nat.mul_le_mul_left _ (by omega)
      omega)
    hinv0 hreach
  exact ⟨r, hr, hfound, hwalk, hmin⟩

theorem c2_bfs_shortest_edges_witness :
    ∃ r, breadth_first_search (((Graph.mk false []).add_edge 0 1 1).add_edge 0 2 1)
        0 1 = some r ∧ r.found = true ∧
      IsWalkFromTo (((Graph.mk false []).add_edge 0 1 1).add_edge 0 2 1) 0 1 r.path ∧
      ∀ p, IsWalkFromTo (((Graph.mk false []).add_edge 0 1 1).add_edge 0 2 1) 0 1 p →
        r.path.length ≤ p.length :=
  c2_bfs_shortest_edges (((Graph.mk false []).add_edge 0 1 1).add_edge 0 2 1) 0 1
    (by decide) (by decide) (by decide)
    ⟨[0, 1], by
      refine ⟨by decide, rfl, rfl, ?_⟩
      rw [List.chain'_pair]
      decide⟩


/-! Shortest-path costs: the total weight of a walk, read through the same
adjacency lookup the algorithms use. -/

/-- Total weight of a node list, summing the recorded weight of each
consecutive pair; infinity on a missing edge. -/
def walkCost (g : Graph) : List Val → Cost
  | [] => 0
  | [_] => 0
  | u :: v :: rest => Graph.weightTo (g.adjOf u) v + walkCost g (v :: rest)

/-- A heuristic is admissible towards a goal when it never exceeds the cost
of any walk to the goal. -/
def Admissible (g : Graph) (hfun : Heuristic) (t : Val) : Prop :=
  ∀ v p, IsWalkFromTo g v t p → ((hfun v t : Rat) : Cost) ≤ walkCost g p

/-- A heuristic is consistent towards a goal when it is zero at the goal and
satisfies the triangle inequality over every recorded edge. -/
def Consistent (g : Graph) (hfun : Heuristic) (t : Val) : Prop :=
  hfun t t = 0 ∧ ∀ nv ∈ g.nodes, ∀ e ∈ nv.2, hfun nv.1 t ≤ e.2 + hfun e.1 t

instance (g : Graph) (hfun : Heuristic) (t : Val) :
    Decidable (Consistent g hfun t) := by
  unfold Consistent
  infer_instance

/-- The edge triangle inequality of a consistent heuristic, read through the
adjacency lookup. -/
theorem Consistent.adjOf {g : Graph} {hfun : Heuristic} {t : Val}
    (hc : Consistent g hfun t) (u : Val) :
    ∀ e ∈ g.adjOf u, hfun u t ≤ e.2 + hfun e.1 t := by
  intro e he
  unfold Graph.adjOf at he
  rcases hf : g.get_node u with _ | adj
  · rw [hf] at he
    cases he
  · rw [hf] at he
    simp only [Option.getD_some] at he
    obtain ⟨nv, hmem, hk, hv⟩ := Graph.get_node_some_elim hf
    exact hk ▸ hc.2 nv hmem e (hv ▸ he)

theorem weightTo_edge {g : Graph} {u v : Val} (he : EdgeOf g u v) :
    ∃ e ∈ g.adjOf u, e.1 = v ∧ Graph.weightTo (g.adjOf u) v = (e.2 : Cost) := by
  obtain ⟨e0, he0, h1⟩ := he
  unfold Graph.weightTo
  rcases hf : (g.adjOf u).find? (fun e => e.1 == v) with _ | e1
  · rw [List.find?_eq_none] at hf
    exact absurd (by simp [h1]) (hf e0 he0)
  · have hm := List.mem_of_find?_eq_some hf
    have hp := List.find?_some hf
    have h2 : e1.1 = v := by simpa using hp
    refine ⟨e1, hm, h2, ?_⟩
    rw [hf]

/-- In a well-formed graph the recorded weight of an adjacency entry is the
weight the lookup returns. -/
theorem weightTo_of_mem {g : Graph} (hwf : g.WF) {u : Val} {e : Val × Rat}
    (he : e ∈ g.adjOf u) : Graph.weightTo (g.adjOf u) e.1 = (e.2 : Cost) := by
  obtain ⟨e1, he1, h1, h2⟩ := weightTo_edge ⟨e, he, rfl⟩
  rw [h2]
  have hnd : ((g.adjOf u).map Prod.fst).Nodup := by
    unfold Graph.adjOf
    rcases hf : g.get_node u with _ | adj
    · simp
    · simp only [Option.getD_some]
      obtain ⟨nv, hmem, hk, hv⟩ := Graph.get_node_some_elim hf
      exact hv ▸ hwf.2.1 nv hmem
  have h3 : e1 = e := List.inj_on_of_nodup_map hnd he1 he h1
  rw [h3]

theorem adjOf_nonneg {g : Graph} (hnn : g.Nonneg) (u : Val) :
    ∀ e ∈ g.adjOf u, 0 ≤ e.2 := by
  intro e he
  unfold Graph.adjOf at he
  rcases hf : g.get_node u with _ | adj
  · rw [hf] at he
    cases he
  · rw [hf] at he
    simp only [Option.getD_some] at he
    obtain ⟨nv, hmem, hk, hv⟩ := Graph.get_node_some_elim hf
    exact hnn nv hmem e (hv ▸ he)

theorem walkCost_nonneg {g : Graph} (hnn : g.Nonneg) :
    ∀ p, 0 ≤ walkCost g p := by
  intro p
  induction p with
  | nil => exact le_refl 0
  | cons u rest ih =>
    rcases rest with _ | ⟨v, rest2⟩
    · exact le_refl 0
    · rw [walkCost]
      have h1 : (0 : Cost) ≤ Graph.weightTo (g.adjOf u) v := by
        unfold Graph.weightTo
        rcases hf : (g.adjOf u).find? (fun e => e.1 == v) with _ | e1
        · rw [hf]
          exact le_top
        · rw [hf]
          dsimp only
          have hm := List.mem_of_find?_eq_some hf
          have h2 := adjOf_nonneg hnn u e1 hm
          exact_mod_cast h2
      calc (0 : Cost) = 0 + 0 := (add_zero 0).symm
        _ ≤ Graph.weightTo (g.adjOf u) v + walkCost g (v :: rest2) := add_le_add h1 ih

theorem walkCost_lt_top {g : Graph} {s t : Val} {p : List Val}
    (hw : IsWalkFromTo g s t p) : walkCost g p < ⊤ := by
  obtain ⟨hne, hhd, hlast, hchain⟩ := hw
  clear hhd hlast hne
  induction p with
  | nil =>
    rw [show walkCost g [] = ((0 : Rat) : Cost) from rfl]
    exact WithTop.coe_lt_top 0
  | cons u rest ih =>
    rcases rest with _ | ⟨v, rest2⟩
    · rw [show walkCost g [u] = ((0 : Rat) : Cost) from rfl]
      exact WithTop.coe_lt_top 0
    · rw [walkCost]
      rw [List.chain'_cons] at hchain
      obtain ⟨e1, he1, h1, h2⟩ := weightTo_edge hchain.1
      rw [h2]
      have h3 := ih hchain.2
      rcases h4 : walkCost g (v :: rest2) with _ | c
      · rw [h4] at h3
        exact absurd h3 (lt_irrefl ⊤)
      · exact WithTop.add_lt_top.mpr ⟨WithTop.coe_lt_top e1.2, WithTop.coe_lt_top c⟩

theorem walkCost_append (g : Graph) :
    ∀ (q : List Val) (y : Val) (r : List Val),
      walkCost g (q ++ y :: r) = walkCost g (q ++ [y]) + walkCost g (y :: r) := by
  intro q
  induction q with
  | nil =>
    intro y r
    simp only [List.nil_append]
    rw [show walkCost g [y] = 0 from rfl, zero_add]
  | cons a q2 ih =>
    intro y r
    rcases q2 with _ | ⟨b, q3⟩
    · show walkCost g (a :: y :: r) = walkCost g (a :: [y]) + walkCost g (y :: r)
      rw [walkCost]
      have h2 : walkCost g (a :: [y]) = Graph.weightTo (g.adjOf a) y := by
        rw [walkCost]
        exact add_zero _
      rw [h2]
    · show walkCost g (a :: b :: (q3 ++ y :: r)) =
        walkCost g (a :: b :: (q3 ++ [y])) + walkCost g (y :: r)
      rw [walkCost]
      have h3 := ih y r
      rw [show (b :: q3) ++ y :: r = b :: (q3 ++ y :: r) from rfl] at h3
      rw [h3]
      rw [show walkCost g (a :: b :: (q3 ++ [y])) =
        Graph.weightTo (g.adjOf a) b + walkCost g (b :: (q3 ++ [y])) from rfl]
      rw [add_assoc]
      simp only [List.cons_append]

theorem walkCost_snoc (g : Graph) :
    ∀ (q : List Val) (hq : q ≠ []) (y : Val),
      walkCost g (q ++ [y]) = walkCost g q + Graph.weightTo (g.adjOf (q.getLast hq)) y := by
  intro q
  induction q with
  | nil => intro hq; exact absurd rfl hq
  | cons a q2 ih =>
    intro hq y
    rcases q2 with _ | ⟨b, q3⟩
    · show walkCost g [a, y] = walkCost g [a] + Graph.weightTo (g.adjOf a) y
      rw [show walkCost g [a, y] = Graph.weightTo (g.adjOf a) y + walkCost g [y] from rfl]
      rw [show walkCost g [y] = 0 from rfl, show walkCost g [a] = 0 from rfl,
        add_zero, zero_add]
    · show walkCost g (a :: b :: (q3 ++ [y])) =
        walkCost g (a :: b :: q3) + Graph.weightTo (g.adjOf ((a :: b :: q3).getLast hq)) y
      rw [show walkCost g (a :: b :: (q3 ++ [y])) =
        Graph.weightTo (g.adjOf a) b + walkCost g (b :: (q3 ++ [y])) from rfl]
      have ih2 := ih (List.cons_ne_nil b q3) y
      simp only [List.cons_append] at ih2
      rw [ih2]
      rw [show walkCost g (a :: b :: q3) =
        Graph.weightTo (g.adjOf a) b + walkCost g (b :: q3) from rfl]
      rw [add_assoc]
      have hlast : (a :: b :: q3).getLast hq = (b :: q3).getLast (List.cons_ne_nil b q3) :=
        List.getLast_cons (List.cons_ne_nil b q3)
      rw [hlast]


theorem walk_cons_elim {g : Graph} {a x b : Val} {rest : List Val}
    (hw : IsWalkFromTo g a x (a :: b :: rest)) :
    EdgeOf g a b ∧ IsWalkFromTo g b x (b :: rest) := by
  obtain ⟨hne, hhd, hlast, hchain⟩ := hw
  rw [List.chain'_cons] at hchain
  refine ⟨hchain.1, List.cons_ne_nil b rest, rfl, ?_, hchain.2⟩
  rw [← hlast]
  exact List.getLast?_cons_cons.symm

theorem walk_cons {g : Graph} {a b x : Val} {p : List Val}
    (he : EdgeOf g a b) (hw : IsWalkFromTo g b x p) :
    IsWalkFromTo g a x (a :: p) := by
  obtain ⟨hne, hhd, hlast, hchain⟩ := hw
  rcases p with _ | ⟨c, rest⟩
  · exact absurd rfl hne
  · refine ⟨List.cons_ne_nil _ _, rfl, ?_, ?_⟩
    · rw [List.getLast?_cons_cons]
      exact hlast
    · rw [List.chain'_cons]
      have hcb : c = b := by simpa using hhd
      exact ⟨by rw [hcb]; exact he, hchain⟩

/-- Telescoping the edge triangle inequality along a walk: a consistent
heuristic never exceeds the walk cost plus the heuristic at the far end. -/
theorem consistent_telescope {g : Graph} {hfun : Heuristic} {t : Val}
    (hc : Consistent g hfun t) :
    ∀ (p : List Val) (y v : Val), IsWalkFromTo g y v p →
      ((hfun y t : Rat) : Cost) ≤ walkCost g p + ((hfun v t : Rat) : Cost) := by
  intro p
  induction p with
  | nil => intro y v hw; exact absurd rfl hw.1
  | cons a rest ih =>
    intro y v hw
    have hay : a = y := by simpa using hw.2.1
    subst hay
    rcases rest with _ | ⟨b, rest2⟩
    · have hva : a = v := by simpa using hw.2.2.1
      rw [show walkCost g [a] = 0 from rfl, zero_add, hva]
    · obtain ⟨he, hw2⟩ := walk_cons_elim hw
      have h1 := ih b v hw2
      rw [walkCost]
      obtain ⟨e1, he1, heq1, heq2⟩ := weightTo_edge he
      rw [heq2]
      have h2 : hfun a t ≤ e1.2 + hfun e1.1 t := hc.adjOf a e1 he1
      have h2c : ((hfun a t : Rat) : Cost) ≤ (e1.2 : Cost) + ((hfun b t : Rat) : Cost) := by
        rw [heq1] at h2
        exact_mod_cast h2
      calc ((hfun a t : Rat) : Cost)
          ≤ (e1.2 : Cost) + ((hfun b t : Rat) : Cost) := h2c
        _ ≤ (e1.2 : Cost) + (walkCost g (b :: rest2) + ((hfun v t : Rat) : Cost)) :=
            add_le_add_left h1 _
        _ = (e1.2 : Cost) + walkCost g (b :: rest2) + ((hfun v t : Rat) : Cost) :=
            (add_assoc _ _ _).symm

/-- Split a walk to an unsettled node at its first unsettled node, keeping
the settled predecessor when there is one. -/
theorem walk_split_unsettled (g : Graph) (visited : List Val) :
    ∀ (p : List Val) (a x : Val), IsWalkFromTo g a x p → x ∉ visited →
      ∃ q y r2, p = q ++ y :: r2 ∧ (∀ z ∈ q, z ∈ visited) ∧ y ∉ visited ∧
        IsWalkFromTo g a y (q ++ [y]) ∧ IsWalkFromTo g y x (y :: r2) ∧
        ((q = [] ∧ y = a) ∨ ∃ hq : q ≠ [], q.getLast hq ∈ visited ∧
          EdgeOf g (q.getLast hq) y ∧ IsWalkFromTo g a (q.getLast hq) q) := by
  intro p
  induction p with
  | nil => intro a x hw _; exact absurd rfl hw.1
  | cons c rest ih =>
    intro a x hw hx
    have hca : c = a := by simpa using hw.2.1
    subst hca
    rcases rest with _ | ⟨b, rest2⟩
    · have hcx : c = x := by simpa using hw.2.2.1
      refine ⟨[], c, [], rfl, fun z hz => absurd hz (List.not_mem_nil z),
        hcx ▸ hx, ?_, ?_, Or.inl ⟨rfl, rfl⟩⟩
      · exact ⟨List.cons_ne_nil c [], rfl, rfl, List.chain'_singleton c⟩
      · rw [hcx] at hw ⊢
        exact hw
    · obtain ⟨he, hw2⟩ := walk_cons_elim hw
      by_cases hcv : c ∈ visited
      · obtain ⟨q, y, r2, hsplit, hqv, hyv, hpre, hsuf, hpred⟩ := ih b x hw2 hx
        refine ⟨c :: q, y, r2, by rw [hsplit]; simp only [List.cons_append], ?_, hyv,
          ?_, hsuf, ?_⟩
        · intro z hz
          rcases List.mem_cons.mp hz with h | h
          · rw [h]
            exact hcv
          · exact hqv z h
        · show IsWalkFromTo g c y (c :: (q ++ [y]))
          exact walk_cons he hpre
        · refine Or.inr ⟨List.cons_ne_nil c q, ?_⟩
          rcases hpred with ⟨hq0, hyb⟩ | ⟨hq, hwv, hedge, hwalk⟩
          · subst hq0
            refine ⟨hcv, ?_, ?_⟩
            · show EdgeOf g c y
              rw [hyb]
              exact he
            · exact ⟨List.cons_ne_nil c [], rfl, rfl, List.chain'_singleton c⟩
          · have hlast : (c :: q).getLast (List.cons_ne_nil c q) = q.getLast hq :=
              List.getLast_cons hq
            rw [hlast]
            exact ⟨hwv, hedge, walk_cons he hwalk⟩
      · exact ⟨[], c, b :: rest2, rfl, fun z hz => absurd hz (List.not_mem_nil z),
          hcv, ⟨List.cons_ne_nil c [], rfl, rfl, List.chain'_singleton c⟩, hw,
          Or.inl ⟨rfl, rfl⟩⟩

theorem cost_zero_lt_top : (0 : Cost) < ⊤ := WithTop.coe_lt_top 0

theorem cost_add_cancel {a b : Cost} {c : Rat}
    (h : a + (c : Cost) ≤ b + (c : Cost)) : a ≤ b := by
  rwa [WithTop.add_le_add_iff_right WithTop.coe_ne_top] at h


theorem getLast_eq_of_getLast? {l : List Val} {v : Val} (hne : l ≠ [])
    (h : l.getLast? = some v) : l.getLast hne = v := by
  have h2 := List.getLast?_eq_getLast l hne
  rw [h] at h2
  exact (Option.some.inj h2).symm

/-- Core invariant of the A* optimality proof: g scores of settled nodes are
walk-cost lower bounds, every finite g score is achieved by a walk, queue
priorities dominate the g score plus heuristic, and every unsettled node
with a finite g score keeps a fresh entry in the frontier. -/
structure AStarCore (g : Graph) (s t : Val) (hfun : Heuristic)
    (st : AStarState) : Prop where
  hs0 : st.g_score s = 0
  hlow : ∀ v ∈ st.visited, ∀ p, IsWalkFromTo g s v p → st.g_score v ≤ walkCost g p
  hfin : ∀ v ∈ st.visited, st.g_score v < ⊤
  hach : ∀ v, st.g_score v < ⊤ →
    ∃ p, IsWalkFromTo g s v p ∧ walkCost g p = st.g_score v
  hstale : ∀ x ∈ st.pq.heap, x.1 < ⊤ ∧
    st.g_score x.2 + ((hfun x.2 t : Rat) : Cost) ≤ x.1
  hfresh : ∀ v, v ∉ st.visited → st.g_score v < ⊤ →
    ∃ x ∈ st.pq.heap, x.2 = v ∧ x.1 = st.g_score v + ((hfun v t : Rat) : Cost)
  hheap : IsMinHeap st.pq.heap
  hgoal : t ∉ st.visited

/-- Relaxation completeness for settled sources other than the excluded
node currently being scanned. -/
def AStarRelax (g : Graph) (st : AStarState) (excl : Val) : Prop :=
  ∀ u ∈ st.visited, u ≠ excl → ∀ e ∈ g.adjOf u, e.1 ∉ st.visited →
    st.g_score e.1 ≤ st.g_score u + (e.2 : Cost)

/-- Relaxation completeness for every settled source. -/
def AStarRelaxAll (g : Graph) (st : AStarState) : Prop :=
  ∀ u ∈ st.visited, ∀ e ∈ g.adjOf u, e.1 ∉ st.visited →
    st.g_score e.1 ≤ st.g_score u + (e.2 : Cost)

theorem astarStep_opt (g : Graph) (s t : Val) (hfun : Heuristic)
    (hnn : g.Nonneg) (current : Val) (st : AStarState) (e : Val × Rat)
    (hcore : AStarCore g s t hfun st) (hrel : AStarRelax g st current)
    (hcur : current ∈ st.visited)
    (hedge : EdgeOf g current e.1) (hw0 : 0 ≤ e.2)
    (hext : ∀ (q : List Val) (hq : q ≠ []), q.getLast hq = current →
      walkCost g (q ++ [e.1]) = walkCost g q + (e.2 : Cost))
    (hnv : e.1 ∉ st.visited)
    (hlt : st.g_score current + (e.2 : Cost) < st.g_score e.1) :
    AStarCore g s t hfun
      { st with
          parent := setParent st.parent e.1 (some current)
          g_score := setCost st.g_score e.1 (st.g_score current + (e.2 : Cost))
          f_score := setCost st.f_score e.1
            (st.g_score current + (e.2 : Cost) + ((hfun e.1 t : Rat) : Cost))
          pq := st.pq.insert e.1
            (st.g_score current + (e.2 : Cost) + ((hfun e.1 t : Rat) : Cost)) } ∧
    AStarRelax g
      { st with
          parent := setParent st.parent e.1 (some current)
          g_score := setCost st.g_score e.1 (st.g_score current + (e.2 : Cost))
          f_score := setCost st.f_score e.1
            (st.g_score current + (e.2 : Cost) + ((hfun e.1 t : Rat) : Cost))
          pq := st.pq.insert e.1
            (st.g_score current + (e.2 : Cost) + ((hfun e.1 t : Rat) : Cost)) }
      current ∧
    (∀ v, v ≠ e.1 →
      setCost st.g_score e.1 (st.g_score current + (e.2 : Cost)) v = st.g_score v) ∧
    setCost st.g_score e.1 (st.g_score current + (e.2 : Cost)) e.1 =
      st.g_score current + (e.2 : Cost) ∧
    (∀ v, setCost st.g_score e.1 (st.g_score current + (e.2 : Cost)) v ≤
      st.g_score v) := by
  have hgcfin : st.g_score current < ⊤ := hcore.hfin current hcur
  have hgc0 : 0 ≤ st.g_score current := by
    obtain ⟨p, hp, hcost⟩ := hcore.hach current hgcfin
    rw [← hcost]
    exact walkCost_nonneg hnn p
  have hne : ∀ v, v ≠ e.1 →
      setCost st.g_score e.1 (st.g_score current + (e.2 : Cost)) v = st.g_score v := by
    intro v hv
    simp only [setCost, if_neg hv]
  have heq : setCost st.g_score e.1 (st.g_score current + (e.2 : Cost)) e.1 =
      st.g_score current + (e.2 : Cost) := by
    simp [setCost]
  have hmono : ∀ v, setCost st.g_score e.1 (st.g_score current + (e.2 : Cost)) v ≤
      st.g_score v := by
    intro v
    by_cases hv : v = e.1
    · rw [hv, heq]
      exact le_of_lt hlt
    · rw [hne v hv]
  have hvne : ∀ v ∈ st.visited, v ≠ e.1 := fun v hv h2 => hnv (h2 ▸ hv)
  have hnewfin : st.g_score current + (e.2 : Cost) < ⊤ :=
    WithTop.add_lt_top.mpr ⟨hgcfin, WithTop.coe_lt_top e.2⟩
  have hperm := PriorityQueue.insert_perm st.pq e.1
    (st.g_score current + (e.2 : Cost) + ((hfun e.1 t : Rat) : Cost))
  refine ⟨⟨?_, ?_, ?_, ?_, ?_, ?_, ?_, hcore.hgoal⟩, ?_, hne, heq, hmono⟩
  · dsimp only
    have hse : s ≠ e.1 := by
      intro h2
      rw [← h2, hcore.hs0] at hlt
      have h3 : (0 : Cost) ≤ st.g_score current + (e.2 : Cost) := by
        calc (0 : Cost) = 0 + 0 := (add_zero 0).symm
          _ ≤ st.g_score current + (e.2 : Cost) :=
            add_le_add hgc0 (by exact_mod_cast hw0)
      exact absurd hlt (not_lt.mpr h3)
    rw [hne s hse]
    exact hcore.hs0
  · intro v hv p hp
    dsimp only at hv ⊢
    rw [hne v (hvne v hv)]
    exact hcore.hlow v hv p hp
  · intro v hv
    dsimp only at hv ⊢
    rw [hne v (hvne v hv)]
    exact hcore.hfin v hv
  · intro v hv
    dsimp only at hv ⊢
    by_cases hvee : v = e.1
    · rw [hvee, heq]
      obtain ⟨p, hp, hcost⟩ := hcore.hach current hgcfin
      have hpne : p ≠ [] := hp.1
      have hlastp : p.getLast hpne = current :=
        getLast_eq_of_getLast? hpne hp.2.2.1
      refine ⟨p ++ [e.1], walk_snoc hp hedge, ?_⟩
      rw [hext p hpne hlastp, hcost]
    · rw [hne v hvee] at hv ⊢
      exact hcore.hach v hv
  · intro x hx
    dsimp only at hx ⊢
    rcases List.mem_cons.mp (hperm.mem_iff.mp hx) with h | h
    · rw [h]
      dsimp only
      rw [heq]
      refine ⟨?_, le_refl _⟩
      exact WithTop.add_lt_top.mpr ⟨hnewfin, WithTop.coe_lt_top _⟩
    · obtain ⟨h1, h2⟩ := hcore.hstale x h
      refine ⟨h1, le_trans (add_le_add_right (hmono x.2) _) h2⟩
  · intro v hv hfi
    dsimp only at hv hfi ⊢
    by_cases hvee : v = e.1
    · refine ⟨(st.g_score current + (e.2 : Cost) + ((hfun e.1 t : Rat) : Cost), e.1),
        ?_, hvee.symm, ?_⟩
      · exact hperm.mem_iff.mpr (List.mem_cons_self _ _)
      · rw [hvee, heq]
    · rw [hne v hvee] at hfi
      obtain ⟨x, hx, hx2, hx1⟩ := hcore.hfresh v hv hfi
      refine ⟨x, ?_, hx2, ?_⟩
      · exact hperm.mem_iff.mpr (List.mem_cons_of_mem _ hx)
      · rw [hne v hvee, hx1]
  · dsimp only
    exact PriorityQueue.insert_heap st.pq _ _ hcore.hheap
  · intro u hu hue e2 he2 hnv2
    dsimp only at hu hnv2 ⊢
    rw [hne u (hvne u hu)]
    by_cases hv2 : e2.1 = e.1
    · rw [hv2, heq]
      refine le_trans (le_of_lt hlt) ?_
      rw [← hv2]
      exact hrel u hu hue e2 he2 hnv2
    · rw [hne e2.1 hv2]
      exact hrel u hu hue e2 he2 hnv2


theorem astarScan_opt (g : Graph) (s t : Val) (hfun : Heuristic) (hwf : g.WF)
    (hnn : g.Nonneg) (current : Val) (st : AStarState)
    (hcore : AStarCore g s t hfun st) (hrel : AStarRelax g st current)
    (hcur : current ∈ st.visited) :
    AStarCore g s t hfun (astarScan g t hfun current st) ∧
    AStarRelax g (astarScan g t hfun current st) current ∧
    (∀ v ∈ st.visited, (astarScan g t hfun current st).g_score v = st.g_score v) ∧
    (∀ e ∈ g.adjOf current, e.1 ∉ st.visited →
      (astarScan g t hfun current st).g_score e.1 ≤
        (astarScan g t hfun current st).g_score current + (e.2 : Cost)) ∧
    (∀ v, (astarScan g t hfun current st).g_score v ≤ st.g_score v) := by
  have hsub : ∀ e ∈ g.adjOf current, EdgeOf g current e.1 ∧ 0 ≤ e.2 ∧
      ∀ (q : List Val) (hq : q ≠ []), q.getLast hq = current →
        walkCost g (q ++ [e.1]) = walkCost g q + (e.2 : Cost) := by
    intro e he
    refine ⟨⟨e, he, rfl⟩, adjOf_nonneg hnn current e he, ?_⟩
    intro q hq hlast
    rw [walkCost_snoc g q hq e.1, hlast, weightTo_of_mem hwf he]
  unfold astarScan
  generalize g.adjOf current = l at hsub ⊢
  induction l generalizing st with
  | nil =>
    exact ⟨hcore, hrel, fun v _ => rfl, fun e he => absurd he (List.not_mem_nil e),
      fun v => le_refl _⟩
  | cons e rest ih =>
    have hsub2 : ∀ x ∈ rest, EdgeOf g current x.1 ∧ 0 ≤ x.2 ∧
        ∀ (q : List Val) (hq : q ≠ []), q.getLast hq = current →
          walkCost g (q ++ [x.1]) = walkCost g q + (x.2 : Cost) :=
      fun x hx => hsub x (List.mem_cons_of_mem e hx)
    obtain ⟨hedge, hw0, hext⟩ := hsub e (List.mem_cons_self e rest)
    simp only [List.foldl_cons]
    by_cases hv : st.visited.contains e.1
    · rw [if_pos hv]
      obtain ⟨h1, h2, h3, h4, h5⟩ := ih st hcore hrel hcur hsub2
      refine ⟨h1, h2, h3, ?_, h5⟩
      intro x hx hxv
      rcases List.mem_cons.mp hx with h | h
      · exfalso
        rw [h] at hxv
        exact hxv (by simpa using hv)
      · exact h4 x h hxv
    · rw [if_neg hv]
      have hne1 : e.1 ∉ st.visited := by simpa using hv
      have hcne : current ≠ e.1 := fun h6 => hne1 (h6 ▸ hcur)
      by_cases hlt : st.g_score current + (e.2 : Cost) < st.g_score e.1
      · rw [if_pos hlt]
        obtain ⟨hcore1, hrel1, hfr, hset, hmono1⟩ := astarStep_opt g s t hfun hnn
          current st e hcore hrel hcur hedge hw0 hext hne1 hlt
        obtain ⟨h1, h2, h3, h4, h5⟩ := ih _ hcore1 hrel1 hcur hsub2
        refine ⟨h1, h2, ?_, ?_, ?_⟩
        · intro v hvv
          exact (h3 v hvv).trans (hfr v (fun h6 => hne1 (h6 ▸ hvv)))
        · intro x hx hxv
          rcases List.mem_cons.mp hx with h | h
          · rw [h]
            have hB := (h3 current hcur).trans (hfr current hcne)
            have hA := le_of_le_of_eq (h5 e.1) hset
            exact le_of_le_of_eq hA (congrArg (fun z => z + (e.2 : Cost)) hB.symm)
          · exact h4 x h hxv
        · intro v
          exact le_trans (h5 v) (hmono1 v)
      · rw [if_neg hlt]
        obtain ⟨h1, h2, h3, h4, h5⟩ := ih st hcore hrel hcur hsub2
        refine ⟨h1, h2, h3, ?_, h5⟩
        intro x hx hxv
        rcases List.mem_cons.mp hx with h | h
        · rw [h]
          have hB := h3 current hcur
          have hA := (h5 e.1).trans (le_of_not_lt hlt)
          exact le_of_le_of_eq hA (congrArg (fun z => z + (e.2 : Cost)) hB.symm)
        · exact h4 x h hxv


/-- Master lemma of A* optimality with a consistent heuristic: from an
invariant state with the goal reachable and unsettled, the loop returns a
found record whose cost is the least walk cost from start to goal. -/
theorem astarLoop_opt (g : Graph) (s t : Val) (hfun : Heuristic) (hwf : g.WF)
    (hnn : g.Nonneg) (hcons : Consistent g hfun t) :
    ∀ (fuel : Nat) (st : AStarState),
      AStarTermInv g st →
      st.pq.heap.length +
          (g.edgeTotal + 1) * (g.nodes.length - st.visited.length) < fuel →
      AStarCore g s t hfun st → AStarRelaxAll g st →
      (∃ p0, IsWalkFromTo g s t p0) →
      ∃ r, astarLoop g t hfun fuel st = some r ∧ r.found = true ∧
        (∃ p, IsWalkFromTo g s t p ∧ walkCost g p = r.cost) ∧
        (∀ p, IsWalkFromTo g s t p → r.cost ≤ walkCost g p) := by
  intro fuel
  induction fuel with
  | zero => intro st _ hf _ _ _; omega
  | succ fuel ih =>
    intro st hterm hfuel hcore hrel hreach
    rw [astarLoop]
    by_cases he : st.pq.is_empty
    · exfalso
      have hqe : st.pq.heap = [] := by
        simpa [PriorityQueue.is_empty, PriorityQueue.size, List.length_eq_zero]
          using he
      obtain ⟨p0, hp0⟩ := hreach
      obtain ⟨q, y, r2, hsplit, hqvis, hyns, hpre, hsuf, hpred⟩ :=
        walk_split_unsettled g st.visited p0 s t hp0 hcore.hgoal
      have hyfin : st.g_score y < ⊤ := by
        rcases hpred with ⟨hq0, hys⟩ | ⟨hq, hwv, hedge, hwalk⟩
        · rw [hys, hcore.hs0]
          exact cost_zero_lt_top
        · obtain ⟨e1, he1, heq1, heq2⟩ := weightTo_edge hedge
          have hb := hrel (q.getLast hq) hwv e1 he1 (by rw [heq1]; exact hyns)
          rw [heq1] at hb
          exact lt_of_le_of_lt hb (WithTop.add_lt_top.mpr
            ⟨hcore.hfin _ hwv, WithTop.coe_lt_top e1.2⟩)
      obtain ⟨xf, hxf, _, _⟩ := hcore.hfresh y hyns hyfin
      rw [hqe] at hxf
      exact List.not_mem_nil xf hxf
    · rw [if_neg he]
      rcases hx : st.pq.extract_min with _ | ⟨⟨pri, v⟩, pq2⟩
      · exact absurd (by
          simp [PriorityQueue.is_empty, PriorityQueue.size,
            (PriorityQueue.extract_min_none_iff st.pq).mp hx]) he
      · dsimp only
        have hmin := PriorityQueue.extract_min_min st.pq hcore.hheap (pri, v) pq2 hx
        rcases hh : st.pq.heap with _ | ⟨x0, rest⟩
        · exact absurd (by simp [PriorityQueue.is_empty, PriorityQueue.size, hh]) he
        obtain ⟨q2, hex, hq2heap, hperm, hlen⟩ :=
          PriorityQueue.extract_min_spec st.pq x0 rest hh hcore.hheap
        rw [hx] at hex
        simp only [Option.some.injEq, Prod.mk.injEq] at hex
        obtain ⟨hx1, hq2⟩ := hex
        rw [← hx1] at hperm
        rw [← hq2] at hperm hlen hq2heap
        have hx0mem : (pri, v) ∈ st.pq.heap := by
          rw [hh, ← hx1]
          exact List.mem_cons_self _ _
        obtain ⟨hpritop, hstalev⟩ := hcore.hstale (pri, v) hx0mem
        have hvfin : st.g_score v < ⊤ := by
          have h2 : st.g_score v + ((hfun v t : Rat) : Cost) < ⊤ :=
            lt_of_le_of_lt hstalev hpritop
          exact (WithTop.add_lt_top.mp h2).1
        have hheaplen : st.pq.heap.length = pq2.heap.length + 1 := by
          rw [hlen, hh]
          rfl
        obtain ⟨hnd, hvn, hpn, hmem, hidx⟩ := hterm
        have hcn : v ∈ g.nodeValues :=
          hpn (pri, v) hx0mem
        have hpn2 : ∀ e ∈ pq2.heap, e.2 ∈ g.nodeValues := by
          intro e hee
          exact hpn e (hperm.mem_iff.mp (List.mem_cons_of_mem _ hee))
        by_cases hvis : st.visited.contains v
        · rw [if_pos hvis]
          have hvv : v ∈ st.visited := by simpa using hvis
          refine ih { st with pq := pq2 } ⟨hnd, hvn, hpn2, hmem, hidx⟩
            (by dsimp only; omega) ⟨hcore.hs0, hcore.hlow, hcore.hfin, hcore.hach,
              ?_, ?_, hq2heap, hcore.hgoal⟩ hrel hreach
          · intro x hxm
            exact hcore.hstale x (hperm.mem_iff.mp (List.mem_cons_of_mem _ hxm))
          · intro y hyv hyfin
            obtain ⟨xf, hxf, hxf2, hxf1⟩ := hcore.hfresh y hyv hyfin
            refine ⟨xf, ?_, hxf2, hxf1⟩
            rcases List.mem_cons.mp (hperm.mem_iff.mpr hxf) with h2 | h2
            · exfalso
              rw [h2] at hxf2
              exact hyv (hxf2 ▸ hvv)
            · exact h2
        · rw [if_neg hvis]
          have hnv : v ∉ st.visited := by simpa using hvis
          have hlower : ∀ p, IsWalkFromTo g s v p →
              st.g_score v ≤ walkCost g p := by
            intro p hp
            obtain ⟨q, y, r2, hsplit, hqvis, hyns, hpre, hsuf, hpred⟩ :=
              walk_split_unsettled g st.visited p s v hp hnv
            have hgy : st.g_score y ≤ walkCost g (q ++ [y]) := by
              rcases hpred with ⟨hq0, hys⟩ | ⟨hq, hwv, hedge, hwalk⟩
              · subst hq0
                rw [hys, hcore.hs0]
                rw [show (([] : List Val) ++ [s]) = [s] from rfl,
                  show walkCost g [s] = 0 from rfl]
              · obtain ⟨e1, he1, heq1, heq2⟩ := weightTo_edge hedge
                have hb := hrel (q.getLast hq) hwv e1 he1 (by rw [heq1]; exact hyns)
                rw [heq1] at hb
                have hlw := hcore.hlow (q.getLast hq) hwv q hwalk
                rw [walkCost_snoc g q hq y, heq2]
                exact le_trans hb (add_le_add_right hlw _)
            have hyfin : st.g_score y < ⊤ :=
              lt_of_le_of_lt hgy (walkCost_lt_top hpre)
            obtain ⟨xf, hxf, hxf2, hxf1⟩ := hcore.hfresh y hyns hyfin
            have hminy : pri ≤ xf.1 := hmin xf hxf
            have htel := consistent_telescope hcons (y :: r2) y v hsuf
            have hchain1 : st.g_score v + ((hfun v t : Rat) : Cost) ≤
                walkCost g p + ((hfun v t : Rat) : Cost) := by
              calc st.g_score v + ((hfun v t : Rat) : Cost)
                  ≤ pri := hstalev
                _ ≤ xf.1 := hminy
                _ = st.g_score y + ((hfun y t : Rat) : Cost) := hxf1
                _ ≤ walkCost g (q ++ [y]) + ((hfun y t : Rat) : Cost) :=
                    add_le_add_right hgy _
                _ ≤ walkCost g (q ++ [y]) +
                    (walkCost g (y :: r2) + ((hfun v t : Rat) : Cost)) :=
                    add_le_add_left htel _
                _ = walkCost g (q ++ [y]) + walkCost g (y :: r2) +
                    ((hfun v t : Rat) : Cost) := (add_assoc _ _ _).symm
                _ = walkCost g p + ((hfun v t : Rat) : Cost) := by
                    rw [hsplit, walkCost_append g q y r2]
            exact cost_add_cancel hchain1
          have hnd1 : (st.visited ++ [v]).Nodup := by
            rw [List.nodup_append]
            exact ⟨hnd, List.nodup_singleton _, by simpa using hnv⟩
          have hvn1 : ∀ z ∈ st.visited ++ [v], z ∈ g.nodeValues := by
            intro z hz
            rcases List.mem_append.mp hz with h | h
            · exact hvn z h
            · rw [List.mem_singleton.mp h]
              exact hcn
          obtain ⟨hmem1, hidx1⟩ :=
            settle_parent_inv st.visited st.parent v hnv hmem hidx
          have hN : (st.visited ++ [v]).length ≤ g.nodes.length := by
            have := nodup_subset_length hnd1 hvn1
            simpa [Graph.nodeValues] using this
          by_cases hg : v = t
          · rw [if_pos hg]
            have ht2 : t ∈ st.visited ++ [v] := by
              rw [← hg]
              exact List.mem_append_right _ (List.mem_singleton_self v)
            obtain ⟨l, hl⟩ := walk_succeeds_get st.parent (st.visited ++ [v])
              hmem1 hidx1 (walkFuel g) t ht2
              (by
                have := idxIn_lt_length ht2
                simp only [List.length_append, List.length_singleton] at this hN
                unfold walkFuel
                omega)
            rw [hl]
            refine ⟨_, rfl, rfl, ?_, ?_⟩
            · obtain ⟨p, hp, hcost⟩ := hcore.hach v hvfin
              exact ⟨p, hg ▸ hp, by rw [hcost, hg]⟩
            · intro p hp
              have := hlower p (hg ▸ hp)
              rw [← hg]
              exact this
          · rw [if_neg hg]
            have hcur1 : v ∈ st.visited ++ [v] :=
              List.mem_append_right _ (List.mem_singleton_self v)
            have hterm1 : AStarTermInv g
                { st with
                    pq := pq2
                    visited := st.visited ++ [v]
                    visitedOrder := st.visitedOrder ++ [v] } :=
              ⟨hnd1, hvn1, hpn2, hmem1, hidx1⟩
            have hcore1 : AStarCore g s t hfun
                { st with
                    pq := pq2
                    visited := st.visited ++ [v]
                    visitedOrder := st.visitedOrder ++ [v] } := by
              refine ⟨hcore.hs0, ?_, ?_, hcore.hach, ?_, ?_, hq2heap, ?_⟩
              · intro z hz p hp
                rcases List.mem_append.mp hz with h | h
                · exact hcore.hlow z h p hp
                · rw [List.mem_singleton.mp h] at hp ⊢
                  exact hlower p hp
              · intro z hz
                rcases List.mem_append.mp hz with h | h
                · exact hcore.hfin z h
                · rw [List.mem_singleton.mp h]
                  exact hvfin
              · intro x hxm
                exact hcore.hstale x (hperm.mem_iff.mp (List.mem_cons_of_mem _ hxm))
              · intro y hyv hyfin
                have hyv0 : y ∉ st.visited :=
                  fun h2 => hyv (List.mem_append_left _ h2)
                have hyne : y ≠ v := by
                  intro h2
                  exact hyv (List.mem_append_right _ (by rw [h2]; exact List.mem_singleton_self v))
                obtain ⟨xf, hxf, hxf2, hxf1⟩ := hcore.hfresh y hyv0 hyfin
                refine ⟨xf, ?_, hxf2, hxf1⟩
                rcases List.mem_cons.mp (hperm.mem_iff.mpr hxf) with h2 | h2
                · exfalso
                  rw [h2] at hxf2
                  exact hyne hxf2.symm
                · exact h2
              · intro h2
                rcases List.mem_append.mp h2 with h3 | h3
                · exact hcore.hgoal h3
                · exact hg (List.mem_singleton.mp h3).symm
            have hrel1 : AStarRelax g
                { st with
                    pq := pq2
                    visited := st.visited ++ [v]
                    visitedOrder := st.visitedOrder ++ [v] } v := by
              intro u hu hune e2 he2 hnv2
              dsimp only at hu hnv2 ⊢
              have hu0 : u ∈ st.visited := by
                rcases List.mem_append.mp hu with h2 | h2
                · exact h2
                · exact absurd (List.mem_singleton.mp h2) hune
              exact hrel u hu0 e2 he2 (fun h2 => hnv2 (List.mem_append_left _ h2))
            obtain ⟨hcore2, hrel2, hfroz, hcurb, hmono2⟩ := astarScan_opt g s t hfun
              hwf hnn v _ hcore1 hrel1 hcur1
            have hfields := astarScan_fields g t hfun v
              { st with
                  pq := pq2
                  visited := st.visited ++ [v]
                  visitedOrder := st.visitedOrder ++ [v] }
            have hrelall2 : AStarRelaxAll g (astarScan g t hfun v
                { st with
                    pq := pq2
                    visited := st.visited ++ [v]
                    visitedOrder := st.visitedOrder ++ [v] }) := by
              intro u hu e2 he2 hnv2
              rw [hfields.1] at hu hnv2
              by_cases huv : u = v
              · subst huv
                have := hcurb e2 he2 (by
                  dsimp only
                  intro h2
                  exact hnv2 h2)
                exact this
              · exact hrel2 u (by rw [hfields.1]; exact hu) huv e2 he2
                  (by rw [hfields.1]; exact hnv2)
            obtain ⟨hterm2, hstk2, hvis2⟩ := astarScan_term g hwf t hfun v _ hterm1 hcur1
            refine ih _ hterm2 ?_ hcore2 hrelall2 hreach
            have hadj : (g.adjOf v).length ≤ g.edgeTotal := g.adjOf_length_le v
            dsimp only at hstk2
            rw [hvis2]
            have hvl1 : (st.visited ++ [v]).length = st.visited.length + 1 := by
              simp
            rw [hvl1]
            have hmul : (g.edgeTotal + 1) * (g.nodes.length - st.visited.length) =
                (g.edgeTotal + 1) * (g.nodes.length - (st.visited.length + 1)) +
                  (g.edgeTotal + 1) := by
              have h1 : g.nodes.length - st.visited.length =
                  (g.nodes.length - (st.visited.length + 1)) + 1 := by
                simp only [List.length_append, List.length_singleton] at hN
                omega
              rw [h1, Nat.mul_succ]
            rw [hmul] at hfuel
            obtain ⟨P, hP⟩ : ∃ P,
                (g.edgeTotal + 1) * (g.nodes.length - (st.visited.length + 1)) = P :=
              ⟨_, rfl⟩
            rw [hP] at hfuel ⊢
            omega


/-- A* with a consistent heuristic returns the least walk cost whenever the
goal is reachable from the start. -/
theorem astar_opt (g : Graph) (s t : Val) (hfun : Heuristic) (hwf : g.WF)
    (hnn : g.Nonneg) (hcons : Consistent g hfun t)
    (hsn : s ∈ g.nodeValues) (htn : t ∈ g.nodeValues)
    (hreach : ∃ p, IsWalkFromTo g s t p) :
    ∃ r, astar g s t hfun = some r ∧ r.found = true ∧
      (∃ p, IsWalkFromTo g s t p ∧ walkCost g p = r.cost) ∧
      (∀ p, IsWalkFromTo g s t p → r.cost ≤ walkCost g p) := by
  unfold astar
  rcases hgs : g.get_node s with _ | adjs
  · obtain ⟨adj, ha⟩ := Graph.get_node_isSome_of_mem hsn
    rw [hgs] at ha
    cases ha
  rcases hgt : g.get_node t with _ | adjt
  · obtain ⟨adj, ha⟩ := Graph.get_node_isSome_of_mem htn
    rw [hgt] at ha
    cases ha
  have hperm := PriorityQueue.insert_perm (PriorityQueue.empty : PriorityQueue Val)
    s ((hfun s t : Rat) : Cost)
  have hterm0 : AStarTermInv g
      ⟨fun v => if v = s then 0 else ⊤,
        fun v => if v = s then ((hfun s t : Rat) : Cost) else ⊤,
        setParent emptyParent s none, [], [],
        PriorityQueue.empty.insert s ((hfun s t : Rat) : Cost)⟩ := by
    refine ⟨List.nodup_nil, ?_, ?_, ?_, ?_⟩
    · intro v hv
      exact absurd hv (List.not_mem_nil v)
    · intro x hx
      rcases List.mem_cons.mp (hperm.mem_iff.mp hx) with h2 | h2
      · rw [h2]
        exact hsn
      · simp [PriorityQueue.empty] at h2
    · intro v u hp
      exact absurd hp (init_parent_ne s v u)
    · intro v hv u hp
      exact absurd hv (List.not_mem_nil v)
  have hcore0 : AStarCore g s t hfun
      ⟨fun v => if v = s then 0 else ⊤,
        fun v => if v = s then ((hfun s t : Rat) : Cost) else ⊤,
        setParent emptyParent s none, [], [],
        PriorityQueue.empty.insert s ((hfun s t : Rat) : Cost)⟩ := by
    refine ⟨by simp, ?_, ?_, ?_, ?_, ?_, ?_, List.not_mem_nil t⟩
    · intro v hv
      exact absurd hv (List.not_mem_nil v)
    · intro v hv
      exact absurd hv (List.not_mem_nil v)
    · intro v hv
      dsimp only at hv ⊢
      by_cases hvs : v = s
      · subst hvs
        refine ⟨[v], ⟨List.cons_ne_nil v [], rfl, rfl,
          List.chain'_singleton v⟩, ?_⟩
        rw [show walkCost g [v] = 0 from rfl, if_pos rfl]
      · rw [if_neg hvs] at hv
        exact absurd hv (lt_irrefl ⊤)
    · intro x hx
      dsimp only at hx ⊢
      rcases List.mem_cons.mp (hperm.mem_iff.mp hx) with h2 | h2
      · rw [h2]
        dsimp only
        refine ⟨WithTop.coe_lt_top _, ?_⟩
        rw [if_pos rfl, zero_add]
      · simp [PriorityQueue.empty] at h2
    · intro v hv hfi
      dsimp only at hfi ⊢
      by_cases hvs : v = s
      · refine ⟨(((hfun s t : Rat) : Cost), s), ?_, hvs.symm, ?_⟩
        · exact hperm.mem_iff.mpr (List.mem_cons_self _ _)
        · rw [if_pos hvs, zero_add, hvs]
      · rw [if_neg hvs] at hfi
        exact absurd hfi (lt_irrefl ⊤)
    · dsimp only
      refine PriorityQueue.insert_heap _ _ _ ?_
      intro c hc0 hcl
      simp [PriorityQueue.empty] at hcl
  have hrel0 : AStarRelaxAll g
      ⟨fun v => if v = s then 0 else ⊤,
        fun v => if v = s then ((hfun s t : Rat) : Cost) else ⊤,
        setParent emptyParent s none, [], [],
        PriorityQueue.empty.insert s ((hfun s t : Rat) : Cost)⟩ := by
    intro u hu
    exact absurd hu (List.not_mem_nil u)
  have hpl : (PriorityQueue.empty.insert s ((hfun s t : Rat) : Cost) :
      PriorityQueue Val).heap.length = 1 := by
    have h2 := PriorityQueue.insert_size (PriorityQueue.empty : PriorityQueue Val)
      s ((hfun s t : Rat) : Cost)
    simpa [PriorityQueue.size, PriorityQueue.empty] using h2
  have hprod : (g.nodes.length + 1) * 2 ≤
      (g.nodes.length + 1) * (g.edgeTotal + 2) :=
    Nat.mul_le_mul_left _ (by omega)
  have hring : (g.nodes.length + 1) * (g.edgeTotal + 2) =
      (g.edgeTotal + 1) * g.nodes.length + g.nodes.length + g.edgeTotal + 2 := by
    ring
  obtain ⟨r, hr, hfound, hach, hlow⟩ := astarLoop_opt g s t hfun hwf hnn hcons
    (searchFuel g) _ hterm0
    (by
      dsimp only
      rw [hpl]
      unfold searchFuel
      simp only [List.length_nil, Nat.sub_zero]
      omega)
    hcore0 hrel0 hreach
  exact ⟨r, hr, hfound, hach, hlow⟩

/-- With the zero heuristic the A* code path coincides with Dijkstra. -/
theorem astar_zero_eq_dijkstra_all (g : Graph) (start_value goal_value : Val) :
    astar g start_value goal_value zero_heuristic =
      dijkstra g start_value goal_value := by
  unfold astar dijkstra
  rcases hgs : g.get_node start_value with _ | a
  · rfl
  rcases hgt : g.get_node goal_value with _ | b
  · rfl
  have hfs : (fun v => if v = start_value
      then ((zero_heuristic start_value goal_value : Rat) : Cost) else ⊤) =
      (fun v => if v = start_value then (0 : Cost) else ⊤) := by
    funext v
    show (if v = start_value then (((0 : Rat)) : Cost) else ⊤) = _
    norm_num
  have hpq : PriorityQueue.empty.insert start_value
      ((zero_heuristic start_value goal_value : Rat) : Cost) =
      PriorityQueue.empty.insert start_value (0 : Cost) := by
    show PriorityQueue.empty.insert start_value (((0 : Rat)) : Cost) = _
    norm_num
  rw [hfs, hpq]
  exact astarLoop_zero g goal_value (searchFuel g)
    ⟨fun v => if v = start_value then 0 else ⊤,
      setParent emptyParent start_value none, [], [],
      PriorityQueue.empty.insert start_value (0 : Cost)⟩

/-- Under nonnegative weights the zero heuristic is consistent. -/
theorem zero_heuristic_consistent (g : Graph) (t : Val) (hnn : g.Nonneg) :
    Consistent g zero_heuristic t := by
  refine ⟨rfl, ?_⟩
  intro nv hnv e he
  show (0 : Rat) ≤ e.2 + 0
  have := hnn nv hnv e he
  linarith

/-- A consistent heuristic is admissible. -/
theorem admissible_of_consistent {g : Graph} {hfun : Heuristic} {t : Val}
    (hc : Consistent g hfun t) : Admissible g hfun t := by
  intro v p hw
  have h1 := consistent_telescope hc p v t hw
  rw [hc.1] at h1
  have h2 : (((0 : Rat)) : Cost) = 0 := rfl
  rw [h2, add_zero] at h1
  exact h1


/-! Claim C1. -/

/-- The directed graph on which an admissible but inconsistent heuristic
misleads A*. -/
def c1Graph : Graph :=
  (((((Graph.mk true []).add_edge 0 1 2).add_edge 0 2 2).add_edge 1 3 2).add_edge
    2 3 1).add_edge 3 4 20

/-- An admissible but inconsistent heuristic on c1Graph towards goal 4. -/
def c1Heuristic : Heuristic := fun v _ => if v = 2 then 21 else 0

theorem c1Heuristic_admissible : Admissible c1Graph c1Heuristic 4 := by
  intro v p hw
  by_cases hv : v = 2
  · subst hv
    have hstep2 : ∀ b, EdgeOf c1Graph 2 b → b = 3 := by
      intro b hb
      obtain ⟨e, he, h1⟩ := hb
      have hadj : c1Graph.adjOf 2 = [(3, 1)] := by decide
      rw [hadj] at he
      rw [← h1, List.mem_singleton.mp he]
    have hstep3 : ∀ b, EdgeOf c1Graph 3 b → b = 4 := by
      intro b hb
      obtain ⟨e, he, h1⟩ := hb
      have hadj : c1Graph.adjOf 3 = [(4, 20)] := by decide
      rw [hadj] at he
      rw [← h1, List.mem_singleton.mp he]
    have hstep4 : ∀ b, ¬EdgeOf c1Graph 4 b := by
      intro b hb
      obtain ⟨e, he, h1⟩ := hb
      have hadj : c1Graph.adjOf 4 = [] := by decide
      rw [hadj] at he
      exact List.not_mem_nil e he
    have hp : p = [2, 3, 4] := by
      rcases p with _ | ⟨a, rest⟩
      · exact absurd rfl hw.1
      have ha : a = 2 := by simpa using hw.2.1
      subst ha
      rcases rest with _ | ⟨b, rest2⟩
      · exact absurd (by simpa using hw.2.2.1 : (2 : Val) = 4) (by decide)
      obtain ⟨he1, hw1⟩ := walk_cons_elim hw
      have hb : b = 3 := hstep2 b he1
      subst hb
      rcases rest2 with _ | ⟨c, rest3⟩
      · exact absurd (by simpa using hw1.2.2.1 : (3 : Val) = 4) (by decide)
      obtain ⟨he2, hw2⟩ := walk_cons_elim hw1
      have hc : c = 4 := hstep3 c he2
      subst hc
      rcases rest3 with _ | ⟨d, rest4⟩
      · rfl
      obtain ⟨he3, hw3⟩ := walk_cons_elim hw2
      exact absurd he3 (hstep4 d)
    rw [hp]
    have hcost : walkCost c1Graph [2, 3, 4] = ((21 : Rat) : Cost) := by
      with_unfolding_all rfl
    rw [hcost]
    show (((if (2 : Val) = 2 then (21 : Rat) else 0) : Rat) : Cost) ≤ _
    rw [if_pos rfl]
  · have h0 : c1Heuristic v 4 = 0 := by
      simp [c1Heuristic, hv]
    rw [h0]
    rw [show (((0 : Rat)) : Cost) = 0 from rfl]
    exact walkCost_nonneg (by with_unfolding_all decide) p

/-- C1 counterexample: on a well-formed nonnegatively weighted graph with
the goal reachable, A* with an admissible (but inconsistent) heuristic
returns cost 24 although Dijkstra returns the true least cost 23: the
claimed equality of costs under mere admissibility fails. -/
theorem c1_admissible_astar_not_optimal :
    c1Graph.WF ∧ c1Graph.Nonneg ∧ Admissible c1Graph c1Heuristic 4 ∧
    IsWalkFromTo c1Graph 0 4 [0, 2, 3, 4] ∧
    walkCost c1Graph [0, 2, 3, 4] = ((23 : Rat) : Cost) ∧
    (dijkstra c1Graph 0 4).map WeightedResult.cost = some ((23 : Rat) : Cost) ∧
    (astar c1Graph 0 4 c1Heuristic).map WeightedResult.cost =
      some ((24 : Rat) : Cost) ∧
    ((24 : Rat) : Cost) ≠ ((23 : Rat) : Cost) := by
  refine ⟨by decide, by with_unfolding_all decide, c1Heuristic_admissible, ?_,
    by with_unfolding_all rfl, by with_unfolding_all rfl,
    by with_unfolding_all rfl, by with_unfolding_all decide⟩
  refine ⟨by decide, rfl, rfl, ?_⟩
  rw [List.chain'_cons, List.chain'_cons, List.chain'_pair]
  exact ⟨by decide, by decide, by decide⟩

/-- C1 amended: on a well-formed graph with nonnegative weights and the
goal reachable from the start, Dijkstra returns found with the true least
walk cost, and A* with any consistent heuristic returns the same cost. -/
theorem c1_dijkstra_optimal_astar_consistent (g : Graph) (s t : Val)
    (hfun : Heuristic) (hwf : g.WF) (hnn : g.Nonneg)
    (hcons : Consistent g hfun t) (hsn : s ∈ g.nodeValues)
    (htn : t ∈ g.nodeValues) (hreach : ∃ p, IsWalkFromTo g s t p) :
    ∃ r1 r2, dijkstra g s t = some r1 ∧ astar g s t hfun = some r2 ∧
      r1.found = true ∧ r2.found = true ∧ r2.cost = r1.cost ∧
      (∃ p, IsWalkFromTo g s t p ∧ walkCost g p = r1.cost) ∧
      (∀ p, IsWalkFromTo g s t p → r1.cost ≤ walkCost g p) := by
  obtain ⟨r1, hr1, hf1, hach1, hlow1⟩ := astar_opt g s t zero_heuristic hwf hnn
    (zero_heuristic_consistent g t hnn) hsn htn hreach
  obtain ⟨r2, hr2, hf2, hach2, hlow2⟩ := astar_opt g s t hfun hwf hnn hcons
    hsn htn hreach
  have hd : dijkstra g s t = some r1 := by
    rw [← astar_zero_eq_dijkstra_all]
    exact hr1
  obtain ⟨p1, hp1, hc1⟩ := hach1
  obtain ⟨p2, hp2, hc2⟩ := hach2
  refine ⟨r1, r2, hd, hr2, hf1, hf2, ?_, ⟨p1, hp1, hc1⟩, hlow1⟩
  exact le_antisymm (le_of_le_of_eq (hlow2 p1 hp1) hc1)
    (le_of_le_of_eq (hlow1 p2 hp2) hc2)

theorem c1_dijkstra_optimal_astar_consistent_witness :
    ∃ r1 r2, dijkstra (((Graph.mk false []).add_edge 0 1 1).add_edge 1 2 2) 0 2 =
        some r1 ∧
      astar (((Graph.mk false []).add_edge 0 1 1).add_edge 1 2 2) 0 2
        zero_heuristic = some r2 ∧
      r1.found = true ∧ r2.found = true ∧ r2.cost = r1.cost ∧
      (∃ p, IsWalkFromTo (((Graph.mk false []).add_edge 0 1 1).add_edge 1 2 2)
        0 2 p ∧ walkCost (((Graph.mk false []).add_edge 0 1 1).add_edge 1 2 2) p =
          r1.cost) ∧
      (∀ p, IsWalkFromTo (((Graph.mk false []).add_edge 0 1 1).add_edge 1 2 2)
        0 2 p → r1.cost ≤
          walkCost (((Graph.mk false []).add_edge 0 1 1).add_edge 1 2 2) p) :=
  c1_dijkstra_optimal_astar_consistent
    (((Graph.mk false []).add_edge 0 1 1).add_edge 1 2 2) 0 2 zero_heuristic
    (by decide) (by with_unfolding_all decide)
    (zero_heuristic_consistent (((Graph.mk false []).add_edge 0 1 1).add_edge 1 2 2)
      2 (by with_unfolding_all decide))
    (by decide) (by decide)
    ⟨[0, 1, 2], by
      refine ⟨by decide, rfl, rfl, ?_⟩
      rw [List.chain'_cons, List.chain'_pair]
      exact ⟨by decide, by decide⟩⟩


/-! Claim C7. -/

/-- The directed graph on which A* with a consistent heuristic settles more
nodes than Dijkstra. -/
def c7Graph : Graph :=
  ((((Graph.mk true []).add_edge 0 1 1).add_edge 0 2 2).add_edge 1 4 4).add_edge
    2 3 3

/-- A consistent (hence admissible) heuristic on c7Graph towards goal 4. -/
def c7Heuristic : Heuristic := fun v _ => if v = 1 then 3 else 0

/-- C7 counterexample: on a well-formed nonnegatively weighted graph, A*
with a consistent — hence admissible — heuristic settles five nodes while
Dijkstra settles four, so the claimed inequality of explored counts fails. -/
theorem c7_admissible_astar_explores_more :
    c7Graph.WF ∧ c7Graph.Nonneg ∧ Consistent c7Graph c7Heuristic 4 ∧
    Admissible c7Graph c7Heuristic 4 ∧
    (astar c7Graph 0 4 c7Heuristic).map WeightedResult.nodes_explored = some 5 ∧
    (dijkstra c7Graph 0 4).map WeightedResult.nodes_explored = some 4 ∧
    ¬(5 : Nat) ≤ 4 := by
  refine ⟨by decide, by with_unfolding_all decide, by with_unfolding_all decide,
    admissible_of_consistent (by with_unfolding_all decide),
    by with_unfolding_all rfl, by with_unfolding_all rfl, by decide⟩

/-- C7 amended: with the zero heuristic A* reports exactly the same number
of explored nodes as Dijkstra on every graph and endpoint pair, because the
two runs coincide; for general admissible or even consistent heuristics the
claimed inequality can fail. -/
theorem c7_zero_heuristic_explored_eq (g : Graph) (s t : Val) :
    (astar g s t zero_heuristic).map WeightedResult.nodes_explored =
      (dijkstra g s t).map WeightedResult.nodes_explored := by
  rw [astar_zero_eq_dijkstra_all]

end AlgoEngine
